import Mathlib

/-!
creamy-nvr: stream supervisor and artifact lifecycle.

A shallow embedding of `main.go`: the log-line extractor (`onLine`), the
recording catalog, `parseRecordingTime`, the pruner, the liveness monitor and the
stderr writer (`Write`), followed by the properties proved about them.

Conventions of the embedding.

* A Go `string` or `[]byte` is a `List Char`, one `Char` per byte.
* A `time.Time` is a wall-clock instant: whole seconds since the Unix epoch and
  nanoseconds within the second.  The monotonic-clock reading that `time.Now()`
  attaches is kept for the `Start` of a catalog entry (`Recording.StartMono`), which
  the catalog writer compares with `Before` and `After`; elsewhere comparisons and
  differences are those of the wall clock.
* Go `sort.Slice` is `pdqsort_func` of package `sort`, on a list.
* Each call of `time.Now()` is an explicit argument; `time.Since(t)` is `Time.Sub`
  of such a reading and `t`.
* The goroutines are sequential here: a monitor tick on a stream, a line handed to
  `onLine` and a store by `record` are events that happen one after the other.
* Go `int`/`int64` arithmetic on configuration values wraps modulo `2^64`
  (`wrapInt64`).  File sizes and their sums are natural numbers.
-/

namespace CreamyNvr

/-! ## Strings -/

/-- Model of a Go string: the list of its bytes. -/
abbrev GoString := List Char

/-- The apostrophe, U+0027. -/
def apostrophe : Char := Char.ofNat 39

/-- The line feed, U+000A. -/
def newline : Char := Char.ofNat 10

/-- Go `strings.HasSuffix`. -/
def hasSuffix (s suffix : GoString) : Bool :=
  suffix.isSuffixOf s

/-- Go `strings.Contains`: `substr` occurs in `s` at some offset. -/
def containsStr : GoString → GoString → Bool
  | [], substr => substr.isEmpty
  | c :: cs, substr => substr.isPrefixOf (c :: cs) || containsStr cs substr

/-- Consume the literal `lit` at the front of `s`, giving the rest. -/
def literal (lit s : GoString) : Option GoString :=
  if lit.isPrefixOf s then some (s.drop lit.length) else none

/-! ## Instants -/

/-- Model of `time.Time`: seconds since the Unix epoch and nanoseconds in the second. -/
structure Time where
  sec : Int
  nsec : Nat
deriving DecidableEq

/-- Go `Time.After` (wall-clock branch). -/
def Time.After (t u : Time) : Bool :=
  decide (t.sec > u.sec) || (decide (t.sec = u.sec) && decide (t.nsec > u.nsec))

/-- Go `Time.Before` (wall-clock branch). -/
def Time.Before (t u : Time) : Bool :=
  decide (t.sec < u.sec) || (decide (t.sec = u.sec) && decide (t.nsec < u.nsec))

/-! ## Log-line extractor -/

/-- One attempt of the pattern
`\[segment[^\]]+\] \[info\] Opening '([^']+\.mp4)' for writing`
anchored at the front of `s`, giving the capture group.

`[^\]]+` is followed by a literal `]`, so it can only end right before the first
`]`; `[^']+\.mp4` is followed by a literal apostrophe, so the group can only be
the text up to the first apostrophe.  Each anchor therefore has at most one
match and no backtracking choice remains. -/
def matchSegmentAt (s : GoString) : Option GoString :=
  match literal "[segment".toList s with
  | none => none
  | some s1 =>
    let run := s1.takeWhile (fun c => c != ']')
    let r1 := s1.dropWhile (fun c => c != ']')
    if run.isEmpty then none
    else
      match literal ("] [info] Opening ".toList ++ [apostrophe]) r1 with
      | none => none
      | some s2 =>
        let cap := s2.takeWhile (fun c => c != apostrophe)
        let r2 := s2.dropWhile (fun c => c != apostrophe)
        if hasSuffix cap ".mp4".toList && decide (5 ≤ cap.length) then
          match literal (apostrophe :: " for writing".toList) r2 with
          | none => none
          | some _ => some cap
        else none

/-- Element 1 of `exprSegmentWriting.FindStringSubmatch(str)`: the capture group of
the leftmost match, or `none` when the result is nil. -/
def exprSegmentWriting : GoString → Option GoString
  | [] => none
  | c :: cs =>
    match matchSegmentAt (c :: cs) with
    | some cap => some cap
    | none => exprSegmentWriting cs

/-- The cells of `Stream` (each an `AValue` in the source), with the two callables
reduced to whether they are non-nil. -/
structure Stream where
  Active : Bool
  LastRestart : Time
  LastFileOpened : Time
  LastSegmentOpened : Time
  LastSegmentOpenedName : GoString
  OnSegmentClosedSet : Bool
  LastSegmentClosed : Time
  LastRestartInErr : Bool
  LastFileOpenedInErr : Bool
  LastSegmentOpenedInErr : Bool
  RestartRecordingSet : Bool
deriving DecidableEq

/-- A stream as `main` initialises it; `sentinel` is
`time.Date(1995, 7, 17, 0, 1, 2, 3, time.Local)`. -/
def initStream (sentinel : Time) : Stream :=
  { Active := false
    LastRestart := sentinel
    LastFileOpened := sentinel
    LastSegmentOpened := sentinel
    LastSegmentOpenedName := []
    OnSegmentClosedSet := true
    LastSegmentClosed := sentinel
    LastRestartInErr := true
    LastFileOpenedInErr := true
    LastSegmentOpenedInErr := true
    RestartRecordingSet := false }

/-- The values the three `time.Now()` calls of `onLine` return, in source order. -/
structure Nows where
  fileOpened : Time
  segmentOpened : Time
  segmentClosed : Time
deriving DecidableEq

/-- An invocation `OnSegmentClosed(opened, segment)`. -/
abbrev ClosedCall := Time × GoString

/-- `OpeningForWritingWriter.onLine`: the new stream cells and the
`OnSegmentClosed` invocations made while processing the line.  Forwarding the
line to the parent log writers touches no stream cell and is left out. -/
def onLine (w : Stream) (now : Nows) (p : GoString) : Stream × List ClosedCall :=
  if containsStr p "Opening".toList && containsStr p "for writing".toList then
    let w1 := { w with LastFileOpened := now.fileOpened }
    match exprSegmentWriting p with
    | none => (w1, [])
    | some name =>
      let previousSegmentTime := w1.LastSegmentOpened
      let previousSegment := w1.LastSegmentOpenedName
      let w2 := { w1 with LastSegmentOpened := now.segmentOpened, LastSegmentOpenedName := name }
      if previousSegment != [] then
        ({ w2 with LastSegmentClosed := now.segmentClosed },
          if w2.OnSegmentClosedSet then [(previousSegmentTime, previousSegment)] else [])
      else (w2, [])
  else (w, [])

/-- The stream after `onLine` has processed the lines in order. -/
def feedLines (w : Stream) : List (Nows × GoString) → Stream
  | [] => w
  | (now, p) :: rest => feedLines (onLine w now p).1 rest

/-- All `OnSegmentClosed` invocations made while the lines are processed, in order. -/
def closedCalls (w : Stream) : List (Nows × GoString) → List ClosedCall
  | [] => []
  | (now, p) :: rest => (onLine w now p).2 ++ closedCalls (onLine w now p).1 rest

/-- The segment-open lines of a log: for each line the pattern matches, the instant
read for `LastSegmentOpened` and the captured path. -/
def segmentOpens : List (Nows × GoString) → List ClosedCall
  | [] => []
  | (now, p) :: rest =>
    match exprSegmentWriting p with
    | some name => (now.segmentOpened, name) :: segmentOpens rest
    | none => segmentOpens rest

/-! ## Calendar arithmetic (package `time`) -/

/-- Go `int64` wrap-around of an integer result. -/
def wrapInt64 (x : Int) : Int :=
  (x + 9223372036854775808) % 18446744073709551616 - 9223372036854775808

/-- Offset between Unix seconds and the absolute seconds of package `time`
(`unixToInternal + internalToAbsolute`). -/
def unixToAbsolute : Int := 9223372028715321600

/-- Go `isLeap`. -/
def isLeap (year : Int) : Bool :=
  decide (year % 4 = 0) && (decide (year % 100 ≠ 0) || decide (year % 400 = 0))

/-- Go `daysBefore[m]`: days in a non-leap year before month `m + 1`. -/
def daysBefore (m : Nat) : Nat :=
  match m with
  | 0 => 0
  | 1 => 31
  | 2 => 59
  | 3 => 90
  | 4 => 120
  | 5 => 151
  | 6 => 181
  | 7 => 212
  | 8 => 243
  | 9 => 273
  | 10 => 304
  | 11 => 334
  | _ => 365

/-- Go `daysIn`; `leap` is `isLeap(year)`. -/
def daysIn (month : Nat) (leap : Bool) : Nat :=
  if month = 2 ∧ leap = true then 29 else daysBefore month - daysBefore (month - 1)

/-- Go `daysSinceEpoch`: days from the absolute epoch to the start of `year`. -/
def daysSinceEpoch (year : Int) : Nat :=
  let y := (year + 292277022399).toNat
  let n400 := y / 400
  let y1 := y - 400 * n400
  let n100 := y1 / 100
  let y2 := y1 - 100 * n100
  let n4 := y2 / 4
  let y3 := y2 - 4 * n4
  146097 * n400 + 36524 * n100 + 1461 * n4 + 365 * y3

/-- Go `time.Date(year, month, day, hour, min, sec, nsec, time.UTC)` for fields that are
already in range, where its normalisation steps change nothing. -/
def Date (year : Int) (month day hour min sec nsec : Nat) : Time :=
  let d := daysSinceEpoch year + daysBefore (month - 1)
    + (if isLeap year = true ∧ 3 ≤ month then 1 else 0) + (day - 1)
  let abs := d * 86400 + (hour * 3600 + min * 60 + sec)
  { sec := (abs : Int) - unixToAbsolute, nsec := nsec }

/-- Go `Time.abs` of a UTC instant. -/
def Time.abs (t : Time) : Nat := (t.sec + unixToAbsolute).toNat

/-- Go `absDate(abs, false)` on the day count `abs / secondsPerDay`: the year and the
zero-based day within the year. -/
def absYearDay (d : Nat) : Int × Nat :=
  let n400 := d / 146097
  let d1 := d - 146097 * n400
  let n100 := d1 / 36524 - (d1 / 36524) / 4
  let d2 := d1 - 36524 * n100
  let n4 := d2 / 1461
  let d3 := d2 - 1461 * n4
  let n1 := d3 / 365 - (d3 / 365) / 4
  (((400 * n400 + 100 * n100 + 4 * n4 + n1 : Nat) : Int) - 292277022399, d3 - 365 * n1)

/-- The second half of Go `absDate(abs, true)`: month and day of month from the day
within the year; `leap` is `isLeap(year)`. -/
def monthDay (leap : Bool) (yday : Nat) : Nat × Nat :=
  if leap = true ∧ yday = 59 then (2, 29)
  else
    let day := if leap = true ∧ 59 < yday then yday - 1 else yday
    let m := day / 31
    if daysBefore (m + 1) ≤ day then (m + 2, day - daysBefore (m + 1) + 1)
    else (m + 1, day - daysBefore m + 1)

/-- Go `absDate(abs, true)`: year, month and day of month. -/
def absDate (abs : Nat) : Int × Nat × Nat :=
  let yd := absYearDay (abs / 86400)
  (yd.1, monthDay (isLeap yd.1) yd.2)

/-- Go `absClock`: hour, minute and second within the day. -/
def absClock (abs : Nat) : Nat × Nat × Nat :=
  let sec := abs % 86400
  let hour := sec / 3600
  let sec1 := sec - hour * 3600
  let min := sec1 / 60
  (hour, min, sec1 - min * 60)

/-- The decimal digit `d` as a byte. -/
def digitChar (d : Nat) : Char := Char.ofNat (48 + d)

/-- Go `'0' <= c && c <= '9'`. -/
def isDigitChar (c : Char) : Bool := decide (48 ≤ c.toNat) && decide (c.toNat ≤ 57)

/-- Value of a decimal digit byte, `c - '0'`. -/
def digitVal (c : Char) : Nat := c.toNat - 48

/-- Go `appendInt(b, x, width)` on an empty `b`: decimal `x`, zero-padded to `width`. -/
def appendInt (x : Int) (width : Nat) : GoString :=
  let u := x.natAbs
  let sign : GoString := if x < 0 then ['-'] else []
  if width = 2 ∧ u < 100 then
    sign ++ [digitChar (u / 10), digitChar (u % 10)]
  else if width = 4 ∧ u < 10000 then
    sign ++ [digitChar (u / 1000), digitChar (u / 100 % 10), digitChar (u / 10 % 10),
      digitChar (u % 10)]
  else
    let digits := Nat.toDigits 10 u
    sign ++ List.replicate (width - digits.length) '0' ++ digits

/-- Go `t.Format("2006-01-02-15-04-05")` for a UTC instant `t`. -/
def formatStamp (t : Time) : GoString :=
  let date := absDate t.abs
  let clock := absClock t.abs
  appendInt date.1 4 ++ '-' :: appendInt date.2.1 2 ++ '-' :: appendInt date.2.2 2
    ++ '-' :: appendInt clock.1 2 ++ '-' :: appendInt clock.2.1 2
    ++ '-' :: appendInt clock.2.2 2

/-- Go `getnum`: a one- or two-digit number at the front of `s`; with `fixed`, two
digits are required. -/
def getnum : GoString → Bool → Option (Nat × GoString)
  | [], _ => none
  | [c0], fixed =>
    if isDigitChar c0 then (if fixed then none else some (digitVal c0, [])) else none
  | c0 :: c1 :: rest, fixed =>
    if isDigitChar c0 then
      if isDigitChar c1 then some (digitVal c0 * 10 + digitVal c1, rest)
      else if fixed then none else some (digitVal c0, c1 :: rest)
    else none

/-- The `stdLongYear` case of Go `time.parse`: exactly four digits (`atoi` of the first
four bytes, the first of which must be a digit). -/
def parseLongYear : GoString → Option (Int × GoString)
  | c0 :: c1 :: c2 :: c3 :: rest =>
    if isDigitChar c0 && isDigitChar c1 && isDigitChar c2 && isDigitChar c3 then
      some (((digitVal c0 * 1000 + digitVal c1 * 100 + digitVal c2 * 10 + digitVal c3 : Nat) : Int),
        rest)
    else none
  | _ => none

/-- Decimal value of a list of digit bytes. -/
def digitsValue (ds : GoString) : Nat :=
  ds.foldl (fun acc c => acc * 10 + digitVal c) 0

/-- The fractional-second special case after the seconds field of Go `time.parse`: a
period or comma followed by digits is accepted although the layout has no fraction;
`parseNanoseconds` reads at most nine of the digits.  Gives the nanoseconds and the
remaining input. -/
def parseFraction : GoString → Nat × GoString
  | c :: d :: rest =>
    if (c == '.' || c == ',') && isDigitChar d then
      let digits := (d :: rest).takeWhile isDigitChar
      let used := digits.take 9
      (digitsValue used * 10 ^ (9 - used.length), (d :: rest).dropWhile isDigitChar)
    else (0, c :: d :: rest)
  | value => (0, value)

/-- Go `time.Parse("2006-01-02-15-04-05", value)`; `none` stands for a non-nil error.
The result is in UTC. -/
def timeParse (value : GoString) : Option Time :=
  match parseLongYear value with
  | none => none
  | some (year, v1) =>
  match literal ['-'] v1 with
  | none => none
  | some v2 =>
  match getnum v2 true with
  | none => none
  | some (month, v3) =>
  if month = 0 ∨ 12 < month then none else
  match literal ['-'] v3 with
  | none => none
  | some v4 =>
  match getnum v4 true with
  | none => none
  | some (day, v5) =>
  match literal ['-'] v5 with
  | none => none
  | some v6 =>
  match getnum v6 false with
  | none => none
  | some (hour, v7) =>
  if 24 ≤ hour then none else
  match literal ['-'] v7 with
  | none => none
  | some v8 =>
  match getnum v8 true with
  | none => none
  | some (min, v9) =>
  if 60 ≤ min then none else
  match literal ['-'] v9 with
  | none => none
  | some v10 =>
  match getnum v10 true with
  | none => none
  | some (sec, v11) =>
  if 60 ≤ sec then none else
  match parseFraction v11 with
  | (nsec, v12) =>
  if v12 ≠ [] then none
  else if day < 1 ∨ daysIn month (isLeap year) < day then none
  else some (Date year month day hour min sec nsec)

/-- Source `parseRecordingTime`; `none` stands for a non-nil error. -/
def parseRecordingTime (path : GoString) : Option Time :=
  if path.length < 24 then none
  else timeParse ((path.drop (path.length - 23)).take 19)

/-- Go `Time.Add` for a duration of `d` nanoseconds (wall-clock part).  The added
seconds are at most `2^63 / 10^9` in magnitude, far from the range of the seconds
field, so the sum is exact. -/
def Time.Add (t : Time) (d : Int) : Time :=
  let dsec := d.tdiv 1000000000
  let nsec : Int := (t.nsec : Int) + d.tmod 1000000000
  if 1000000000 ≤ nsec then { sec := t.sec + dsec + 1, nsec := (nsec - 1000000000).toNat }
  else if nsec < 0 then { sec := t.sec + dsec - 1, nsec := (nsec + 1000000000).toNat }
  else { sec := t.sec + dsec, nsec := nsec.toNat }

/-! ## Configuration and catalog -/

/-- Source `Input`; the limits are Go `int` values. -/
structure Input where
  ID : GoString
  Name : GoString
  URL : GoString
  RecordingAgeLimitHours : Int
  RecordingSizeLimitMegabytes : Int
  StreamAgeLimitHours : Int
  StreamSizeLimitMegabytes : Int
deriving DecidableEq

/-- Source `Input.RecordingDirectory`. -/
def Input.RecordingDirectory (i : Input) : GoString :=
  "media/".toList ++ i.ID ++ "/archive".toList

/-- Source `Input.StreamSegmentDirectory`. -/
def Input.StreamSegmentDirectory (i : Input) : GoString :=
  "media/".toList ++ i.ID ++ "/stream/segments".toList

/-- Source `Recording`.  `Start` is the wall-clock instant of the Go value, and
`StartMono` the monotonic-clock reading (in nanoseconds) that the Go value carries when
it comes from `time.Now()`; a parsed time carries none.  The catalog orders its entries
by comparing these values. -/
structure Recording where
  ID : GoString
  InputID : GoString
  Start : Time
  StartMono : Option Int
  End : Time
  Path : GoString
deriving DecidableEq

/-- Go `path.Base`: the last element of the path, after trailing slashes are removed;
`.` for the empty path and `/` for a path of slashes only. -/
def pathBase (path : GoString) : GoString :=
  if path = [] then ['.']
  else
    let stripped := (path.reverse.dropWhile (fun c => c == '/')).reverse
    let last := (stripped.reverse.takeWhile (fun c => c != '/')).reverse
    if last = [] then ['/'] else last

/-- The closure returned by source `makeSaveRecording`, as the `Recording` it sends on
`saveRecording`; `opened` and `openedMono` are the wall-clock instant and the
monotonic reading of the `time.Time` it is called with, and `now` is its `time.Now()`.
The thumbnail enqueue is left out. -/
def makeSaveRecording (input : Input) (opened : Time) (openedMono : Option Int)
    (segment : GoString) (now : Time) : Recording :=
  { ID := pathBase segment
    InputID := input.ID
    Start := opened
    StartMono := openedMono
    End := now
    Path := segment }

/-- One entry handed to a `filepath.Walk` callback, with what the file system will
answer for it: `walkErr` when Walk passes a non-nil `err`, `removeErr` when
`os.Remove(path)` fails. -/
structure Entry where
  path : GoString
  isDir : Bool
  size : Nat
  walkErr : Bool
  removeErr : Bool
deriving DecidableEq

/-- Outcome of running `ffprobe` on a file and decoding its output. -/
inductive Probe where
  | failed
  | badJson
  | badDuration
  | duration (seconds : Int)
deriving DecidableEq

/-- What the loader's walk callback does for one entry. -/
inductive LoadStep where
  | skip
  | abort
  | save (r : Recording)
deriving DecidableEq

/-- The walk callback of the recordings loader in source `main`; `seconds` of a probe
is `int(duration)`. -/
def loadEntry (input : Input) (probe : GoString → Probe) (e : Entry) : LoadStep :=
  if e.walkErr then LoadStep.abort
  else if !hasSuffix e.path ".mp4".toList || !containsStr e.path input.ID then LoadStep.skip
  else
    match parseRecordingTime e.path with
    | none => LoadStep.abort
    | some recordingDate =>
      match probe e.path with
      | Probe.failed => LoadStep.skip
      | Probe.badJson => LoadStep.abort
      | Probe.badDuration => LoadStep.abort
      | Probe.duration seconds =>
        LoadStep.save
          { ID := pathBase e.path
            InputID := input.ID
            Start := recordingDate
            StartMono := none
            End := recordingDate.Add (wrapInt64 (1000000000 * seconds))
            Path := e.path }

/-- The recordings the loader sends on `saveRecording` during the walk of one input
directory, in order; `walk` lists the entries in the order Walk visits them. -/
def loadWalk (input : Input) (probe : GoString → Probe) : List Entry → List Recording
  | [] => []
  | e :: rest =>
    match loadEntry input probe e with
    | LoadStep.skip => loadWalk input probe rest
    | LoadStep.abort => []
    | LoadStep.save r => r :: loadWalk input probe rest

/-- Source `removeRecordingFromMem`: drop the first recording with the given path. -/
def removeRecordingFromMem (recordings : List Recording) (path : GoString) : List Recording :=
  match recordings with
  | [] => []
  | r :: rest => if r.Path = path then rest else r :: removeRecordingFromMem rest path

/-! ## Pruner -/

/-- The errors a budget pass logs; each ends the walk it occurs in. -/
inductive PruneError where
  | walk
  | unexpectedFile
  | parseTime
  | remove
deriving DecidableEq

/-- What a walk callback of the pruner does with one entry: return nil without
touching it, remove the file and return nil, return `filepath.SkipAll`, or return
an error. -/
inductive WalkStep where
  | next
  | removed
  | skipAll
  | fail (err : PruneError)
deriving DecidableEq

/-- Outcome of one `filepath.Walk` of the pruner: the entries left in the directory,
the files removed (in order), and the error Walk returned, if any. -/
structure WalkResult where
  kept : List Entry
  removed : List Entry
  err : Option PruneError
deriving DecidableEq

/-- Source `sizeOfDir` on the entries Walk visits; `none` stands for a non-nil error. -/
def sizeOfDir : List Entry → Option Nat
  | [] => some 0
  | e :: rest =>
    if e.walkErr then none
    else
      match sizeOfDir rest with
      | none => none
      | some size => some ((if e.isDir then 0 else e.size) + size)

/-- The instant `time.Now().Add(-1 * time.Hour * time.Duration(hours))`. -/
def ageTarget (now : Time) (hours : Int) : Time :=
  now.Add (wrapInt64 (-3600000000000 * hours))

/-- The budget `int64(megabytes) * 1000 * 1000`. -/
def sizeTarget (megabytes : Int) : Int :=
  wrapInt64 (wrapInt64 (megabytes * 1000) * 1000)

/-- The walk callback of "prune recordings by date". -/
def recordingDateStep (input : Input) (target : Time) (e : Entry) : WalkStep :=
  if e.walkErr then WalkStep.fail PruneError.walk
  else if e.isDir then WalkStep.next
  else if (!hasSuffix e.path ".mp4".toList && !hasSuffix e.path ".mp4.jpg".toList)
      || !containsStr e.path input.ID || decide (e.path.length ≤ 24) then
    WalkStep.fail PruneError.unexpectedFile
  else
    match parseRecordingTime e.path with
    | none => WalkStep.fail PruneError.parseTime
    | some recordingDate =>
      if recordingDate.After target then WalkStep.skipAll
      else if e.removeErr then WalkStep.fail PruneError.remove
      else WalkStep.removed

/-- The walk callback of "prune stream segments by date". -/
def segmentDateStep (input : Input) (target : Time) (e : Entry) : WalkStep :=
  if e.walkErr then WalkStep.fail PruneError.walk
  else if e.isDir then WalkStep.next
  else if !hasSuffix e.path ".ts".toList || !containsStr e.path input.ID
      || decide (e.path.length ≤ 24) then
    WalkStep.fail PruneError.unexpectedFile
  else
    match timeParse ((e.path.drop (e.path.length - 22)).take 19) with
    | none => WalkStep.fail PruneError.parseTime
    | some streamSegmentDate =>
      if streamSegmentDate.After target then WalkStep.skipAll
      else if e.removeErr then WalkStep.fail PruneError.remove
      else WalkStep.removed

/-- The walk callback of "prune recordings by size"; `newSize` is the running
estimate when the entry is visited. -/
def recordingSizeStep (input : Input) (target newSize : Int) (e : Entry) : WalkStep :=
  if e.walkErr then WalkStep.fail PruneError.walk
  else if newSize ≤ target then WalkStep.skipAll
  else if e.isDir then WalkStep.next
  else if (!hasSuffix e.path ".mp4".toList && !hasSuffix e.path ".mp4.jpg".toList)
      || !containsStr e.path input.ID then
    WalkStep.fail PruneError.unexpectedFile
  else if e.removeErr then WalkStep.fail PruneError.remove
  else WalkStep.removed

/-- The walk callback of "prune stream segments by size". -/
def segmentSizeStep (input : Input) (target newSize : Int) (e : Entry) : WalkStep :=
  if e.walkErr then WalkStep.fail PruneError.walk
  else if newSize ≤ target then WalkStep.skipAll
  else if e.isDir then WalkStep.next
  else if !hasSuffix e.path ".ts".toList || !containsStr e.path input.ID then
    WalkStep.fail PruneError.unexpectedFile
  else if e.removeErr then WalkStep.fail PruneError.remove
  else WalkStep.removed

/-- `filepath.Walk` with a date callback over the entries in visiting order. -/
def dateWalk (step : Entry → WalkStep) : List Entry → WalkResult
  | [] => { kept := [], removed := [], err := none }
  | e :: rest =>
    match step e with
    | WalkStep.next =>
      let r := dateWalk step rest
      { kept := e :: r.kept, removed := r.removed, err := r.err }
    | WalkStep.removed =>
      let r := dateWalk step rest
      { kept := r.kept, removed := e :: r.removed, err := r.err }
    | WalkStep.skipAll => { kept := e :: rest, removed := [], err := none }
    | WalkStep.fail err => { kept := e :: rest, removed := [], err := some err }

/-- `filepath.Walk` with a size callback; a removal lowers `newSize` by the size of
the removed file. -/
def sizeWalk (step : Int → Entry → WalkStep) (newSize : Int) : List Entry → WalkResult
  | [] => { kept := [], removed := [], err := none }
  | e :: rest =>
    match step newSize e with
    | WalkStep.next =>
      let r := sizeWalk step newSize rest
      { kept := e :: r.kept, removed := r.removed, err := r.err }
    | WalkStep.removed =>
      let r := sizeWalk step (newSize - (e.size : Int)) rest
      { kept := r.kept, removed := e :: r.removed, err := r.err }
    | WalkStep.skipAll => { kept := e :: rest, removed := [], err := none }
    | WalkStep.fail err => { kept := e :: rest, removed := [], err := some err }

/-- The size passes: measure the directory, and walk it when it is over budget. -/
def sizePass (step : Int → Entry → WalkStep) (target : Int) (walk : List Entry) : WalkResult :=
  match sizeOfDir walk with
  | none => { kept := walk, removed := [], err := none }
  | some size =>
    if target < (size : Int) then sizeWalk step (size : Int) walk
    else { kept := walk, removed := [], err := none }

/-- The archive pass "prune recordings by date" of one input at instant `now`, for a
limit `RecordingAgeLimitHours > 0`. -/
def recordingsByDate (input : Input) (now : Time) (walk : List Entry) : WalkResult :=
  dateWalk (recordingDateStep input (ageTarget now input.RecordingAgeLimitHours)) walk

/-- The archive pass "prune recordings by size" of one input, for a limit
`RecordingSizeLimitMegabytes > 0`. -/
def recordingsBySize (input : Input) (walk : List Entry) : WalkResult :=
  sizePass (recordingSizeStep input (sizeTarget input.RecordingSizeLimitMegabytes))
    (sizeTarget input.RecordingSizeLimitMegabytes) walk

/-- The pass "prune stream segments by date". -/
def segmentsByDate (input : Input) (now : Time) (walk : List Entry) : WalkResult :=
  dateWalk (segmentDateStep input (ageTarget now input.StreamAgeLimitHours)) walk

/-- The pass "prune stream segments by size". -/
def segmentsBySize (input : Input) (walk : List Entry) : WalkResult :=
  sizePass (segmentSizeStep input (sizeTarget input.StreamSizeLimitMegabytes))
    (sizeTarget input.StreamSizeLimitMegabytes) walk

/-- The managed directories, each as the list of entries a Walk of it visits, and
the recording catalog. -/
structure Store where
  disk : GoString → List Entry
  recordings : List Recording

/-- Replace the content of one directory. -/
def setDir (disk : GoString → List Entry) (dir : GoString) (entries : List Entry) :
    GoString → List Entry :=
  fun d => if d = dir then entries else disk d

/-- Go `a < b` on strings: bytewise lexicographic order. -/
def strLess : GoString → GoString → Bool
  | [], [] => false
  | [], _ :: _ => true
  | _ :: _, [] => false
  | a :: as, b :: bs =>
    if a < b then true else if b < a then false else strLess as bs

/-- Go `Time.Before` on the `Start` of two recordings: by the monotonic readings when
both values carry one, by the wall clock otherwise. -/
def startBefore (a b : Recording) : Bool :=
  match a.StartMono, b.StartMono with
  | some m, some n => decide (m < n)
  | _, _ => a.Start.Before b.Start

/-- Go `Time.After` on the `Start` of two recordings. -/
def startAfter (a b : Recording) : Bool :=
  match a.StartMono, b.StartMono with
  | some m, some n => decide (n < m)
  | _, _ => a.Start.After b.Start

/-- The `less` function the catalog writer passes to `sort.Slice`. -/
def recordingLess (a b : Recording) : Bool :=
  if startBefore a b then true
  else if startAfter a b then false
  else strLess a.Path b.Path

/-! ## Package `sort` (Go 1.19 and later): `sort.Slice`

`sort.Slice(x, less)` runs `pdqsort_func(lessSwap{less, swap}, 0, length, limit)` of
`zsortfunc.go` with `limit = bits.Len(uint(length))`.  The slice is a list; `less` and
`swap` take indices into the slice as it is at that moment.  Every index the sort
passes to them is in range.

`breakPatterns_func` draws three numbers from a generator whose state starts at the
length of the range.  The step of the generator is the argument `next` of the sort and
of everything that runs the sort; `xorshiftNext` is the step of package `sort`. -/

/-- Go `data.Swap(i, j)`. -/
def swapAt {α : Type} (data : List α) (i j : Nat) : List α :=
  match data[i]?, data[j]? with
  | some x, some y => (data.set i y).set j x
  | _, _ => data

/-- Go `data.Less(i, j)`. -/
def lessAt {α : Type} (less : α → α → Bool) (data : List α) (i j : Nat) : Bool :=
  match data[i]?, data[j]? with
  | some x, some y => less x y
  | _, _ => false

/-- A loop `for i <= j && cond(i) { i++ }`: `n` is the number of indices from `i` to
`j`, so `n = 0` is `i > j`; the result is the final `i`. -/
def scanUp (cond : Nat → Bool) : Nat → Nat → Nat
  | 0, i => i
  | n + 1, i => if cond i then scanUp cond n (i + 1) else i

/-- A loop `for i <= j && cond(j) { j-- }`: `n` is the number of indices from `i` to
`j`; the result is the final `j`. -/
def scanDown (cond : Nat → Bool) : Nat → Nat → Nat
  | 0, j => j
  | n + 1, j => if cond j then scanDown cond n (j - 1) else j

/-- The inner loop of Go `insertionSort_func`,
`for j := i; j > a && data.Less(j, j-1); j-- { data.Swap(j, j-1) }`, from `j`. -/
def insertionShift {α : Type} (less : α → α → Bool) (a : Nat) : Nat → List α → List α
  | 0, data => data
  | j + 1, data =>
    if a < j + 1 && lessAt less data (j + 1) j then
      insertionShift less a j (swapAt data (j + 1) j)
    else data

/-- Go `insertionSort_func(data, a, b)`: `for i := a + 1; i < b; i++` around the
inner loop. -/
def insertionSort_func {α : Type} (less : α → α → Bool) (data : List α) (a b : Nat) : List α :=
  (List.range' (a + 1) (b - (a + 1))).foldl (fun d i => insertionShift less a i d) data

/-- The loop of Go `siftDown_func` from `root`; each round moves `root` to a child,
so `fuel = hi` rounds are enough. -/
def siftDownLoop {α : Type} (less : α → α → Bool) (hi first : Nat) :
    Nat → Nat → List α → List α
  | 0, _, data => data
  | fuel + 1, root, data =>
    if hi ≤ 2 * root + 1 then data
    else
      let child :=
        if 2 * root + 1 + 1 < hi
            && lessAt less data (first + (2 * root + 1)) (first + (2 * root + 1) + 1) then
          2 * root + 1 + 1
        else 2 * root + 1
      if !lessAt less data (first + root) (first + child) then data
      else siftDownLoop less hi first fuel child (swapAt data (first + root) (first + child))

/-- Go `siftDown_func(data, lo, hi, first)`. -/
def siftDown_func {α : Type} (less : α → α → Bool) (data : List α) (lo hi first : Nat) :
    List α :=
  siftDownLoop less hi first hi lo data

/-- Go `heapSort_func(data, a, b)`: build the heap with `i` from `(hi - 1) / 2` down
to 0, then pop with `i` from `hi - 1` down to 0. -/
def heapSort_func {α : Type} (less : α → α → Bool) (data : List α) (a b : Nat) : List α :=
  let first := a
  let lo := 0
  let hi := b - a
  let heap := (List.range ((hi - 1) / 2 + 1)).reverse.foldl
    (fun d i => siftDown_func less d i hi first) data
  (List.range hi).reverse.foldl
    (fun d i => siftDown_func less (swapAt d first (first + i)) lo i first) heap

/-- The `for` loop of Go `partition_func` from `i` and `j`: the slice and the final
`j`.  Each round takes at least two indices from between `i` and `j`, so
`fuel = j + 1 - i` rounds are enough. -/
def partitionLoop {α : Type} (less : α → α → Bool) (a : Nat) :
    Nat → List α → Nat → Nat → List α × Nat
  | 0, data, _, j => (data, j)
  | fuel + 1, data, i, j =>
    let i1 := scanUp (fun k => lessAt less data k a) (j + 1 - i) i
    let j1 := scanDown (fun k => !lessAt less data k a) (j + 1 - i1) j
    if j1 < i1 then (data, j1)
    else partitionLoop less a fuel (swapAt data i1 j1) (i1 + 1) (j1 - 1)

/-- Go `partition_func(data, a, b, pivot)`: the slice, `newpivot` and
`alreadyPartitioned`. -/
def partition_func {α : Type} (less : α → α → Bool) (data : List α) (a b pivot : Nat) :
    List α × Nat × Bool :=
  let data1 := swapAt data a pivot
  let i := a + 1
  let j := b - 1
  let i1 := scanUp (fun k => lessAt less data1 k a) (j + 1 - i) i
  let j1 := scanDown (fun k => !lessAt less data1 k a) (j + 1 - i1) j
  if j1 < i1 then (swapAt data1 j1 a, j1, true)
  else
    let r := partitionLoop less a (j1 - 1 + 1 - (i1 + 1)) (swapAt data1 i1 j1) (i1 + 1) (j1 - 1)
    (swapAt r.1 r.2 a, r.2, false)

/-- The `for` loop of Go `partitionEqual_func` from `i` and `j`: the slice and the
final `i`. -/
def partitionEqualLoop {α : Type} (less : α → α → Bool) (a : Nat) :
    Nat → List α → Nat → Nat → List α × Nat
  | 0, data, i, _ => (data, i)
  | fuel + 1, data, i, j =>
    let i1 := scanUp (fun k => !lessAt less data a k) (j + 1 - i) i
    let j1 := scanDown (fun k => lessAt less data a k) (j + 1 - i1) j
    if j1 < i1 then (data, i1)
    else partitionEqualLoop less a fuel (swapAt data i1 j1) (i1 + 1) (j1 - 1)

/-- Go `partitionEqual_func(data, a, b, pivot)`: the slice and `newpivot`. -/
def partitionEqual_func {α : Type} (less : α → α → Bool) (data : List α) (a b pivot : Nat) :
    List α × Nat :=
  partitionEqualLoop less a (b - 1 + 1 - (a + 1)) (swapAt data a pivot) (a + 1) (b - 1)

/-- The loop "shift the smaller one to the left" of Go `partialInsertionSort_func`:
`for j := i - 1; j >= 1; j--`, from `j`. -/
def shiftSmaller {α : Type} (less : α → α → Bool) : Nat → List α → List α
  | 0, data => data
  | j + 1, data =>
    if !lessAt less data (j + 1) j then data
    else shiftSmaller less j (swapAt data (j + 1) j)

/-- The loop "shift the greater one to the right" of Go `partialInsertionSort_func`:
`for j := i + 1; j < b; j++`, from `j`, with `n = b - j` indices to go. -/
def shiftGreater {α : Type} (less : α → α → Bool) : Nat → Nat → List α → List α
  | 0, _, data => data
  | n + 1, j, data =>
    if !lessAt less data j (j - 1) then data
    else shiftGreater less n (j + 1) (swapAt data j (j - 1))

/-- The outer loop of Go `partialInsertionSort_func`, with `steps` of its `maxSteps`
rounds to go: the slice and the returned flag. -/
def partialInsertionSteps {α : Type} (less : α → α → Bool) (a b : Nat) :
    Nat → Nat → List α → List α × Bool
  | 0, _, data => (data, false)
  | steps + 1, i, data =>
    let i1 := scanUp (fun k => !lessAt less data k (k - 1)) (b - i) i
    if i1 = b then (data, true)
    else if b - a < 50 then (data, false)
    else
      let data1 := swapAt data i1 (i1 - 1)
      let data2 := if 2 ≤ i1 - a then shiftSmaller less (i1 - 1) data1 else data1
      let data3 := if 2 ≤ b - i1 then shiftGreater less (b - (i1 + 1)) (i1 + 1) data2 else data2
      partialInsertionSteps less a b steps i1 data3

/-- Go `partialInsertionSort_func(data, a, b)`, with `maxSteps = 5` and
`shortestShifting = 50`. -/
def partialInsertionSort_func {α : Type} (less : α → α → Bool) (data : List α) (a b : Nat) :
    List α × Bool :=
  partialInsertionSteps less a b 5 (a + 1) data

/-- Go `bits.Len(uint(n))`. -/
def bitsLen (n : Nat) : Nat :=
  if n = 0 then 0 else Nat.log2 n + 1

/-- Go `nextPowerOfTwo(length)`. -/
def nextPowerOfTwo (length : Nat) : Nat :=
  2 ^ bitsLen length

/-- Go `(*xorshift).Next` on a `uint64` state: the new state, which is the number
returned as well. -/
def xorshiftNext (r : Nat) : Nat :=
  let r1 := r ^^^ ((r <<< 13) % 18446744073709551616)
  let r2 := r1 ^^^ (r1 >>> 7)
  r2 ^^^ ((r2 <<< 17) % 18446744073709551616)

/-- One round of the loop of Go `breakPatterns_func`: the random state and the slice
after round `i`.  The step `random.Next()` of the generator is the argument `next`. -/
def breakPatternsStep {α : Type} (next : Nat → Nat) (a length modulus idx : Nat)
    (state : Nat × List α) (i : Nat) : Nat × List α :=
  let random := next state.1
  let other := random &&& (modulus - 1)
  let other1 := if length ≤ other then other - length else other
  (random, swapAt state.2 (idx - 1 + i) (a + other1))

/-- Go `breakPatterns_func(data, a, b)`, drawing from the generator with step `next`. -/
def breakPatterns_func {α : Type} (next : Nat → Nat) (data : List α) (a b : Nat) : List α :=
  let length := b - a
  if 8 ≤ length then
    ([0, 1, 2].foldl
      (breakPatternsStep next a length (nextPowerOfTwo length) (a + (length / 4) * 2 - 1))
      (length, data)).2
  else data

/-- Go `sortedHint`. -/
inductive SortedHint where
  | unknownHint
  | increasingHint
  | decreasingHint
deriving DecidableEq

/-- Go `order2_func(data, a, b, swaps)`: the two indices and the new `*swaps`. -/
def order2_func {α : Type} (less : α → α → Bool) (data : List α) (a b swaps : Nat) :
    Nat × Nat × Nat :=
  if lessAt less data b a then (b, a, swaps + 1) else (a, b, swaps)

/-- Go `median_func(data, a, b, c, swaps)`: the index and the new `*swaps`. -/
def median_func {α : Type} (less : α → α → Bool) (data : List α) (a b c swaps : Nat) :
    Nat × Nat :=
  let r1 := order2_func less data a b swaps
  let r2 := order2_func less data r1.2.1 c r1.2.2
  let r3 := order2_func less data r1.1 r2.1 r2.2.2
  (r3.2.1, r3.2.2)

/-- Go `medianAdjacent_func(data, a, swaps)`. -/
def medianAdjacent_func {α : Type} (less : α → α → Bool) (data : List α) (a swaps : Nat) :
    Nat × Nat :=
  median_func less data (a - 1) a (a + 1) swaps

/-- Go `choosePivot_func(data, a, b)`, with `shortestNinther = 50` and
`maxSwaps = 4 * 3`. -/
def choosePivot_func {α : Type} (less : α → α → Bool) (data : List α) (a b : Nat) :
    Nat × SortedHint :=
  let l := b - a
  let i := a + l / 4 * 1
  let j := a + l / 4 * 2
  let k := a + l / 4 * 3
  if 8 ≤ l then
    let mi := if 50 ≤ l then medianAdjacent_func less data i 0 else (i, 0)
    let mj := if 50 ≤ l then medianAdjacent_func less data j mi.2 else (j, 0)
    let mk := if 50 ≤ l then medianAdjacent_func less data k mj.2 else (k, 0)
    let m := median_func less data mi.1 mj.1 mk.1 mk.2
    (m.1,
      if m.2 = 0 then SortedHint.increasingHint
      else if m.2 = 12 then SortedHint.decreasingHint
      else SortedHint.unknownHint)
  else (j, SortedHint.increasingHint)

/-- The loop of Go `reverseRange_func` from `i` and `j`, with `n` rounds to go. -/
def reverseLoop {α : Type} : Nat → Nat → Nat → List α → List α
  | 0, _, _, data => data
  | n + 1, i, j, data =>
    if i < j then reverseLoop n (i + 1) (j - 1) (swapAt data i j) else data

/-- Go `reverseRange_func(data, a, b)`; the loop makes `(b - a) / 2` rounds. -/
def reverseRange_func {α : Type} (data : List α) (a b : Nat) : List α :=
  reverseLoop ((b - a) / 2) a (b - 1) data

/-- Go `pdqsort_func(data, a, b, limit)` with `maxInsertion = 12`, entered at the top
of its `for` loop with the given `wasBalanced` and `wasPartitioned`; a call of the
function starts with both true.  A round of the loop either returns or goes on with a
shorter range, after a call on a shorter range; `fuel` bounds the depth of this, and
`none` means that it ran out. -/
def pdqsort_func {α : Type} (next : Nat → Nat) (less : α → α → Bool) :
    Nat → List α → Nat → Nat → Nat → Bool → Bool → Option (List α)
  | 0, _, _, _, _, _, _ => none
  | fuel + 1, data, a, b, limit, wasBalanced, wasPartitioned =>
    let length := b - a
    if length ≤ 12 then some (insertionSort_func less data a b)
    else if limit = 0 then some (heapSort_func less data a b)
    else
      let data1 := if !wasBalanced then breakPatterns_func next data a b else data
      let limit1 := if !wasBalanced then limit - 1 else limit
      let choice := choosePivot_func less data1 a b
      let data2 :=
        if choice.2 = SortedHint.decreasingHint then reverseRange_func data1 a b else data1
      let pivot :=
        if choice.2 = SortedHint.decreasingHint then (b - 1) - (choice.1 - a) else choice.1
      let hint :=
        if choice.2 = SortedHint.decreasingHint then SortedHint.increasingHint else choice.2
      let partial1 :=
        if wasBalanced && wasPartitioned && decide (hint = SortedHint.increasingHint) then
          partialInsertionSort_func less data2 a b
        else (data2, false)
      if partial1.2 then some partial1.1
      else if 0 < a && !lessAt less partial1.1 (a - 1) pivot then
        let eq := partitionEqual_func less partial1.1 a b pivot
        pdqsort_func next less fuel eq.1 eq.2 b limit1 wasBalanced wasPartitioned
      else
        let part := partition_func less partial1.1 a b pivot
        let mid := part.2.1
        let leftLen := mid - a
        let rightLen := b - mid
        let balanceThreshold := length / 8
        if leftLen < rightLen then
          match pdqsort_func next less fuel part.1 a mid limit1 true true with
          | none => none
          | some sorted =>
            pdqsort_func next less fuel sorted (mid + 1) b limit1
              (decide (balanceThreshold ≤ leftLen)) part.2.2
        else
          match pdqsort_func next less fuel part.1 (mid + 1) b limit1 true true with
          | none => none
          | some sorted =>
            pdqsort_func next less fuel sorted a mid limit1
              (decide (balanceThreshold ≤ rightLen)) part.2.2

/-- Go `sort.Slice(data, less)`: the slice afterwards.  The depth of `pdqsort_func`
stays below `len(data) + 1` whatever `less` is (`sortSlice_returns`). -/
def sortSlice {α : Type} (next : Nat → Nat) (less : α → α → Bool) (data : List α) :
    List α :=
  match pdqsort_func next less (data.length + 1) data 0 data.length (bitsLen data.length)
      true true with
  | some sorted => sorted
  | none => data

/-- The catalog writer servicing `saveRecording`. -/
def saveRecording (recordings : List Recording) (recording : Recording) : List Recording :=
  recordings ++ [recording]

/-- The catalog writer servicing `sortRecording`. -/
def sortRecordings (next : Nat → Nat) (recordings : List Recording) : List Recording :=
  sortSlice next recordingLess recordings

/-- The order in which `GET /api/recordings` lists the catalog: index `i` of the
answer is index `len - i - 1` of the catalog. -/
def newestFirst (recordings : List Recording) : List Recording :=
  recordings.reverse

/-- A mutation of the recording catalog. -/
inductive CatalogOp where
  | save (recording : Recording)
  | sort
  | remove (path : GoString)
deriving DecidableEq

/-- Effect of one mutation on the catalog. -/
def catalogStep (next : Nat → Nat) (recordings : List Recording) :
    CatalogOp → List Recording
  | CatalogOp.save recording => saveRecording recordings recording
  | CatalogOp.sort => sortRecordings next recordings
  | CatalogOp.remove path => removeRecordingFromMem recordings path

/-- The catalog after a sequence of mutations, starting from `recordings`. -/
def runCatalog (next : Nat → Nat) (recordings : List Recording) (ops : List CatalogOp) :
    List Recording :=
  ops.foldl (catalogStep next) recordings

/-- Every `save` in the sequence carries a path that no entry of the catalog has at
that moment. -/
def freshSaves (next : Nat → Nat) (recordings : List Recording) : List CatalogOp → Bool
  | [] => true
  | CatalogOp.save recording :: ops =>
    decide (recording.Path ∉ recordings.map Recording.Path)
      && freshSaves next (catalogStep next recordings (CatalogOp.save recording)) ops
  | op :: ops => freshSaves next (catalogStep next recordings op) ops

/-- Strict order of the key `(start, path)`, the start being the wall-clock instant:
earlier start, or equal start and smaller path. -/
def keyLt (a b : Recording) : Prop :=
  a.Start.Before b.Start = true ∨ (a.Start = b.Start ∧ strLess a.Path b.Path = true)

instance keyLt.decidable (a b : Recording) : Decidable (keyLt a b) := by
  unfold keyLt
  exact inferInstance

/-! ## Concrete scenarios -/

/-- A regular file of a walk, with no file-system error. -/
def fileEntry (path : String) (size : Nat) : Entry :=
  { path := path.toList, isDir := false, size := size, walkErr := false, removeErr := false }

/-- A directory of a walk, with no file-system error. -/
def dirEntry (path : String) : Entry :=
  { path := path.toList, isDir := true, size := 4096, walkErr := false, removeErr := false }

/-- The log line with which the segment muxer announces a new archive file. -/
def segmentLine (path : String) : GoString :=
  "[segment @ 0x1] [info] Opening ".toList ++ [apostrophe] ++ path.toList
    ++ [apostrophe] ++ " for writing".toList ++ [newline]

/-- All three clock readings of one `onLine` call at the same instant. -/
def nowsAt (t : Time) : Nows :=
  { fileOpened := t, segmentOpened := t, segmentClosed := t }

/-- The sentinel instant of `main`, with UTC as the local zone. -/
def demoSentinel : Time := Date 1995 7 17 0 1 2 3

/-- Input `cam` with the given archive limits and no stream limits. -/
def camInput (ageHours sizeMegabytes : Int) : Input :=
  { ID := "cam".toList, Name := "Cam".toList, URL := "rtsp://cam".toList
    RecordingAgeLimitHours := ageHours
    RecordingSizeLimitMegabytes := sizeMegabytes
    StreamAgeLimitHours := 0
    StreamSizeLimitMegabytes := 0 }

/-- Two segment-open lines, processed a quarter of a second after 21:09:05 and
21:14:05 UTC on 2025-04-23. -/
def demoLog : List (Nows × GoString) :=
  [(nowsAt { sec := 1745442545, nsec := 250000000 },
      segmentLine "media/cam/archive/cam-2025-04-23-21-09-05.mp4"),
   (nowsAt { sec := 1745442845, nsec := 250000000 },
      segmentLine "media/cam/archive/cam-2025-04-23-21-14-05.mp4")]

/-- A log in which the muxer opens the same archive file twice before the next one. -/
def repeatLog : List (Nows × GoString) :=
  [(nowsAt { sec := 1745442545, nsec := 0 },
      segmentLine "media/cam/archive/cam-2025-04-23-21-09-05.mp4"),
   (nowsAt { sec := 1745442545, nsec := 900000000 },
      segmentLine "media/cam/archive/cam-2025-04-23-21-09-05.mp4"),
   (nowsAt { sec := 1745442845, nsec := 0 },
      segmentLine "media/cam/archive/cam-2025-04-23-21-14-05.mp4")]

/-- The monotonic reading that goes with a wall-clock reading in a process started at
21:00:00 UTC on 2025-04-23, while the wall clock is left alone: the nanoseconds since
the start. -/
def demoMono (t : Time) : Option Int :=
  some ((t.sec - 1745442000) * 1000000000 + (t.nsec : Int))

/-- The recordings the segment-closed callbacks of a log send to the catalog. -/
def callbackSaves (input : Input) (log : List (Nows × GoString)) (now : Time) :
    List CatalogOp :=
  (closedCalls (initStream demoSentinel) log).map
    (fun c => CatalogOp.save (makeSaveRecording input c.1 (demoMono c.1) c.2 now))

/-- An archive directory with one recording, its thumbnail, and a later recording. -/
def thumbnailWalk : List Entry :=
  [dirEntry "media/cam/archive",
   fileEntry "media/cam/archive/cam-2025-04-23-21-09-05.mp4" 3000000,
   fileEntry "media/cam/archive/cam-2025-04-23-21-09-05.mp4.jpg" 20000,
   fileEntry "media/cam/archive/cam-2025-04-23-21-14-05.mp4" 3000000]

/-- An archive directory with five recordings of 3 MB, five minutes apart. -/
def fiveWalk : List Entry :=
  [dirEntry "media/cam/archive",
   fileEntry "media/cam/archive/cam-2025-04-23-21-00-00.mp4" 3000000,
   fileEntry "media/cam/archive/cam-2025-04-23-21-05-00.mp4" 3000000,
   fileEntry "media/cam/archive/cam-2025-04-23-21-10-00.mp4" 3000000,
   fileEntry "media/cam/archive/cam-2025-04-23-21-15-00.mp4" 3000000,
   fileEntry "media/cam/archive/cam-2025-04-23-21-20-00.mp4" 3000000]

/-- Midnight UTC at the start of 2025-04-24. -/
def demoMidnight : Time := { sec := 1745452800, nsec := 0 }

/-! ## Vocabulary of the statements -/

/-- The stream cells `LastSegmentOpened`/`LastSegmentOpenedName` hold the pair `prev`
stored by the latest segment-open line, or the name is still empty. -/
def HoldsOpen (w : Stream) (prev : Option ClosedCall) : Prop :=
  match prev with
  | none => w.LastSegmentOpenedName = []
  | some c => w.LastSegmentOpened = c.1 ∧ w.LastSegmentOpenedName = c.2 ∧ c.2 ≠ []

/-- The latest stored pair after more lines: the last segment-open line among them,
or else the pair held before. -/
def latestOpen (prev : Option ClosedCall) (ls : List (Nows × GoString)) : Option ClosedCall :=
  (prev.toList ++ segmentOpens ls).getLast?

/-- The check that `monthDay` inverts the day-of-year sum of `Date`. -/
def monthDayOk (leap : Bool) (m d : Nat) : Bool :=
  decide (daysBefore (m - 1) + (if leap = true ∧ 3 ≤ m then 1 else 0) + (d - 1)
          < 365 + (if leap = true then 1 else 0)) &&
  decide (monthDay leap (daysBefore (m - 1) + (if leap = true ∧ 3 ≤ m then 1 else 0) + (d - 1))
        = (m, d))

/-- An entry of an archive directory that the size pass can process without error:
Walk and `os.Remove` succeed, and a file is named like a recording or a thumbnail of
the input. -/
def archiveEntryOk (input : Input) (e : Entry) : Bool :=
  !e.walkErr && !e.removeErr &&
    (e.isDir || ((hasSuffix e.path ".mp4".toList || hasSuffix e.path ".mp4.jpg".toList)
      && containsStr e.path input.ID))

/-- Go orders the starts of the two recordings as the wall clock orders them: `Before`
and `After` on the two Go values answer as they do on the wall-clock instants. -/
def StartsAgree (a b : Recording) : Prop :=
  startBefore a b = a.Start.Before b.Start ∧ startAfter a b = a.Start.After b.Start

instance StartsAgree.decidable (a b : Recording) : Decidable (StartsAgree a b) := by
  unfold StartsAgree
  exact inferInstance

/-- The paths that the appends of a sequence of catalog mutations carry, in order. -/
def savedPaths : List CatalogOp → List GoString
  | [] => []
  | CatalogOp.save recording :: ops => recording.Path :: savedPaths ops
  | _ :: ops => savedPaths ops

/-- A callback result that ends the walk: `filepath.SkipAll` or an error. -/
def WalkStep.stops : WalkStep → Bool
  | WalkStep.skipAll => true
  | WalkStep.fail _ => true
  | _ => false

/-- In walk order, no entry that the date callback would remove comes after an entry
at which it ends the walk. -/
def RemovalsFirst (step : Entry → WalkStep) (walk : List Entry) : Prop :=
  walk.Pairwise (fun a b => (step a).stops = true → step b ≠ WalkStep.removed)

/-- In walk order, no entry that the date callback would remove comes after an entry
at which it ends the walk and which is among `sizeRemoved`, the files the size pass
removes. -/
def RemovalsSettle (step : Entry → WalkStep) (sizeRemoved : List Entry) (walk : List Entry) :
    Prop :=
  walk.Pairwise (fun a b =>
    (step a).stops = true → a ∈ sizeRemoved → step b ≠ WalkStep.removed)

/-- For each of the two directories of the input: the age pass or the size pass is
disabled, or no file that the age pass would remove lies behind an entry at which the
age pass stops and which the size pass of the same prune pass then removes.  This
holds when the age pass leaves the directory within its size budget (the size pass
removes nothing), and when the removals of the age pass come first in walk order (as
they do when the names sort chronologically). -/
def OnePassSettles (now : Time) (st : Store) (input : Input) : Prop :=
  (input.RecordingAgeLimitHours ≤ 0 ∨ input.RecordingSizeLimitMegabytes ≤ 0 ∨
    RemovalsSettle (recordingDateStep input (ageTarget now input.RecordingAgeLimitHours))
      (recordingsBySize input
        (recordingsByDate input now (st.disk input.RecordingDirectory)).kept).removed
      (st.disk input.RecordingDirectory)) ∧
  (input.StreamAgeLimitHours ≤ 0 ∨ input.StreamSizeLimitMegabytes ≤ 0 ∨
    RemovalsSettle (segmentDateStep input (ageTarget now input.StreamAgeLimitHours))
      (segmentsBySize input
        (segmentsByDate input now (st.disk input.StreamSegmentDirectory)).kept).removed
      (st.disk input.StreamSegmentDirectory))

/-- In both directories of the input, as the store has them, an enabled age pass finds
no file to remove. -/
def AgeSettled (now : Time) (st : Store) (input : Input) : Prop :=
  (0 < input.RecordingAgeLimitHours →
    (recordingsByDate input now (st.disk input.RecordingDirectory)).removed = []) ∧
  (0 < input.StreamAgeLimitHours →
    (segmentsByDate input now (st.disk input.StreamSegmentDirectory)).removed = [])

instance RemovalsFirst.decidable (step : Entry → WalkStep) (walk : List Entry) :
    Decidable (RemovalsFirst step walk) := by
  unfold RemovalsFirst
  exact inferInstance

instance RemovalsSettle.decidable (step : Entry → WalkStep) (sizeRemoved walk : List Entry) :
    Decidable (RemovalsSettle step sizeRemoved walk) := by
  unfold RemovalsSettle
  exact inferInstance

instance OnePassSettles.decidable (now : Time) (st : Store) (input : Input) :
    Decidable (OnePassSettles now st input) := by
  unfold OnePassSettles
  exact inferInstance

instance AgeSettled.decidable (now : Time) (st : Store) (input : Input) :
    Decidable (AgeSettled now st input) := by
  unfold AgeSettled
  exact inferInstance

/-- Numeric key of the calendar fields; its order is the lexicographic order of
(year, month, day, hour, minute, second). -/
def stampKey (y m d h mi s : Nat) : Nat :=
  ((((y * 100 + m) * 100 + d) * 100 + h) * 100 + mi) * 100 + s

/-- Absolute seconds of a `Date`, before the shift to the Unix epoch. -/
def dateAbs (y : Int) (m d h mi s : Nat) : Nat :=
  (daysSinceEpoch y + daysBefore (m - 1) + (if isLeap y = true ∧ 3 ≤ m then 1 else 0)
    + (d - 1)) * 86400 + (h * 3600 + mi * 60 + s)

/-- The canonical rendering of calendar fields, as `formatStamp` writes it. -/
def stampText (y m d h mi s : Nat) : GoString :=
  appendInt (y : Int) 4 ++ '-' :: appendInt (m : Int) 2 ++ '-' :: appendInt (d : Int) 2
    ++ '-' :: appendInt (h : Int) 2 ++ '-' :: appendInt (mi : Int) 2
    ++ '-' :: appendInt (s : Int) 2

/-- The path `media/<id>/archive/<id>-<stamp>.mp4` of an archive segment. -/
def recordingPath (input : Input) (stamp : GoString) : GoString :=
  input.RecordingDirectory ++ '/' :: (input.ID ++ '-' :: (stamp ++ ".mp4".toList))

/-- An archive segment of the input: a file named `<id>-<stamp>.mp4` in the archive
directory with a valid stamp, which Walk and `os.Remove` handle without error. -/
def IsRecording (input : Input) (e : Entry) : Prop :=
  ∃ stamp t, e.path = recordingPath input stamp ∧ stamp.length = 19 ∧
    timeParse stamp = some t ∧ e.isDir = false ∧ e.walkErr = false ∧ e.removeErr = false

/-- The parsed stamp of the entry is after `target`. -/
def newerThan (target : Time) (e : Entry) : Bool :=
  match parseRecordingTime e.path with
  | some t => t.After target
  | none => false

/-- The parsed stamp of the entry is not after `target`. -/
def notNewerThan (target : Time) (e : Entry) : Bool :=
  match parseRecordingTime e.path with
  | some t => !t.After target
  | none => false

/-! ## Liveness monitor -/

/-- Go `minDuration` and `maxDuration`. -/
def minDuration : Int := -9223372036854775808

/-- Go `maxDuration`. -/
def maxDuration : Int := 9223372036854775807

/-- Go `Time.Sub` (wall-clock branch), in nanoseconds: the wrapped `int64` difference
when adding it back to `u` gives `t`, else the duration saturates. -/
def Time.Sub (t u : Time) : Int :=
  let d := wrapInt64 (wrapInt64 ((t.sec - u.sec) * 1000000000)
    + ((t.nsec : Int) - (u.nsec : Int)))
  if u.Add d = t then d
  else if t.Before u = true then minDuration
  else maxDuration

/-- The values `time.Now()` has inside the three `time.Since` calls that the monitor
makes for one stream, in source order. -/
structure TickNows where
  restart : Time
  fileOpened : Time
  segmentOpened : Time
deriving DecidableEq

/-- Which check of the monitor invoked `restart()`. -/
inductive RestartCause where
  | fileOpened
  | segmentOpened
deriving DecidableEq

/-- The body of the monitor loop of source `main` for one stream: the stream with the
three error cells stored, and the invocations of the function loaded from
`RestartRecording`, in order.  Log output is left out. -/
def monitorTick (stream : Stream) (now : TickNows) : Stream × List RestartCause :=
  let lastRestartInErr := decide (now.restart.Sub stream.LastRestart < 300000000000)
  let lastFileOpenedInErr :=
    decide (180000000000 < now.fileOpened.Sub stream.LastFileOpened)
  let fileCalls : List RestartCause :=
    if lastFileOpenedInErr && !stream.LastFileOpenedInErr then
      (if stream.RestartRecordingSet then [RestartCause.fileOpened] else [])
    else []
  let lastSegmentOpenedInErr :=
    decide (900000000000 < now.segmentOpened.Sub stream.LastSegmentOpened)
  let segmentCalls : List RestartCause :=
    if lastSegmentOpenedInErr && !stream.LastSegmentOpenedInErr then
      (if stream.RestartRecordingSet then [RestartCause.segmentOpened] else [])
    else []
  ({ stream with
      LastRestartInErr := lastRestartInErr
      LastFileOpenedInErr := lastFileOpenedInErr
      LastSegmentOpenedInErr := lastSegmentOpenedInErr },
    fileCalls ++ segmentCalls)

/-- A store that source `record` makes into the stream cells. -/
inductive RecordStore where
  | activeFalse
  | lastRestart (now : Time)
  | restartRecording
  | activeTrue
deriving DecidableEq

/-- Effect of one store of source `record`. -/
def recordStore (stream : Stream) : RecordStore → Stream
  | RecordStore.activeFalse => { stream with Active := false }
  | RecordStore.lastRestart now => { stream with LastRestart := now }
  | RecordStore.restartRecording => { stream with RestartRecordingSet := true }
  | RecordStore.activeTrue => { stream with Active := true }

/-- Something that happens to one stream: a monitor tick, a line handed to `onLine`,
or a store by `record`. -/
inductive StreamEvent where
  | tick (now : TickNows)
  | line (now : Nows) (p : GoString)
  | record (store : RecordStore)
deriving DecidableEq

/-- The stream after an event, and the `restart()` invocations the event made. -/
def applyEvent (stream : Stream) : StreamEvent → Stream × List RestartCause
  | StreamEvent.tick now => monitorTick stream now
  | StreamEvent.line now p => ((onLine stream now p).1, [])
  | StreamEvent.record store => (recordStore stream store, [])

/-- The stream after the events, and for each event the `restart()` invocations it
made. -/
def runEvents (stream : Stream) : List StreamEvent → Stream × List (List RestartCause)
  | [] => (stream, [])
  | e :: rest =>
    ((runEvents (applyEvent stream e).1 rest).1,
      (applyEvent stream e).2 :: (runEvents (applyEvent stream e).1 rest).2)

/-- The exact difference `t - u` in nanoseconds. -/
def nanosBetween (t u : Time) : Int :=
  (t.sec - u.sec) * 1000000000 + ((t.nsec : Int) - (u.nsec : Int))

/-- The nanoseconds field of an instant is below one second. -/
def Time.valid (t : Time) : Prop := t.nsec < 1000000000

instance Time.valid.decidable (t : Time) : Decidable t.valid := by
  unfold Time.valid
  exact inferInstance

/-- An event of a quiet period after `sentinel`: a tick whose clock readings are valid
and more than 15 minutes after `sentinel`, a line that does not contain both `Opening`
and `for writing`, or a store by `record`. -/
def quietEvent (sentinel : Time) : StreamEvent → Bool
  | StreamEvent.tick now =>
    decide now.fileOpened.valid && decide now.segmentOpened.valid &&
    decide (900000000000 < nanosBetween now.fileOpened sentinel) &&
    decide (900000000000 < nanosBetween now.segmentOpened sentinel)
  | StreamEvent.line _ p =>
    !(containsStr p "Opening".toList && containsStr p "for writing".toList)
  | StreamEvent.record _ => true

/-! ## Stderr writer -/

/-- Go `bytes.Buffer.ReadBytes(delim)` on the unread bytes: the bytes up to and
including the first `delim` and the bytes left; without a `delim`, all bytes, nothing
left, and the flag for `io.EOF`. -/
def readBytes (delim : Char) : GoString → GoString × GoString × Bool
  | [] => ([], [], true)
  | c :: cs =>
    if c = delim then ([c], cs, false)
    else ((c :: (readBytes delim cs).1), (readBytes delim cs).2.1, (readBytes delim cs).2.2)

/-- The `for` loop of source `Write` on the buffer content, run for at most `fuel`
rounds: the lines handed to `onLine`, in order, and the buffer content when the loop
breaks; `none` when the rounds run out first. -/
def writeLoop : Nat → GoString → Option (List GoString × GoString)
  | 0, _ => none
  | fuel + 1, buf =>
    match readBytes newline buf with
    | (line, _, true) => some ([], line)
    | (line, rest, false) =>
      match writeLoop fuel rest with
      | none => none
      | some (lines, left) => some (line :: lines, left)

/-- What one call of `Write` does: the buffer content afterwards, the lines handed to
`onLine` in order, and the returned pair (`err` is `none` for Go `nil`). -/
structure WriteResult where
  buf : GoString
  lines : List GoString
  n : Nat
  err : Option GoString
deriving DecidableEq

/-- Source `OpeningForWritingWriter.Write` on a writer whose buffer holds `buf`.  The
loop gets one round more than the buffer has bytes; `none` would mean that it did not
end within them. -/
def Write (buf p : GoString) : Option WriteResult :=
  if p.contains newline then
    match writeLoop ((buf ++ p).length + 1) (buf ++ p) with
    | none => none
    | some (lines, left) => some { buf := left, lines := lines, n := p.length, err := none }
  else some { buf := buf ++ p, lines := [], n := p.length, err := none }

/-- Successive `Write` calls on one writer: the final buffer content, all lines handed
to `onLine` in order, and the pair each call returned. -/
def writeAll (buf : GoString) :
    List GoString → Option (GoString × List GoString × List (Nat × Option GoString))
  | [] => some (buf, [], [])
  | p :: rest =>
    match Write buf p with
    | none => none
    | some r =>
      match writeAll r.buf rest with
      | none => none
      | some (left, lines, returned) => some (left, r.lines ++ lines, (r.n, r.err) :: returned)

/-- Follows the specification: the newline-terminated lines of a byte sequence, in
order, and the bytes after its last newline. -/
def newlineLines : GoString → List GoString × GoString
  | [] => ([], [])
  | c :: cs =>
    if c = newline then ([c] :: (newlineLines cs).1, (newlineLines cs).2)
    else
      match (newlineLines cs).1 with
      | [] => ([], c :: (newlineLines cs).2)
      | line :: lines => ((c :: line) :: lines, (newlineLines cs).2)

/-! ## Monitor and writer scenarios -/

/-- All three clock readings of one monitor tick at the same instant. -/
def tickAt (t : Time) : TickNows :=
  { restart := t, fileOpened := t, segmentOpened := t }

/-- A line in which the HLS muxer opens a playlist segment. -/
def playlistLine : GoString :=
  "[hls @ 0x2] [info] Opening ".toList ++ [apostrophe] ++ "media/cam/stream/stream7.ts".toList
    ++ [apostrophe] ++ " for writing".toList ++ [newline]

/-- The instant `seconds` after the first archive segment of the stalling recording
was opened. -/
def stallAt (seconds : Nat) : Time :=
  { sec := 1745442545 + (seconds : Int), nsec := 250000000 }

/-- A recording that stalls.  `record` starts the process, the first archive segment
is opened, and in each of the next 13 minutes the muxer opens a playlist segment
30 seconds into the minute and the monitor ticks 54 seconds into it.  After the
playlist segment of 12 min 30 s nothing more is written; the monitor ticks again at
13 min 54 s and 14 min 54 s. -/
def stallLog : List StreamEvent :=
  [StreamEvent.record RecordStore.activeFalse,
   StreamEvent.record (RecordStore.lastRestart { sec := 1745442544, nsec := 0 }),
   StreamEvent.record RecordStore.restartRecording,
   StreamEvent.record RecordStore.activeTrue,
   StreamEvent.line (nowsAt (stallAt 0))
     (segmentLine "media/cam/archive/cam-2025-04-23-21-09-05.mp4")]
  ++ ((List.range 13).map (fun k =>
      [StreamEvent.line (nowsAt (stallAt (60 * k + 30))) playlistLine,
       StreamEvent.tick (tickAt (stallAt (60 * k + 54)))])).flatten
  ++ [StreamEvent.tick (tickAt (stallAt 834)), StreamEvent.tick (tickAt (stallAt 894))]

/-- The stream cells after `stallLog`. -/
def stalledStream : Stream := (runEvents (initStream demoSentinel) stallLog).1

/-- The stalled recording, had its last archive segment been opened at 10 min. -/
def playlistStalled : Stream :=
  { stalledStream with LastSegmentOpened := stallAt 600 }

/-- The next monitor tick of the stalled recording, at 15 min 54 s. -/
def stallTick : TickNows := tickAt (stallAt 954)

/-- A camera that never comes up: `record` restarts the process, which prints lines
but opens no file, while the monitor ticks. -/
def deadCameraLog : List StreamEvent :=
  [StreamEvent.record RecordStore.activeFalse,
   StreamEvent.record (RecordStore.lastRestart (stallAt 0)),
   StreamEvent.record RecordStore.restartRecording,
   StreamEvent.record RecordStore.activeTrue,
   StreamEvent.line (nowsAt (stallAt 1)) ("Opening an input file: rtsp://cam".toList ++ [newline]),
   StreamEvent.tick (tickAt (stallAt 30)),
   StreamEvent.line (nowsAt (stallAt 31))
     ("[error] rtsp://cam: no route, not open for writing".toList ++ [newline]),
   StreamEvent.record RecordStore.activeFalse,
   StreamEvent.tick (tickAt (stallAt 90)),
   StreamEvent.record (RecordStore.lastRestart (stallAt 91)),
   StreamEvent.record RecordStore.restartRecording,
   StreamEvent.tick (tickAt (stallAt 150))]

/-- Three log lines and the start of a fourth, as `GoString`. -/
def stderrBytes : GoString :=
  "frame=1".toList ++ [newline] ++ segmentLine "media/cam/archive/cam-2025-04-23-21-09-05.mp4"
    ++ [newline] ++ "frame=".toList

/-- The same bytes cut into chunks in the middle of lines, with one empty chunk. -/
def stderrChunks : List GoString :=
  [stderrBytes.take 3, (stderrBytes.drop 3).take 30, [], (stderrBytes.drop 33).take 1,
   stderrBytes.drop 34]

/-! ## Scenarios of the pruner and the catalog -/

/-- Input `door` with stream-segment limits of one hour and one megabyte only. -/
def doorInput : Input :=
  { ID := "door".toList, Name := "Door".toList, URL := "rtsp://door".toList
    RecordingAgeLimitHours := 0
    RecordingSizeLimitMegabytes := 0
    StreamAgeLimitHours := 1
    StreamSizeLimitMegabytes := 1 }

/-- An `ffprobe` that reports five minutes for every file. -/
def fiveMinutes : GoString → Probe :=
  fun _ => Probe.duration 300

/-- A log with three segment-open lines, five minutes apart. -/
def threeLog : List (Nows × GoString) :=
  demoLog ++
    [(nowsAt { sec := 1745443145, nsec := 250000000 },
      segmentLine "media/cam/archive/cam-2025-04-23-21-19-05.mp4")]

/-- The loader's appends and sort signal for `fiveWalk`, the two appends of the
callbacks of `threeLog`, the removal of the oldest recording, and another sort
signal. -/
def busyOps : List CatalogOp :=
  (loadWalk (camInput 1 10) fiveMinutes fiveWalk).map CatalogOp.save
    ++ [CatalogOp.sort]
    ++ callbackSaves (camInput 1 10) threeLog demoMidnight
    ++ [CatalogOp.remove "media/cam/archive/cam-2025-04-23-21-00-00.mp4".toList,
        CatalogOp.sort]

/-- The archive directory as an earlier run of the capture left it. -/
def earlierWalk : List Entry :=
  [dirEntry "media/cam/archive",
   fileEntry "media/cam/archive/cam-2025-04-23-20-55-00.mp4" 3000000]

/-- A run in which the wall clock is set back by half an hour.  The loader appends the
recording of 20:55:00 from `earlierWalk` and signals a sort.  The process, started
at 21:00:00, opens segments at 21:09:05.25 and 21:14:05.25 on the wall clock, 545.25 s
and 845.25 s on the monotonic clock; then the wall clock is set back, and the next
segments are opened at 20:49:05.25 and 20:54:05.25 on the wall clock, 1145.25 s and
1445.25 s on the monotonic clock.  The callbacks append the first three segments, and
a second sort signal follows (from the loader, after the walk of another input). -/
def steppedOps : List CatalogOp :=
  (loadWalk (camInput 1 10) fiveMinutes earlierWalk).map CatalogOp.save
    ++ [CatalogOp.sort,
        CatalogOp.save (makeSaveRecording (camInput 1 10)
          { sec := 1745442545, nsec := 250000000 } (some 545250000000)
          "media/cam/archive/cam-2025-04-23-21-09-05.mp4".toList
          { sec := 1745442845, nsec := 250000000 }),
        CatalogOp.save (makeSaveRecording (camInput 1 10)
          { sec := 1745442845, nsec := 250000000 } (some 845250000000)
          "media/cam/archive/cam-2025-04-23-21-14-05.mp4".toList
          { sec := 1745441345, nsec := 250000000 }),
        CatalogOp.save (makeSaveRecording (camInput 1 10)
          { sec := 1745441345, nsec := 250000000 } (some 1145250000000)
          "media/cam/archive/cam-2025-04-23-20-49-05.mp4".toList
          { sec := 1745441645, nsec := 250000000 }),
        CatalogOp.sort]

/-- The archive directory of `cam` at 21:00: seven recordings of five minutes. -/
def camNight : List Entry :=
  [dirEntry "media/cam/archive",
   fileEntry "media/cam/archive/cam-2025-04-23-20-25-05.mp4" 3000000,
   fileEntry "media/cam/archive/cam-2025-04-23-20-30-05.mp4" 3000000,
   fileEntry "media/cam/archive/cam-2025-04-23-20-35-05.mp4" 3000000,
   fileEntry "media/cam/archive/cam-2025-04-23-20-40-05.mp4" 3000000,
   fileEntry "media/cam/archive/cam-2025-04-23-20-45-05.mp4" 3000000,
   fileEntry "media/cam/archive/cam-2025-04-23-20-50-05.mp4" 3000000,
   fileEntry "media/cam/archive/cam-2025-04-23-20-55-05.mp4" 3000000]

/-- The archive directory of `door` at 21:00: six recordings of five minutes. -/
def doorNight : List Entry :=
  [dirEntry "media/door/archive",
   fileEntry "media/door/archive/door-2025-04-23-20-27-30.mp4" 3000000,
   fileEntry "media/door/archive/door-2025-04-23-20-32-30.mp4" 3000000,
   fileEntry "media/door/archive/door-2025-04-23-20-37-30.mp4" 3000000,
   fileEntry "media/door/archive/door-2025-04-23-20-42-30.mp4" 3000000,
   fileEntry "media/door/archive/door-2025-04-23-20-47-30.mp4" 3000000,
   fileEntry "media/door/archive/door-2025-04-23-20-52-30.mp4" 3000000]

/-- The catalog of a process started at 21:00:00, with no sort signal serviced yet:
the loader's entries for `cam` and for `door`, and the entry of a segment of `door`
that was opened at 21:01:00.5 and closed when the capture of `door` was restarted. -/
def nightCatalog : List Recording :=
  loadWalk (camInput 1 10) fiveMinutes camNight
    ++ loadWalk doorInput fiveMinutes doorNight
    ++ [makeSaveRecording doorInput { sec := 1745442060, nsec := 500000000 }
          (demoMono { sec := 1745442060, nsec := 500000000 })
          "media/door/archive/door-2025-04-23-21-01-00.mp4".toList
          { sec := 1745442185, nsec := 0 }]

/-- The entry of the segment of `cam` that was opened at 21:00:05.25 and closed five
minutes later. -/
def lateRecording : Recording :=
  makeSaveRecording (camInput 1 10) { sec := 1745442005, nsec := 250000000 }
    (demoMono { sec := 1745442005, nsec := 250000000 })
    "media/cam/archive/cam-2025-04-23-21-00-05.mp4".toList
    { sec := 1745442305, nsec := 250000000 }

/-! ## Vocabulary for the sort -/

/-- Element `k` of the slice; `d` stands in where the slice has none. -/
def nth {α : Type} (d : α) (data : List α) (k : Nat) : α :=
  (data[k]?).getD d

/-- The function `less` is a strict weak order: irreflexive, transitive, and with a transitive
"not less". -/
def StrictWeak {α : Type} (less : α → α → Bool) : Prop :=
  (∀ x, less x x = false) ∧
  (∀ x y z, less x y = true → less y z = true → less x z = true) ∧
  (∀ x y z, less x y = false → less y z = false → less x z = false)

/-- The elements at the indices `a ≤ i < b` are in non-decreasing order: none is less
than one before it. -/
def SortedOn {α : Type} (less : α → α → Bool) (d : α) (data : List α) (a b : Nat) : Prop :=
  ∀ i j, a ≤ i → i < j → j < b → less (nth d data j) (nth d data i) = false

/-- The slice `data'` is `data` with elements at the indices `a ≤ i < b` moved among
these indices: same length, same elements elsewhere, and every element of the range
was in the range. -/
def Within {α : Type} (d : α) (a b : Nat) (data data' : List α) : Prop :=
  data'.length = data.length ∧
  (∀ k, k < a ∨ b ≤ k → nth d data' k = nth d data k) ∧
  (∀ k, a ≤ k → k < b → ∃ k', a ≤ k' ∧ k' < b ∧ nth d data' k = nth d data k')

/-- The element before the range `[a, b)`, if there is one, is not greater than any
element of the range. -/
def LowerBound {α : Type} (less : α → α → Bool) (d : α) (data : List α) (a b : Nat) : Prop :=
  a = 0 ∨ ∀ k, a ≤ k → k < b → less (nth d data k) (nth d data (a - 1)) = false

/-- The range `[a, i]` is in non-decreasing order when the element at `j` is left out,
and that element is not greater than the elements of the range after it. -/
def SortedExcept {α : Type} (less : α → α → Bool) (d : α) (data : List α) (a i j : Nat) :
    Prop :=
  (∀ p q, a ≤ p → p < q → q ≤ i → p ≠ j → q ≠ j →
    less (nth d data q) (nth d data p) = false) ∧
  (∀ q, j < q → q ≤ i → less (nth d data q) (nth d data j) = false)

/-- The common form of the loops of Go `partition_func` and `partitionEqual_func`:
`left data k` says whether the element at `k` belongs to the left part; the result is
the slice with the final `i` and `j`. -/
def splitLoop {α : Type} (left : List α → Nat → Bool) :
    Nat → List α → Nat → Nat → List α × Nat × Nat
  | 0, data, i, j => (data, i, j)
  | fuel + 1, data, i, j =>
    if scanDown (fun k => !left data k)
        (j + 1 - scanUp (fun k => left data k) (j + 1 - i) i) j
        < scanUp (fun k => left data k) (j + 1 - i) i then
      (data, scanUp (fun k => left data k) (j + 1 - i) i,
        scanDown (fun k => !left data k)
          (j + 1 - scanUp (fun k => left data k) (j + 1 - i) i) j)
    else
      splitLoop left fuel
        (swapAt data (scanUp (fun k => left data k) (j + 1 - i) i)
          (scanDown (fun k => !left data k)
            (j + 1 - scanUp (fun k => left data k) (j + 1 - i) i) j))
        (scanUp (fun k => left data k) (j + 1 - i) i + 1)
        (scanDown (fun k => !left data k)
          (j + 1 - scanUp (fun k => left data k) (j + 1 - i) i) j - 1)

/-- The heap of Go `heapSort_func` on the `hi` indices from `first`, from the parent
`lo` on: no parent at `lo` or later is less than a child of it. -/
def HeapFrom {α : Type} (less : α → α → Bool) (d : α) (data : List α) (first lo hi : Nat) :
    Prop :=
  ∀ c, 1 ≤ c → c < hi → lo ≤ (c - 1) / 2 →
    less (nth d data (first + (c - 1) / 2)) (nth d data (first + c)) = false

/-! ## Lemmas on strings and the segment pattern -/

theorem literal_eq_some {lit s r : GoString} (h : literal lit s = some r) : s = lit ++ r := by
  unfold literal at h
  split at h
  · rename_i hp
    have hp2 : lit <+: s := List.isPrefixOf_iff_prefix.mp hp
    obtain ⟨t, rfl⟩ := hp2
    simp at h
    rw [h]
  · cases h

theorem hasSuffix_iff (s suffix : GoString) : hasSuffix s suffix = true ↔ ∃ t, s = t ++ suffix := by
  unfold hasSuffix
  rw [List.isSuffixOf_iff_suffix]
  constructor
  · rintro ⟨t, ht⟩; exact ⟨t, ht.symm⟩
  · rintro ⟨t, ht⟩; exact ⟨t, ht.symm⟩

theorem containsStr_append_left (a s substr : GoString) (h : containsStr s substr = true) :
    containsStr (a ++ s) substr = true := by
  induction a with
  | nil => simpa using h
  | cons c cs ih =>
    show containsStr (c :: (cs ++ s)) substr = true
    unfold containsStr
    simp [ih]

theorem containsStr_of_starts (substr r : GoString) : containsStr (substr ++ r) substr = true := by
  have hp : substr.isPrefixOf (substr ++ r) = true :=
    List.isPrefixOf_iff_prefix.mpr (List.prefix_append substr r)
  cases hs : substr ++ r with
  | nil =>
    have : substr = [] := (List.append_eq_nil.mp hs).1
    subst this
    simp [containsStr]
  | cons c cs =>
    rw [hs] at hp
    unfold containsStr
    simp [hp]

theorem containsStr_infix (a substr r : GoString) : containsStr (a ++ (substr ++ r)) substr = true :=
  containsStr_append_left a _ substr (containsStr_of_starts substr r)

/-- Shape of an anchored match: the literal parts of the pattern around the capture group. -/
theorem matchSegmentAt_shape {s cap : GoString} (h : matchSegmentAt s = some cap) :
    5 ≤ cap.length ∧ ∃ run rest : GoString,
      s = "[segment".toList ++ (run ++ (("] [info] Opening ".toList ++ [apostrophe]) ++
            (cap ++ ((apostrophe :: " for writing".toList) ++ rest)))) := by
  unfold matchSegmentAt at h
  split at h
  · cases h
  · rename_i s1 h1
    have e1 := literal_eq_some h1
    simp only at h
    split at h
    · cases h
    · split at h
      · cases h
      · rename_i s2 h2
        have e2 := literal_eq_some h2
        split at h
        · rename_i hc
          split at h
          · cases h
          · rename_i r3 h3
            have e3 := literal_eq_some h3
            simp only [Option.some.injEq] at h
            simp only [Bool.and_eq_true, decide_eq_true_eq] at hc
            refine ⟨by rw [← h]; exact hc.2, s1.takeWhile (fun c => c != ']'), r3, ?_⟩
            have t1 := List.takeWhile_append_dropWhile (fun c => c != ']') s1
            have t2 := List.takeWhile_append_dropWhile (fun c => c != apostrophe) s2
            rw [e1]
            congr 1
            conv_lhs => rw [← t1]
            congr 1
            rw [e2]
            congr 1
            conv_lhs => rw [← t2]
            rw [h]
            congr 1
        · cases h

theorem matchSegmentAt_contains {s cap : GoString} (h : matchSegmentAt s = some cap) :
    containsStr s "Opening".toList = true ∧ containsStr s "for writing".toList = true := by
  obtain ⟨_, run, rest, e⟩ := matchSegmentAt_shape h
  constructor
  · have : s = ("[segment".toList ++ run ++ "] [info] ".toList) ++
        ("Opening".toList ++ ((' ' :: apostrophe :: cap) ++
          ((apostrophe :: " for writing".toList) ++ rest))) := by
      rw [e]; simp [List.append_assoc]
    rw [this]
    exact containsStr_infix _ _ _
  · have : s = ("[segment".toList ++ run ++ ("] [info] Opening ".toList ++ [apostrophe]) ++ cap
        ++ [apostrophe, ' ']) ++ ("for writing".toList ++ rest) := by
      rw [e]; simp [List.append_assoc]
    rw [this]
    exact containsStr_infix _ _ _

theorem exprSegmentWriting_some {s cap : GoString} (h : exprSegmentWriting s = some cap) :
    cap ≠ [] ∧ containsStr s "Opening".toList = true ∧
      containsStr s "for writing".toList = true := by
  induction s with
  | nil => simp [exprSegmentWriting] at h
  | cons c cs ih =>
    unfold exprSegmentWriting at h
    split at h
    · rename_i cap2 hm
      simp only [Option.some.injEq] at h
      subst h
      have hs := matchSegmentAt_shape hm
      have hc := matchSegmentAt_contains hm
      refine ⟨?_, hc.1, hc.2⟩
      intro hnil
      rw [hnil] at hs
      simp at hs
    · obtain ⟨h1, h2, h3⟩ := ih h
      exact ⟨h1, containsStr_append_left [c] cs _ h2, containsStr_append_left [c] cs _ h3⟩

theorem literal_append (lit r : GoString) : literal lit (lit ++ r) = some r := by
  unfold literal
  have hp : lit.isPrefixOf (lit ++ r) = true :=
    List.isPrefixOf_iff_prefix.mpr (List.prefix_append lit r)
  rw [if_pos hp, List.drop_left]

theorem takeWhile_until (p : Char → Bool) (a : GoString) (c : Char) (r : GoString)
    (ha : ∀ x ∈ a, p x = true) (hc : p c = false) :
    (a ++ c :: r).takeWhile p = a ∧ (a ++ c :: r).dropWhile p = c :: r := by
  have hc' : ¬ (p c = true) := by rw [hc]; decide
  constructor
  · rw [List.takeWhile_append_of_pos ha, List.takeWhile_cons_of_neg hc', List.append_nil]
  · rw [List.dropWhile_append_of_pos ha, List.dropWhile_cons_of_neg hc']

/-- The anchored matcher decides the language of the pattern: a match at the front of
`s` with capture `cap` is a reading of `s` as `[segment`, one or more bytes other
than `]`, `] [info] Opening '`, the capture (one or more bytes other than the
apostrophe followed by `.mp4`, the whole without apostrophe), `' for writing`, and
any rest. -/
theorem matchSegmentAt_iff (s cap : GoString) :
    matchSegmentAt s = some cap ↔
      ∃ run stem rest : GoString,
        s = "[segment".toList ++ (run ++ (("] [info] Opening ".toList ++ [apostrophe]) ++
              (cap ++ ((apostrophe :: " for writing".toList) ++ rest)))) ∧
        run ≠ [] ∧ (∀ c ∈ run, c ≠ ']') ∧
        cap = stem ++ ".mp4".toList ∧ stem ≠ [] ∧ (∀ c ∈ cap, c ≠ apostrophe) := by
  constructor
  · intro h
    unfold matchSegmentAt at h
    split at h
    · cases h
    · rename_i s1 h1
      have e1 := literal_eq_some h1
      simp only at h
      split at h
      · cases h
      · rename_i hrun
        split at h
        · cases h
        · rename_i s2 h2
          have e2 := literal_eq_some h2
          split at h
          · rename_i hc
            split at h
            · cases h
            · rename_i r3 h3
              have e3 := literal_eq_some h3
              simp only [Option.some.injEq] at h
              simp only [Bool.and_eq_true, decide_eq_true_eq] at hc
              obtain ⟨stem, hstem⟩ := (hasSuffix_iff _ _).mp hc.1
              rw [h] at hstem
              refine ⟨s1.takeWhile (fun c => c != ']'), stem, r3, ?_, ?_, ?_, hstem, ?_, ?_⟩
              · have t1 := List.takeWhile_append_dropWhile (fun c => c != ']') s1
                have t2 := List.takeWhile_append_dropWhile (fun c => c != apostrophe) s2
                rw [e1]
                congr 1
                conv_lhs => rw [← t1]
                congr 1
                rw [e2]
                congr 1
                conv_lhs => rw [← t2]
                rw [h]
                congr 1
              · intro hnil
                apply hrun
                rw [hnil]; rfl
              · intro c hc2
                have := List.mem_takeWhile_imp hc2
                simpa using this
              · intro hnil
                have hl := hc.2
                rw [h, hstem, hnil] at hl
                revert hl
                decide
              · intro c hc2
                rw [← h] at hc2
                have := List.mem_takeWhile_imp hc2
                simpa using this
          · cases h
  · rintro ⟨run, stem, rest, hs, hrun, hrunc, hcap, hstem, hcapc⟩
    unfold matchSegmentAt
    rw [hs, literal_append]
    simp only
    have hb : ((']' : Char) != ']') = false := by decide
    obtain ⟨t1, d1⟩ := takeWhile_until (fun c => c != ']') run ']'
      (" [info] Opening ".toList ++ [apostrophe] ++
        (cap ++ ((apostrophe :: " for writing".toList) ++ rest)))
      (fun x hx => by simpa using hrunc x hx) hb
    have e0 : run ++ (("] [info] Opening ".toList ++ [apostrophe]) ++
        (cap ++ ((apostrophe :: " for writing".toList) ++ rest)))
        = run ++ ']' :: (" [info] Opening ".toList ++ [apostrophe] ++
          (cap ++ ((apostrophe :: " for writing".toList) ++ rest))) := rfl
    rw [e0, t1, d1]
    have hre : (run.isEmpty) = false := by
      cases run with
      | nil => exact absurd rfl hrun
      | cons _ _ => rfl
    rw [hre]
    simp only [Bool.false_eq_true, if_false]
    have e1 : ']' :: (" [info] Opening ".toList ++ [apostrophe] ++
          (cap ++ ((apostrophe :: " for writing".toList) ++ rest)))
        = ("] [info] Opening ".toList ++ [apostrophe]) ++
          (cap ++ ((apostrophe :: " for writing".toList) ++ rest)) := rfl
    rw [e1, literal_append]
    simp only
    have hq : (apostrophe != apostrophe) = false := by decide
    obtain ⟨t2, d2⟩ := takeWhile_until (fun c => c != apostrophe) cap apostrophe
      (" for writing".toList ++ rest) (fun x hx => by simpa using hcapc x hx) hq
    have e2 : cap ++ ((apostrophe :: " for writing".toList) ++ rest)
        = cap ++ apostrophe :: (" for writing".toList ++ rest) := rfl
    rw [e2, t2, d2]
    have hsuf : hasSuffix cap ".mp4".toList = true := (hasSuffix_iff _ _).mpr ⟨stem, hcap⟩
    have hlen : 5 ≤ cap.length := by
      rw [hcap, List.length_append]
      have : 0 < stem.length := List.length_pos.mpr hstem
      have h4 : ".mp4".toList.length = 4 := rfl
      omega
    rw [hsuf]
    simp only [Bool.true_and, decide_eq_true_eq, hlen, if_true]
    have e3 : apostrophe :: (" for writing".toList ++ rest)
        = (apostrophe :: " for writing".toList) ++ rest := rfl
    rw [e3, literal_append]

theorem matchSegmentAt_nil : matchSegmentAt [] = none := by decide

/-- `exprSegmentWriting` gives the capture of the leftmost anchor at which the pattern
matches. -/
theorem exprSegmentWriting_iff (s cap : GoString) :
    exprSegmentWriting s = some cap ↔
      ∃ skipped tail : GoString, s = skipped ++ tail ∧ matchSegmentAt tail = some cap ∧
        ∀ a b : GoString, skipped = a ++ b → b ≠ [] → matchSegmentAt (b ++ tail) = none := by
  induction s with
  | nil =>
    constructor
    · intro h; simp [exprSegmentWriting] at h
    · rintro ⟨skipped, tail, hs, hm, _⟩
      have ht : tail = [] := (List.append_eq_nil.mp hs.symm).2
      rw [ht, matchSegmentAt_nil] at hm
      cases hm
  | cons c cs ih =>
    unfold exprSegmentWriting
    cases hm : matchSegmentAt (c :: cs) with
    | some cap2 =>
      simp only [Option.some.injEq]
      constructor
      · intro h
        subst h
        exact ⟨[], c :: cs, rfl, hm, fun a b hab hb => by
          have := (List.append_eq_nil.mp hab.symm).2
          exact absurd this hb⟩
      · rintro ⟨skipped, tail, hs, hmt, hleft⟩
        cases skipped with
        | nil =>
          simp only [List.nil_append] at hs
          rw [← hs, hm] at hmt
          exact Option.some.inj hmt
        | cons d ds =>
          have h1 := hleft [] (d :: ds) rfl (by simp)
          rw [← hs, hm] at h1
          cases h1
    | none =>
      simp only
      rw [ih]
      constructor
      · rintro ⟨skipped, tail, hs, hmt, hleft⟩
        refine ⟨c :: skipped, tail, by rw [hs]; rfl, hmt, ?_⟩
        intro a b hab hb
        cases a with
        | nil =>
          simp only [List.nil_append] at hab
          rw [← hab, List.cons_append, ← hs]
          exact hm
        | cons a0 as =>
          simp only [List.cons_append, List.cons.injEq] at hab
          exact hleft as b hab.2 hb
      · rintro ⟨skipped, tail, hs, hmt, hleft⟩
        cases skipped with
        | nil =>
          simp only [List.nil_append] at hs
          rw [← hs, hm] at hmt
          cases hmt
        | cons d ds =>
          simp only [List.cons_append, List.cons.injEq] at hs
          refine ⟨ds, tail, hs.2, hmt, ?_⟩
          intro a b hab hb
          exact hleft (d :: a) b (by rw [hab]; rfl) hb

/-! ## The segment-closed callback (C1) -/

/-- What `onLine` does on a line the segment pattern does not match. -/
theorem onLine_no_segment (w : Stream) (now : Nows) (p : GoString)
    (h : exprSegmentWriting p = none) :
    (onLine w now p).2 = [] ∧
    (onLine w now p).1.LastSegmentOpened = w.LastSegmentOpened ∧
    (onLine w now p).1.LastSegmentOpenedName = w.LastSegmentOpenedName ∧
    (onLine w now p).1.OnSegmentClosedSet = w.OnSegmentClosedSet := by
  unfold onLine
  split
  · simp [h]
  · simp

/-- What `onLine` does on a line the segment pattern matches. -/
theorem onLine_segment (w : Stream) (now : Nows) (p name : GoString)
    (h : exprSegmentWriting p = some name) :
    (onLine w now p).2 =
        (if w.LastSegmentOpenedName ≠ [] ∧ w.OnSegmentClosedSet = true
          then [(w.LastSegmentOpened, w.LastSegmentOpenedName)] else []) ∧
    (onLine w now p).1.LastSegmentOpened = now.segmentOpened ∧
    (onLine w now p).1.LastSegmentOpenedName = name ∧
    (onLine w now p).1.OnSegmentClosedSet = w.OnSegmentClosedSet := by
  have hc := exprSegmentWriting_some h
  unfold onLine
  simp only [hc.2.1, hc.2.2, Bool.and_self, if_true, h]
  by_cases hn : w.LastSegmentOpenedName = []
  · simp [hn]
  · by_cases hs : w.OnSegmentClosedSet = true
    · simp [hn, hs]
    · simp [hn, hs]

theorem onLine_calls_of_holds (w : Stream) (prev : Option ClosedCall) (hw : HoldsOpen w prev)
    (now : Nows) (p name : GoString) (h : exprSegmentWriting p = some name) :
    (onLine w now p).2 = (if w.OnSegmentClosedSet = true then prev.toList else []) ∧
    HoldsOpen (onLine w now p).1 (some (now.segmentOpened, name)) := by
  obtain ⟨h1, h2, h3, _⟩ := onLine_segment w now p name h
  have hne := (exprSegmentWriting_some h).1
  refine ⟨?_, h2, h3, hne⟩
  rw [h1]
  cases prev with
  | none =>
    have : w.LastSegmentOpenedName = [] := hw
    simp [this]
  | some c =>
    obtain ⟨a, b, c3⟩ := hw
    have hb : w.LastSegmentOpenedName ≠ [] := by rw [b]; exact c3
    by_cases hs : w.OnSegmentClosedSet = true
    · simp [hs, a, b, c3]
    · simp [hs]

theorem onLine_holds_no_segment (w : Stream) (prev : Option ClosedCall) (hw : HoldsOpen w prev)
    (now : Nows) (p : GoString) (h : exprSegmentWriting p = none) :
    HoldsOpen (onLine w now p).1 prev := by
  obtain ⟨_, h2, h3, _⟩ := onLine_no_segment w now p h
  cases prev with
  | none => exact h3.trans hw
  | some c => exact ⟨h2.trans hw.1, h3.trans hw.2.1, hw.2.2⟩

theorem onLine_callbackSet (w : Stream) (now : Nows) (p : GoString) :
    (onLine w now p).1.OnSegmentClosedSet = w.OnSegmentClosedSet := by
  cases h : exprSegmentWriting p with
  | none => exact (onLine_no_segment w now p h).2.2.2
  | some name => exact (onLine_segment w now p name h).2.2.2

theorem feedLines_callbackSet (w : Stream) (ls : List (Nows × GoString)) :
    (feedLines w ls).OnSegmentClosedSet = w.OnSegmentClosedSet := by
  induction ls generalizing w with
  | nil => rfl
  | cons l rest ih =>
    obtain ⟨now, p⟩ := l
    show (feedLines (onLine w now p).1 rest).OnSegmentClosedSet = _
    rw [ih, onLine_callbackSet]

theorem latestOpen_nil (prev : Option ClosedCall) : latestOpen prev [] = prev := by
  cases prev <;> simp [latestOpen, segmentOpens]

theorem latestOpen_cons_none (prev : Option ClosedCall) (now : Nows) (p : GoString)
    (rest : List (Nows × GoString)) (h : exprSegmentWriting p = none) :
    latestOpen prev ((now, p) :: rest) = latestOpen prev rest := by
  simp [latestOpen, segmentOpens, h]

theorem latestOpen_cons_some (prev : Option ClosedCall) (now : Nows) (p name : GoString)
    (rest : List (Nows × GoString)) (h : exprSegmentWriting p = some name) :
    latestOpen prev ((now, p) :: rest) = latestOpen (some (now.segmentOpened, name)) rest := by
  cases prev with
  | none => simp [latestOpen, segmentOpens, h]
  | some c =>
    simp only [latestOpen, segmentOpens, h, Option.toList]
    rw [show [c] ++ (now.segmentOpened, name) :: segmentOpens rest
          = [c] ++ ([(now.segmentOpened, name)] ++ segmentOpens rest) from rfl]
    rw [List.getLast?_append_of_ne_nil _ (by simp)]

theorem feedLines_holds (w : Stream) (prev : Option ClosedCall) (hw : HoldsOpen w prev)
    (ls : List (Nows × GoString)) : HoldsOpen (feedLines w ls) (latestOpen prev ls) := by
  induction ls generalizing w prev with
  | nil => rw [latestOpen_nil]; exact hw
  | cons l rest ih =>
    obtain ⟨now, p⟩ := l
    show HoldsOpen (feedLines (onLine w now p).1 rest) _
    cases h : exprSegmentWriting p with
    | none =>
      rw [latestOpen_cons_none prev now p rest h]
      exact ih _ prev (onLine_holds_no_segment w prev hw now p h)
    | some name =>
      rw [latestOpen_cons_some prev now p name rest h]
      exact ih _ _ (onLine_calls_of_holds w prev hw now p name h).2

theorem closedCalls_of_holds (w : Stream) (prev : Option ClosedCall) (hw : HoldsOpen w prev)
    (ls : List (Nows × GoString)) :
    closedCalls w ls =
      if w.OnSegmentClosedSet = true then (prev.toList ++ segmentOpens ls).dropLast else [] := by
  induction ls generalizing w prev with
  | nil =>
    cases prev <;> simp [closedCalls, segmentOpens]
  | cons l rest ih =>
    obtain ⟨now, p⟩ := l
    show (onLine w now p).2 ++ closedCalls (onLine w now p).1 rest = _
    cases h : exprSegmentWriting p with
    | none =>
      rw [ih _ prev (onLine_holds_no_segment w prev hw now p h), onLine_callbackSet,
        (onLine_no_segment w now p h).1]
      simp [segmentOpens, h]
    | some name =>
      obtain ⟨hc, hh⟩ := onLine_calls_of_holds w prev hw now p name h
      rw [ih _ _ hh, onLine_callbackSet, hc]
      by_cases hs : w.OnSegmentClosedSet = true
      · simp only [hs, if_true, segmentOpens, h]
        have e : (prev.toList ++ (now.segmentOpened, name) :: segmentOpens rest).dropLast
            = prev.toList ++ ((now.segmentOpened, name) :: segmentOpens rest).dropLast :=
          List.dropLast_append_of_ne_nil _ (by simp)
        rw [e]
        rfl
      · simp [hs]

/-- C1. From a stream whose `LastSegmentOpenedName` is empty, after any log `before`:
a segment-open line stores its own (instant, captured path) pair in
`LastSegmentOpened`/`LastSegmentOpenedName` and, with a callback installed, invokes
`OnSegmentClosed` exactly with the pair stored by the previous segment-open line, and
not at all when it is the first one; a line that is not a segment-open line invokes
nothing; hence the k-th invocation overall carries the pair of the k-th segment-open
line and is made while the (k+1)-th is processed. -/
theorem onLine_closes_previous_segment (w : Stream) (h0 : w.LastSegmentOpenedName = [])
    (before : List (Nows × GoString)) (now : Nows) (p : GoString) :
    (∀ name, exprSegmentWriting p = some name →
        (onLine (feedLines w before) now p).1.LastSegmentOpened = now.segmentOpened ∧
        (onLine (feedLines w before) now p).1.LastSegmentOpenedName = name ∧
        (onLine (feedLines w before) now p).2 =
          (if w.OnSegmentClosedSet = true then (segmentOpens before).getLast?.toList else [])) ∧
    (exprSegmentWriting p = none → (onLine (feedLines w before) now p).2 = []) ∧
    closedCalls w (before ++ [(now, p)]) =
      (if w.OnSegmentClosedSet = true
        then (segmentOpens (before ++ [(now, p)])).dropLast else []) := by
  have hw : HoldsOpen w none := h0
  have hb := feedLines_holds w none hw before
  refine ⟨?_, ?_, ?_⟩
  · intro name hn
    obtain ⟨h1, h2, h3, _⟩ := onLine_segment (feedLines w before) now p name hn
    refine ⟨h2, h3, ?_⟩
    rw [(onLine_calls_of_holds _ _ hb now p name hn).1, feedLines_callbackSet]
    simp [latestOpen]
  · intro hn
    exact (onLine_no_segment _ now p hn).1
  · simpa using closedCalls_of_holds w none hw (before ++ [(now, p)])

/-! ## Calendar lemmas -/

theorem isLeap_iff (y : Int) :
    isLeap y = true ↔ (y % 4 = 0 ∧ (y % 100 ≠ 0 ∨ y % 400 = 0)) := by
  simp [isLeap]

/-- Year offsets split into 400-, 100-, 4- and 1-year cycles. -/
theorem year_cycles (Y : Nat) : ∃ a b c e : Nat,
    Y = 400 * a + 100 * b + 4 * c + e ∧ b < 4 ∧ c < 25 ∧ e < 4 :=
  ⟨Y / 400, Y % 400 / 100, Y % 400 % 100 / 4, Y % 400 % 100 % 4, by omega, by omega, by omega, by omega⟩

theorem daysSinceEpoch_cycles (y : Int) (a b c e : Nat)
    (hY : (y + 292277022399).toNat = 400 * a + 100 * b + 4 * c + e)
    (hb : b < 4) (hc : c < 25) (he : e < 4) :
    daysSinceEpoch y = 146097 * a + 36524 * b + 1461 * c + 365 * e := by
  unfold daysSinceEpoch
  simp only [hY]
  have h1 : (400 * a + 100 * b + 4 * c + e) / 400 = a := by omega
  rw [h1]
  have h2 : 400 * a + 100 * b + 4 * c + e - 400 * a = 100 * b + 4 * c + e := by omega
  rw [h2]
  have h3 : (100 * b + 4 * c + e) / 100 = b := by omega
  rw [h3]
  have h4 : 100 * b + 4 * c + e - 100 * b = 4 * c + e := by omega
  rw [h4]
  have h5 : (4 * c + e) / 4 = c := by omega
  rw [h5]
  have h6 : 4 * c + e - 4 * c = e := by omega
  rw [h6]

theorem isLeap_cycles (y : Int) (a b c e : Nat) (hy : 0 ≤ y + 292277022399)
    (hY : (y + 292277022399).toNat = 400 * a + 100 * b + 4 * c + e)
    (hb : b < 4) (hc : c < 25) (he : e < 4) :
    isLeap y = true ↔ (e = 3 ∧ (c ≠ 24 ∨ b = 3)) := by
  rw [isLeap_iff]
  have hy2 : y = ((400 * a + 100 * b + 4 * c + e : Nat) : Int) - 292277022399 := by omega
  constructor
  · intro h
    omega
  · intro h
    omega

theorem div_eq_of_bounds (x k q : Nat) (h1 : k * q ≤ x) (h2 : x < k * (q + 1)) : x / k = q := by
  apply Nat.div_eq_of_lt_le
  · rw [Nat.mul_comm]; exact h1
  · rw [Nat.mul_comm]; exact h2

theorem absYearDay_cycles (a b c e yd : Nat) (hb : b < 4) (hc : c < 25) (he : e < 4)
    (hyd : yd < 365 + (if e = 3 ∧ (c ≠ 24 ∨ b = 3) then 1 else 0)) :
    absYearDay (146097 * a + 36524 * b + 1461 * c + 365 * e + yd)
      = (((400 * a + 100 * b + 4 * c + e : Nat) : Int) - 292277022399, yd) := by
  have hyd2 : yd ≤ 365 := by split at hyd <;> omega
  have hyd3 : (e = 3 ∧ (c ≠ 24 ∨ b = 3)) ∨ yd ≤ 364 := by
    by_cases hn : e = 3 ∧ (c ≠ 24 ∨ b = 3)
    · exact Or.inl hn
    · rw [if_neg hn] at hyd; exact Or.inr (by omega)
  clear hyd
  unfold absYearDay
  have h1 : (146097 * a + 36524 * b + 1461 * c + 365 * e + yd) / 146097 = a :=
    div_eq_of_bounds _ _ _ (by omega) (by omega)
  simp only [h1]
  have h2 : 146097 * a + 36524 * b + 1461 * c + 365 * e + yd - 146097 * a
      = 36524 * b + 1461 * c + 365 * e + yd := by omega
  simp only [h2]
  have h3 : (36524 * b + 1461 * c + 365 * e + yd) / 36524
      - (36524 * b + 1461 * c + 365 * e + yd) / 36524 / 4 = b := by
    by_cases hx : 1461 * c + 365 * e + yd < 36524
    · have : (36524 * b + 1461 * c + 365 * e + yd) / 36524 = b :=
        div_eq_of_bounds _ _ _ (by omega) (by omega)
      rw [this]
      have : b / 4 = 0 := div_eq_of_bounds _ _ _ (by omega) (by omega)
      rw [this]; rfl
    · have hb3 : b = 3 := by omega
      have : (36524 * b + 1461 * c + 365 * e + yd) / 36524 = 4 :=
        div_eq_of_bounds _ _ _ (by omega) (by omega)
      rw [this, hb3]
  simp only [h3]
  have h4 : 36524 * b + 1461 * c + 365 * e + yd - 36524 * b = 1461 * c + 365 * e + yd := by
    omega
  simp only [h4]
  have h5 : (1461 * c + 365 * e + yd) / 1461 = c :=
    div_eq_of_bounds _ _ _ (by omega) (by omega)
  simp only [h5]
  have h6 : 1461 * c + 365 * e + yd - 1461 * c = 365 * e + yd := by omega
  simp only [h6]
  have h7 : (365 * e + yd) / 365 - (365 * e + yd) / 365 / 4 = e := by
    by_cases hx : yd < 365
    · have : (365 * e + yd) / 365 = e := div_eq_of_bounds _ _ _ (by omega) (by omega)
      rw [this]
      have : e / 4 = 0 := div_eq_of_bounds _ _ _ (by omega) (by omega)
      rw [this]; rfl
    · have he3 : e = 3 := by omega
      have : (365 * e + yd) / 365 = 4 := div_eq_of_bounds _ _ _ (by omega) (by omega)
      rw [this, he3]
  simp only [h7]
  have h8 : 365 * e + yd - 365 * e = yd := by omega
  simp only [h8]

theorem absYearDay_daysSinceEpoch (y : Int) (yd : Nat) (hy : 0 ≤ y + 292277022399)
    (hyd : yd < 365 + (if isLeap y = true then 1 else 0)) :
    absYearDay (daysSinceEpoch y + yd) = (y, yd) := by
  obtain ⟨a, b, c, e, hY, hb, hc, he⟩ := year_cycles (y + 292277022399).toNat
  have hl := isLeap_cycles y a b c e hy hY hb hc he
  rw [daysSinceEpoch_cycles y a b c e hY hb hc he]
  have hyd' : yd < 365 + (if e = 3 ∧ (c ≠ 24 ∨ b = 3) then 1 else 0) := by
    by_cases h : isLeap y = true
    · rw [if_pos h] at hyd
      rw [if_pos (hl.mp h)]; exact hyd
    · rw [if_neg h] at hyd
      split <;> omega
  rw [absYearDay_cycles a b c e yd hb hc he hyd']
  simp only [Prod.mk.injEq, and_true]
  omega

theorem monthDay_table_aux (leap : Bool) :
    ∀ m < 13, ∀ d < 32, (decide (1 ≤ m) && decide (1 ≤ d) && decide (d ≤ daysIn m leap)) = true →
      monthDayOk leap m d = true := by
  cases leap <;> decide

theorem daysIn_le (leap : Bool) : ∀ m < 13, daysIn m leap ≤ 31 := by
  cases leap <;> decide

theorem monthDay_yday (leap : Bool) (m d : Nat) (hm1 : 1 ≤ m) (hm2 : m ≤ 12) (hd1 : 1 ≤ d)
    (hd2 : d ≤ daysIn m leap) :
    (daysBefore (m - 1) + (if leap = true ∧ 3 ≤ m then 1 else 0) + (d - 1)
        < 365 + (if leap = true then 1 else 0)) ∧
    monthDay leap (daysBefore (m - 1) + (if leap = true ∧ 3 ≤ m then 1 else 0) + (d - 1))
      = (m, d) := by
  have hm : m < 13 := by omega
  have hd : d < 32 := by have := daysIn_le leap m hm; omega
  have h := monthDay_table_aux leap m hm d hd (by simp [hm1, hd1, hd2])
  unfold monthDayOk at h
  simpa using h

theorem absClock_eq (days h mi s : Nat) (hh : h < 24) (hmi : mi < 60) (hs : s < 60) :
    (days * 86400 + (h * 3600 + mi * 60 + s)) / 86400 = days ∧
    absClock (days * 86400 + (h * 3600 + mi * 60 + s)) = (h, mi, s) := by
  constructor
  · exact div_eq_of_bounds _ _ _ (by omega) (by omega)
  · unfold absClock
    have h1 : (days * 86400 + (h * 3600 + mi * 60 + s)) % 86400 = h * 3600 + mi * 60 + s := by
      omega
    simp only [h1]
    have h2 : (h * 3600 + mi * 60 + s) / 3600 = h := div_eq_of_bounds _ _ _ (by omega) (by omega)
    simp only [h2]
    have h3 : h * 3600 + mi * 60 + s - h * 3600 = mi * 60 + s := by omega
    simp only [h3]
    have h4 : (mi * 60 + s) / 60 = mi := div_eq_of_bounds _ _ _ (by omega) (by omega)
    simp only [h4]
    have h5 : mi * 60 + s - mi * 60 = s := by omega
    simp only [h5]

/-- Calendar fields of a `Date` built from fields in range are those fields. -/
theorem absDate_Date (y : Int) (m d h mi s ns : Nat) (hy : 0 ≤ y + 292277022399)
    (hm1 : 1 ≤ m) (hm2 : m ≤ 12) (hd1 : 1 ≤ d) (hd2 : d ≤ daysIn m (isLeap y))
    (hh : h < 24) (hmi : mi < 60) (hs : s < 60) :
    absDate (Date y m d h mi s ns).abs = (y, m, d) ∧
    absClock (Date y m d h mi s ns).abs = (h, mi, s) := by
  obtain ⟨hyd, hmd⟩ := monthDay_yday (isLeap y) m d hm1 hm2 hd1 hd2
  have habs : (Date y m d h mi s ns).abs =
      (daysSinceEpoch y + (daysBefore (m - 1) + (if isLeap y = true ∧ 3 ≤ m then 1 else 0)
        + (d - 1))) * 86400 + (h * 3600 + mi * 60 + s) := by
    unfold Time.abs Date unixToAbsolute
    simp only [sub_add_cancel, Int.toNat_ofNat]
    ring_nf
  obtain ⟨hdiv, hclock⟩ := absClock_eq (daysSinceEpoch y + (daysBefore (m - 1)
    + (if isLeap y = true ∧ 3 ≤ m then 1 else 0) + (d - 1))) h mi s hh hmi hs
  rw [habs]
  refine ⟨?_, hclock⟩
  unfold absDate
  simp only [hdiv]
  rw [absYearDay_daysSinceEpoch y _ hy hyd]
  simp only [hmd]

theorem digit_roundtrip (c : Char) (h : isDigitChar c = true) :
    digitVal c < 10 ∧ digitChar (digitVal c) = c := by
  unfold isDigitChar at h
  simp only [Bool.and_eq_true, decide_eq_true_eq] at h
  unfold digitVal digitChar
  refine ⟨by omega, ?_⟩
  have : 48 + (c.toNat - 48) = c.toNat := by omega
  rw [this]
  exact Char.ofNat_toNat c

theorem literal_dash {v r : GoString} (h : literal ['-'] v = some r) : v = '-' :: r :=
  literal_eq_some h

theorem appendInt_two (n : Nat) (h : n < 100) :
    appendInt (n : Int) 2 = [digitChar (n / 10), digitChar (n % 10)] := by
  unfold appendInt
  simp [h]

theorem appendInt_four (n : Nat) (h : n < 10000) :
    appendInt (n : Int) 4 = [digitChar (n / 1000), digitChar (n / 100 % 10),
      digitChar (n / 10 % 10), digitChar (n % 10)] := by
  unfold appendInt
  simp [h]

theorem getnum_fixed {s r : GoString} {n : Nat} (h : getnum s true = some (n, r)) :
    n < 100 ∧ s = appendInt (n : Int) 2 ++ r := by
  unfold getnum at h
  split at h
  · cases h
  · split at h <;> simp at h
  · rename_i c0 c1 rest
    split at h
    · rename_i h0
      split at h
      · rename_i h1
        simp only [Option.some.injEq, Prod.mk.injEq] at h
        obtain ⟨a0, b0⟩ := digit_roundtrip c0 h0
        obtain ⟨a1, b1⟩ := digit_roundtrip c1 h1
        have hn : n < 100 := by omega
        refine ⟨hn, ?_⟩
        rw [appendInt_two n hn, ← h.1, ← h.2]
        have e1 : (digitVal c0 * 10 + digitVal c1) / 10 = digitVal c0 := by omega
        have e2 : (digitVal c0 * 10 + digitVal c1) % 10 = digitVal c1 := by omega
        rw [e1, e2, b0, b1]
        rfl
      · simp at h
    · cases h

theorem getnum_free {s r : GoString} {n : Nat} (h : getnum s false = some (n, r)) :
    n < 100 ∧ (s = appendInt (n : Int) 2 ++ r ∨ s.length = r.length + 1) := by
  unfold getnum at h
  split at h
  · cases h
  · rename_i c0
    split at h
    · rename_i h0
      simp only [Bool.false_eq_true, if_false, Option.some.injEq, Prod.mk.injEq] at h
      obtain ⟨a0, _⟩ := digit_roundtrip c0 h0
      refine ⟨by omega, Or.inr ?_⟩
      rw [← h.2]; rfl
    · cases h
  · rename_i c0 c1 rest
    split at h
    · rename_i h0
      obtain ⟨a0, b0⟩ := digit_roundtrip c0 h0
      split at h
      · rename_i h1
        simp only [Option.some.injEq, Prod.mk.injEq] at h
        obtain ⟨a1, b1⟩ := digit_roundtrip c1 h1
        have hn : n < 100 := by omega
        refine ⟨hn, Or.inl ?_⟩
        rw [appendInt_two n hn, ← h.1, ← h.2]
        have e1 : (digitVal c0 * 10 + digitVal c1) / 10 = digitVal c0 := by omega
        have e2 : (digitVal c0 * 10 + digitVal c1) % 10 = digitVal c1 := by omega
        rw [e1, e2, b0, b1]
        rfl
      · simp only [Bool.false_eq_true, if_false, Option.some.injEq, Prod.mk.injEq] at h
        refine ⟨by omega, Or.inr ?_⟩
        rw [← h.2]; rfl
    · cases h

theorem parseLongYear_some {s r : GoString} {y : Int} (h : parseLongYear s = some (y, r)) :
    ∃ n : Nat, y = (n : Int) ∧ n < 10000 ∧ s = appendInt y 4 ++ r := by
  unfold parseLongYear at h
  split at h
  · rename_i c0 c1 c2 c3 rest
    split at h
    · rename_i hd
      simp only [Bool.and_eq_true] at hd
      obtain ⟨⟨⟨h0, h1⟩, h2⟩, h3⟩ := hd
      obtain ⟨a0, b0⟩ := digit_roundtrip c0 h0
      obtain ⟨a1, b1⟩ := digit_roundtrip c1 h1
      obtain ⟨a2, b2⟩ := digit_roundtrip c2 h2
      obtain ⟨a3, b3⟩ := digit_roundtrip c3 h3
      simp only [Option.some.injEq, Prod.mk.injEq] at h
      refine ⟨digitVal c0 * 1000 + digitVal c1 * 100 + digitVal c2 * 10 + digitVal c3,
        h.1.symm, by omega, ?_⟩
      rw [← h.1, appendInt_four _ (by omega), ← h.2]
      have e0 : (digitVal c0 * 1000 + digitVal c1 * 100 + digitVal c2 * 10 + digitVal c3) / 1000
          = digitVal c0 := by omega
      have e1 : (digitVal c0 * 1000 + digitVal c1 * 100 + digitVal c2 * 10 + digitVal c3) / 100 % 10
          = digitVal c1 := by omega
      have e2 : (digitVal c0 * 1000 + digitVal c1 * 100 + digitVal c2 * 10 + digitVal c3) / 10 % 10
          = digitVal c2 := by omega
      have e3 : (digitVal c0 * 1000 + digitVal c1 * 100 + digitVal c2 * 10 + digitVal c3) % 10
          = digitVal c3 := by omega
      rw [e0, e1, e2, e3, b0, b1, b2, b3]
      rfl
    · cases h
  · cases h

theorem parseFraction_cases (v : GoString) :
    parseFraction v = (0, v) ∨ (parseFraction v).2.length + 2 ≤ v.length := by
  unfold parseFraction
  split
  · rename_i c d rest
    split
    · rename_i hc
      right
      simp only [Bool.and_eq_true] at hc
      have hd : isDigitChar d = true := hc.2
      simp only [List.dropWhile_cons, hd, if_true, List.length_cons]
      have := List.Sublist.length_le (List.dropWhile_sublist isDigitChar : (rest.dropWhile isDigitChar).Sublist rest)
      omega
    · left; rfl
  · left; rfl

theorem appendInt_two_length (n : Nat) (h : n < 100) : (appendInt (n : Int) 2).length = 2 := by
  rw [appendInt_two n h]; rfl

theorem appendInt_four_length (n : Nat) (h : n < 10000) : (appendInt (n : Int) 4).length = 4 := by
  rw [appendInt_four n h]; rfl

/-- A successful parse of a 19-byte value: the value is the canonical rendering of the
fields, and the instant is the `Date` of those fields. -/
theorem timeParse_shape (s : GoString) (t : Time) (hlen : s.length = 19)
    (h : timeParse s = some t) :
    ∃ y m d hh mi sec : Nat, y < 10000 ∧ 1 ≤ m ∧ m ≤ 12 ∧ 1 ≤ d ∧ d ≤ daysIn m (isLeap (y : Int))
      ∧ hh < 24 ∧ mi < 60 ∧ sec < 60 ∧ t = Date (y : Int) m d hh mi sec 0 ∧
      s = appendInt (y : Int) 4 ++ '-' :: appendInt (m : Int) 2 ++ '-' :: appendInt (d : Int) 2
        ++ '-' :: appendInt (hh : Int) 2 ++ '-' :: appendInt (mi : Int) 2
        ++ '-' :: appendInt (sec : Int) 2 := by
  unfold timeParse at h
  split at h
  · cases h
  rename_i year v1 hyear
  split at h
  · cases h
  rename_i v2 hv2
  split at h
  · cases h
  rename_i month v3 hmonth
  split at h
  · cases h
  rename_i hmr
  split at h
  · cases h
  rename_i v4 hv4
  split at h
  · cases h
  rename_i day v5 hday
  split at h
  · cases h
  rename_i v6 hv6
  split at h
  · cases h
  rename_i hour v7 hhour
  split at h
  · cases h
  rename_i hhr
  split at h
  · cases h
  rename_i v8 hv8
  split at h
  · cases h
  rename_i min v9 hmin
  split at h
  · cases h
  rename_i hmir
  split at h
  · cases h
  rename_i v10 hv10
  split at h
  · cases h
  rename_i sec v11 hsec
  split at h
  · cases h
  rename_i hsr
  split at h
  rename_i nsec v12 hfrac
  split at h
  · cases h
  rename_i hv12
  split at h
  · cases h
  rename_i hdr
  simp only [Option.some.injEq] at h
  obtain ⟨yn, hyn, hy4, e1⟩ := parseLongYear_some hyear
  have e2 := literal_dash hv2
  obtain ⟨hm100, e3⟩ := getnum_fixed hmonth
  have e4 := literal_dash hv4
  obtain ⟨hd100, e5⟩ := getnum_fixed hday
  have e6 := literal_dash hv6
  obtain ⟨hh100, e7⟩ := getnum_free hhour
  have e8 := literal_dash hv8
  obtain ⟨hmi100, e9⟩ := getnum_fixed hmin
  have e10 := literal_dash hv10
  obtain ⟨hs100, e11⟩ := getnum_fixed hsec
  have hv12' : v12 = [] := by simpa using hv12
  have l1 := congrArg List.length e1
  have l3 := congrArg List.length e3
  have l5 := congrArg List.length e5
  have l9 := congrArg List.length e9
  have l11 := congrArg List.length e11
  subst hyn
  rw [List.length_append, appendInt_four_length yn hy4] at l1
  rw [List.length_append, appendInt_two_length _ hm100] at l3
  rw [List.length_append, appendInt_two_length _ hd100] at l5
  rw [List.length_append, appendInt_two_length _ hmi100] at l9
  rw [List.length_append, appendInt_two_length _ hs100] at l11
  have l2 := congrArg List.length e2
  have l4 := congrArg List.length e4
  have l6 := congrArg List.length e6
  have l8 := congrArg List.length e8
  have l10 := congrArg List.length e10
  simp only [List.length_cons] at l2 l4 l6 l8 l10
  have hfr := parseFraction_cases v11
  rw [hfrac] at hfr
  simp only [hv12', List.length_nil] at hfr
  have hv11 : v11 = [] ∧ nsec = 0 := by
    rcases e7 with e7 | e7
    · have l7 := congrArg List.length e7
      rw [List.length_append, appendInt_two_length _ hh100] at l7
      rcases hfr with hfr | hfr
      · simp only [Prod.mk.injEq] at hfr
        exact ⟨hfr.2.symm, hfr.1⟩
      · omega
    · rcases hfr with hfr | hfr
      · simp only [Prod.mk.injEq] at hfr
        have : v11.length = 0 := by rw [← hfr.2]; rfl
        omega
      · omega
  have e7' : v6 = appendInt (hour : Int) 2 ++ v7 := by
    rcases e7 with e7 | e7
    · exact e7
    · have : v11.length = 0 := by rw [hv11.1]; rfl
      omega
  refine ⟨yn, month, day, hour, min, sec, hy4, by omega, by omega, by omega, by omega,
    by omega, by omega, by omega, ?_, ?_⟩
  · rw [← h, hv11.2]
  · rw [e1, e2, e3, e4, e5, e6, e7', e8, e9, e10, e11, hv11.1]
    simp

/-- Formatting a parsed 19-byte stamp gives the stamp back. -/
theorem formatStamp_timeParse (s : GoString) (t : Time) (hlen : s.length = 19)
    (h : timeParse s = some t) : formatStamp t = s := by
  obtain ⟨y, m, d, hh, mi, sec, hy, hm1, hm2, hd1, hd2, hh24, hmi, hsec, ht, hs⟩ :=
    timeParse_shape s t hlen h
  obtain ⟨hdate, hclock⟩ := absDate_Date (y : Int) m d hh mi sec 0 (by omega) hm1 hm2 hd1 hd2
    hh24 hmi hsec
  unfold formatStamp
  rw [ht, hdate, hclock, hs]

/-! ## What the catalog receives (C2) -/

/-- A path whose last byte is not a slash ends with its `path.Base`. -/
theorem pathBase_suffix (body : GoString) (c : Char) (hc : c ≠ '/') :
    ∃ dir, body ++ [c] = dir ++ pathBase (body ++ [c]) := by
  unfold pathBase
  have hne : body ++ [c] ≠ [] := by simp
  rw [if_neg hne]
  have hrev : (body ++ [c]).reverse = c :: body.reverse := by simp
  have hstrip : ((body ++ [c]).reverse.dropWhile (fun c => c == '/')).reverse = body ++ [c] := by
    rw [hrev, List.dropWhile_cons]
    have : (c == '/') = false := by simpa using hc
    simp [this]
  simp only [hstrip]
  have hlast : (body ++ [c]).reverse.takeWhile (fun c => c != '/') ≠ [] := by
    rw [hrev, List.takeWhile_cons]
    have : (c != '/') = true := by simpa using hc
    simp [this]
  have hlast' : ((body ++ [c]).reverse.takeWhile (fun c => c != '/')).reverse ≠ [] := by
    simpa using hlast
  rw [if_neg hlast']
  refine ⟨((body ++ [c]).reverse.dropWhile (fun c => c != '/')).reverse, ?_⟩
  rw [← List.reverse_append, List.takeWhile_append_dropWhile, List.reverse_reverse]

theorem pathBase_suffix_mp4 (path : GoString) (h : hasSuffix path ".mp4".toList = true) :
    ∃ dir, path = dir ++ pathBase path := by
  obtain ⟨t, ht⟩ := (hasSuffix_iff _ _).mp h
  have : path = (t ++ ".mp".toList) ++ ['4'] := by rw [ht]; simp
  rw [this]
  exact pathBase_suffix _ '4' (by decide)

/-- The loader parses the stamp from the whole path; the base name gives the same
result once it is long enough to pass the length check of `parseRecordingTime`. -/
theorem parseRecordingTime_base (dir base : GoString) (h : 24 ≤ base.length) :
    parseRecordingTime (dir ++ base) = parseRecordingTime base := by
  unfold parseRecordingTime
  have h1 : ¬ (dir ++ base).length < 24 := by rw [List.length_append]; omega
  have h2 : ¬ base.length < 24 := by omega
  rw [if_neg h1, if_neg h2]
  have : (dir ++ base).drop ((dir ++ base).length - 23) = base.drop (base.length - 23) := by
    rw [List.length_append]
    have e : dir.length + base.length - 23 = dir.length + (base.length - 23) := by omega
    rw [e, List.drop_append]
  rw [this]

theorem loadEntry_save {input : Input} {probe : GoString → Probe} {e : Entry} {r : Recording}
    (h : loadEntry input probe e = LoadStep.save r) :
    r.ID = pathBase r.Path ∧ parseRecordingTime r.Path = some r.Start ∧
      hasSuffix r.Path ".mp4".toList = true := by
  unfold loadEntry at h
  split at h
  · cases h
  · split at h
    · cases h
    · rename_i hfilter
      split at h
      · cases h
      · rename_i recordingDate hparse
        split at h
        · cases h
        · cases h
        · cases h
        · simp only [LoadStep.save.injEq] at h
          subst h
          simp only [Bool.or_eq_true, Bool.not_eq_true', not_or, Bool.not_eq_false] at hfilter
          exact ⟨rfl, hparse, hfilter.1⟩

theorem loadWalk_mem {input : Input} {probe : GoString → Probe} {walk : List Entry}
    {r : Recording} (h : r ∈ loadWalk input probe walk) :
    ∃ e ∈ walk, loadEntry input probe e = LoadStep.save r := by
  induction walk with
  | nil => simp [loadWalk] at h
  | cons e rest ih =>
    unfold loadWalk at h
    split at h
    · obtain ⟨e', he', hs⟩ := ih h
      exact ⟨e', List.mem_cons_of_mem _ he', hs⟩
    · simp at h
    · rename_i r' hr'
      rcases List.mem_cons.mp h with h | h
      · subst h
        exact ⟨e, List.mem_cons_self _ _, hr'⟩
      · obtain ⟨e', he', hs⟩ := ih h
        exact ⟨e', List.mem_cons_of_mem _ he', hs⟩

theorem closedCalls_subset_opens (sentinel : Time) (log : List (Nows × GoString))
    (c : ClosedCall) (h : c ∈ closedCalls (initStream sentinel) log) : c ∈ segmentOpens log := by
  have hw : HoldsOpen (initStream sentinel) none := rfl
  rw [closedCalls_of_holds (initStream sentinel) none hw log] at h
  have hset : (initStream sentinel).OnSegmentClosedSet = true := rfl
  rw [if_pos hset] at h
  exact List.mem_of_mem_dropLast (by simpa using h)

/-- C2 (as amended). Every recording sent to the catalog has `ID` equal to
`path.Base` of its `Path`.  One sent by the startup loader has `Start` equal to what
`parseRecordingTime` gives for its path, which is also what it gives for the base
name when the base name has at least 24 bytes.  One sent by the closure of
`makeSaveRecording` has `Start` equal to the `opened` instant it was called with, and
`onLine` calls it with the clock reading and the captured path of a segment-open
line. -/
theorem catalog_entry_id_and_start (input : Input) (probe : GoString → Probe)
    (walk : List Entry) (opened now : Time) (openedMono : Option Int) (segment : GoString) :
    (∀ r ∈ loadWalk input probe walk,
        r.ID = pathBase r.Path ∧ parseRecordingTime r.Path = some r.Start ∧
        (24 ≤ (pathBase r.Path).length → parseRecordingTime (pathBase r.Path) = some r.Start)) ∧
    (makeSaveRecording input opened openedMono segment now).ID
        = pathBase (makeSaveRecording input opened openedMono segment now).Path ∧
    (makeSaveRecording input opened openedMono segment now).Start = opened ∧
    (∀ sentinel log, ∀ c ∈ closedCalls (initStream sentinel) log, c ∈ segmentOpens log) := by
  refine ⟨?_, rfl, rfl, fun sentinel log c hc => closedCalls_subset_opens sentinel log c hc⟩
  intro r hr
  obtain ⟨e, _, hs⟩ := loadWalk_mem hr
  obtain ⟨h1, h2, h3⟩ := loadEntry_save hs
  refine ⟨h1, h2, ?_⟩
  intro hlen
  obtain ⟨dir, hdir⟩ := pathBase_suffix_mp4 r.Path h3
  rw [← parseRecordingTime_base dir _ hlen, ← hdir]
  exact h2

/-! ## Archive pass by age (C3, C4) -/

theorem dateWalk_removed {step : Entry → WalkStep} {walk : List Entry} {e : Entry}
    (h : e ∈ (dateWalk step walk).removed) : e ∈ walk ∧ step e = WalkStep.removed := by
  induction walk with
  | nil => simp [dateWalk] at h
  | cons x rest ih =>
    unfold dateWalk at h
    split at h
    · obtain ⟨h1, h2⟩ := ih h
      exact ⟨List.mem_cons_of_mem _ h1, h2⟩
    · rename_i hx
      rcases List.mem_cons.mp h with h | h
      · subst h; exact ⟨List.mem_cons_self _ _, hx⟩
      · obtain ⟨h1, h2⟩ := ih h
        exact ⟨List.mem_cons_of_mem _ h1, h2⟩
    · simp at h
    · simp at h

theorem recordingDateStep_removed {input : Input} {target : Time} {e : Entry}
    (h : recordingDateStep input target e = WalkStep.removed) :
    ∃ t, parseRecordingTime e.path = some t ∧ t.After target = false := by
  unfold recordingDateStep at h
  split at h
  · cases h
  · split at h
    · cases h
    · split at h
      · cases h
      · split at h
        · cases h
        · rename_i t ht
          split at h
          · cases h
          · rename_i hafter
            exact ⟨t, ht, by simpa using hafter⟩

/-- The age target is `hours` hours before `now` as long as the duration fits in an
`int64` count of nanoseconds. -/
theorem ageTarget_exact (now : Time) (hours : Int) (h0 : 0 < hours) (h1 : hours ≤ 2562047)
    (hn : now.nsec < 1000000000) :
    ageTarget now hours = { sec := now.sec - 3600 * hours, nsec := now.nsec } := by
  unfold ageTarget
  have hw : wrapInt64 (-3600000000000 * hours) = (-3600 * hours) * 1000000000 := by
    unfold wrapInt64; omega
  rw [hw]
  unfold Time.Add
  rw [Int.mul_tdiv_cancel _ (by decide), Int.mul_tmod_left]
  simp only [add_zero]
  have h2 : ¬ (1000000000 : Int) ≤ (now.nsec : Int) := by omega
  have h3 : ¬ ((now.nsec : Int) < 0) := by omega
  rw [if_neg h2, if_neg h3]
  simp only [Int.toNat_ofNat, Time.mk.injEq, and_true]
  omega

/-- C3 (as amended). In the archive age pass of an input at instant `now`, every file
removed has a parsed filename timestamp that is not after the target instant, and a
file whose timestamp is after the target is never removed; the target is `now` minus
the limit in hours whenever the limit is between 1 and 2,562,047. -/
theorem recordingsByDate_removes_only_not_after (input : Input) (now : Time)
    (walk : List Entry) :
    (∀ e ∈ (recordingsByDate input now walk).removed, ∃ t,
        parseRecordingTime e.path = some t ∧
        t.After (ageTarget now input.RecordingAgeLimitHours) = false) ∧
    (∀ e ∈ walk, ∀ t, parseRecordingTime e.path = some t →
        t.After (ageTarget now input.RecordingAgeLimitHours) = true →
        e ∉ (recordingsByDate input now walk).removed) ∧
    (0 < input.RecordingAgeLimitHours → input.RecordingAgeLimitHours ≤ 2562047 →
        now.nsec < 1000000000 →
        ageTarget now input.RecordingAgeLimitHours
          = { sec := now.sec - 3600 * input.RecordingAgeLimitHours, nsec := now.nsec }) := by
  refine ⟨?_, ?_, ageTarget_exact now _⟩
  · intro e he
    exact recordingDateStep_removed (dateWalk_removed he).2
  · intro e _ t ht hafter he
    obtain ⟨t', ht', hna⟩ := recordingDateStep_removed (dateWalk_removed he).2
    rw [ht] at ht'
    cases ht'
    rw [hafter] at hna
    cases hna

/-! ## Archive pass by size (C5) -/

theorem recordingSizeStep_ok (input : Input) (target newSize : Int) (e : Entry)
    (he : archiveEntryOk input e = true) :
    recordingSizeStep input target newSize e =
      if newSize ≤ target then WalkStep.skipAll
      else if e.isDir = true then WalkStep.next else WalkStep.removed := by
  unfold archiveEntryOk at he
  unfold recordingSizeStep
  generalize hasSuffix e.path ".mp4".toList = b1 at *
  generalize hasSuffix e.path ".mp4.jpg".toList = b2 at *
  generalize containsStr e.path input.ID = b3 at *
  generalize e.walkErr = b4 at *
  generalize e.removeErr = b5 at *
  generalize e.isDir = b6 at *
  by_cases hn : newSize ≤ target
  · cases b1 <;> cases b2 <;> cases b3 <;> cases b4 <;> cases b5 <;> cases b6 <;>
      simp_all
  · cases b1 <;> cases b2 <;> cases b3 <;> cases b4 <;> cases b5 <;> cases b6 <;>
      simp_all

theorem digitChar_ne_slash : ∀ k < 10, digitChar k ≠ '/' := by decide

theorem appendInt_two_no_slash (n : Nat) (h : n < 100) : '/' ∉ appendInt (n : Int) 2 := by
  rw [appendInt_two n h]
  intro hm
  simp only [List.mem_cons, List.mem_singleton, List.not_mem_nil, or_false] at hm
  rcases hm with hm | hm
  · exact digitChar_ne_slash (n / 10) (by omega) hm.symm
  · exact digitChar_ne_slash (n % 10) (by omega) hm.symm

theorem appendInt_four_no_slash (n : Nat) (h : n < 10000) : '/' ∉ appendInt (n : Int) 4 := by
  rw [appendInt_four n h]
  intro hm
  simp only [List.mem_cons, List.mem_singleton, List.not_mem_nil, or_false] at hm
  rcases hm with hm | hm | hm | hm
  · exact digitChar_ne_slash (n / 1000) (by omega) hm.symm
  · exact digitChar_ne_slash (n / 100 % 10) (by omega) hm.symm
  · exact digitChar_ne_slash (n / 10 % 10) (by omega) hm.symm
  · exact digitChar_ne_slash (n % 10) (by omega) hm.symm

/-- A 19-byte value with a slash in it is not a stamp. -/
theorem timeParse_slash (s : GoString) (hlen : s.length = 19) (hs : '/' ∈ s) :
    timeParse s = none := by
  cases h : timeParse s with
  | none => rfl
  | some t =>
    obtain ⟨y, m, d, hh, mi, sec, hy, _, hm2, _, hd2, hh24, hmi, hsec, _, hshape⟩ :=
      timeParse_shape s t hlen h
    have hd : d < 100 := by have := daysIn_le (isLeap (y : Int)) m (by omega); omega
    rw [hshape] at hs
    have n1 := appendInt_four_no_slash y hy
    have n2 := appendInt_two_no_slash m (by omega)
    have n3 := appendInt_two_no_slash d hd
    have n4 := appendInt_two_no_slash hh (by omega)
    have n5 := appendInt_two_no_slash mi (by omega)
    have n6 := appendInt_two_no_slash sec (by omega)
    have hdash : ('/' : Char) ≠ '-' := by decide
    simp only [List.mem_append, List.mem_cons] at hs
    tauto

/-- The stamp slice of a path whose last element has 4 to 22 bytes contains the slash
before that element. -/
theorem stamp_slice_slash (dir base : GoString) (h1 : 4 ≤ base.length) (h2 : base.length < 23)
    (h3 : 24 < (dir ++ '/' :: base).length) :
    '/' ∈ ((dir ++ '/' :: base).drop ((dir ++ '/' :: base).length - 23)).take 19 := by
  have hlen : (dir ++ '/' :: base).length = dir.length + 1 + base.length := by
    simp [List.length_append]; omega
  rw [hlen] at h3 ⊢
  have hk : dir.length + 1 + base.length - 23 ≤ dir.length := by omega
  have hsplit : dir = dir.take (dir.length + 1 + base.length - 23)
      ++ dir.drop (dir.length + 1 + base.length - 23) := (List.take_append_drop _ _).symm
  have hdrop : (dir ++ '/' :: base).drop (dir.length + 1 + base.length - 23)
      = dir.drop (dir.length + 1 + base.length - 23) ++ '/' :: base := by
    rw [List.drop_append_of_le_length hk]
  rw [hdrop]
  have hl2 : (dir.drop (dir.length + 1 + base.length - 23)).length < 19 := by
    rw [List.length_drop]; omega
  rw [List.take_append_eq_append_take]
  apply List.mem_append_right
  obtain ⟨k, hk⟩ : ∃ k, 19 - (dir.drop (dir.length + 1 + base.length - 23)).length = k + 1 :=
    ⟨19 - (dir.drop (dir.length + 1 + base.length - 23)).length - 1, by omega⟩
  rw [hk, List.take_succ_cons]
  exact List.mem_cons_self _ _

theorem no_suffix_of_short_base (dir base suffix : GoString) (h : base.length < suffix.length)
    (hs : '/' ∉ suffix) : hasSuffix (dir ++ '/' :: base) suffix = false := by
  cases hh : hasSuffix (dir ++ '/' :: base) suffix with
  | false => rfl
  | true =>
    exfalso
    obtain ⟨t, ht⟩ := (hasSuffix_iff _ _).mp hh
    have hrev := congrArg List.reverse ht
    simp only [List.reverse_append, List.reverse_cons, List.append_assoc,
      List.singleton_append] at hrev
    have hidx : (base.reverse ++ '/' :: dir.reverse)[base.length]? = some '/' := by
      rw [List.getElem?_append_right (by simp)]
      simp
    rw [hrev] at hidx
    rw [List.getElem?_append_left (by simpa using h)] at hidx
    have hmem : '/' ∈ suffix.reverse := List.getElem?_mem hidx
    exact hs (List.mem_reverse.mp hmem)

theorem recordingDateStep_short_path (input : Input) (target : Time) (e : Entry)
    (hfile : e.isDir = false) (hw : e.walkErr = false) (hlen : e.path.length ≤ 24) :
    recordingDateStep input target e = WalkStep.fail PruneError.unexpectedFile := by
  unfold recordingDateStep
  simp [hfile, hw, hlen]

theorem recordingDateStep_short_base (input : Input) (target : Time) (e : Entry)
    (hfile : e.isDir = false) (hw : e.walkErr = false) (dir base : GoString)
    (hpath : e.path = dir ++ '/' :: base) (hbase : base.length < 23) :
    recordingDateStep input target e = WalkStep.fail PruneError.unexpectedFile ∨
    recordingDateStep input target e = WalkStep.fail PruneError.parseTime := by
  by_cases hlen : e.path.length ≤ 24
  · exact Or.inl (recordingDateStep_short_path input target e hfile hw hlen)
  · by_cases hb4 : base.length < 4
    · left
      have s1 : hasSuffix e.path ".mp4".toList = false := by
        rw [hpath]; exact no_suffix_of_short_base dir base _ (by simpa using hb4) (by decide)
      have s2 : hasSuffix e.path ".mp4.jpg".toList = false := by
        rw [hpath]
        exact no_suffix_of_short_base dir base _
          (by have : ".mp4.jpg".toList.length = 8 := rfl
              omega) (by decide)
      unfold recordingDateStep
      rw [hw, hfile, s1, s2]
      rfl
    · have hslash : '/' ∈ (e.path.drop (e.path.length - 23)).take 19 := by
        rw [hpath]
        exact stamp_slice_slash dir base (by omega) hbase (by rw [← hpath]; omega)
      have hl19 : ((e.path.drop (e.path.length - 23)).take 19).length = 19 := by
        rw [List.length_take, List.length_drop]; omega
      have hparse : parseRecordingTime e.path = none := by
        unfold parseRecordingTime
        rw [if_neg (by omega)]
        exact timeParse_slash _ hl19 hslash
      unfold recordingDateStep
      rw [hparse]
      simp only [hw, hfile, Bool.false_eq_true, if_false]
      split
      · exact Or.inl rfl
      · exact Or.inr rfl

/-- C7 (as amended). For a file that Walk hands over without error: the age pass
returns the unexpected-file error, and removes nothing, when the whole path has at
most 24 bytes; it returns that error or the parse error when the last path element
has fewer than 23 bytes; the size pass checks no length and removes the file whenever
it is over budget, the name ends in `.mp4` or `.mp4.jpg` and contains the input id,
and `os.Remove` succeeds. -/
theorem short_names_in_archive_passes (input : Input) (e : Entry)
    (hfile : e.isDir = false) (hw : e.walkErr = false) :
    (∀ target, e.path.length ≤ 24 →
        recordingDateStep input target e = WalkStep.fail PruneError.unexpectedFile) ∧
    (∀ target dir base, e.path = dir ++ '/' :: base → base.length < 23 →
        recordingDateStep input target e = WalkStep.fail PruneError.unexpectedFile ∨
        recordingDateStep input target e = WalkStep.fail PruneError.parseTime) ∧
    (∀ target newSize, target < newSize → e.removeErr = false →
        (hasSuffix e.path ".mp4".toList = true ∨ hasSuffix e.path ".mp4.jpg".toList = true) →
        containsStr e.path input.ID = true →
        recordingSizeStep input target newSize e = WalkStep.removed) := by
  refine ⟨fun target => recordingDateStep_short_path input target e hfile hw,
    fun target dir base => recordingDateStep_short_base input target e hfile hw dir base, ?_⟩
  intro target newSize hlt hr hs hc
  have hok : archiveEntryOk input e = true := by
    unfold archiveEntryOk
    rw [hw, hr, hfile, hc]
    rcases hs with hs | hs
    · rw [hs]; rfl
    · rw [hs]
      cases hasSuffix e.path ".mp4".toList <;> rfl
  rw [recordingSizeStep_ok input target newSize e hok, if_neg (by omega), hfile]
  simp

/-! ## Orders on paths, instants and catalog keys -/

theorem strLess_irrefl (a : GoString) : strLess a a = false := by
  induction a with
  | nil => rfl
  | cons c cs ih => simp [strLess, ih]

theorem strLess_trans (a b c : GoString) (h1 : strLess a b = true) (h2 : strLess b c = true) :
    strLess a c = true := by
  induction a generalizing b c with
  | nil =>
    cases b with
    | nil => simp [strLess] at h1
    | cons y ys =>
      cases c with
      | nil => simp [strLess] at h2
      | cons z zs => simp [strLess]
  | cons x xs ih =>
    cases b with
    | nil => simp [strLess] at h1
    | cons y ys =>
      cases c with
      | nil => simp [strLess] at h2
      | cons z zs =>
        unfold strLess at h1 h2 ⊢
        by_cases hxy : x < y
        · by_cases hyz : y < z
          · simp [lt_trans hxy hyz]
          · by_cases hzy : z < y
            · simp [hyz, hzy] at h2
            · have : y = z := le_antisymm (not_lt.mp hzy) (not_lt.mp hyz)
              subst this
              simp [hxy]
        · by_cases hyx : y < x
          · simp [hxy, hyx] at h1
          · have hxy' : x = y := le_antisymm (not_lt.mp hyx) (not_lt.mp hxy)
            subst hxy'
            simp only [hxy, if_false] at h1
            by_cases hxz : x < z
            · simp [hxz]
            · by_cases hzx : z < x
              · simp [hxz, hzx] at h2
              · simp only [hxz, hzx, if_false] at h2 ⊢
                exact ih ys zs h1 h2

theorem strLess_total (a b : GoString) : strLess a b = true ∨ a = b ∨ strLess b a = true := by
  induction a generalizing b with
  | nil =>
    cases b with
    | nil => exact Or.inr (Or.inl rfl)
    | cons y ys => left; simp [strLess]
  | cons x xs ih =>
    cases b with
    | nil => right; right; simp [strLess]
    | cons y ys =>
      unfold strLess
      by_cases hxy : x < y
      · left; simp [hxy]
      · by_cases hyx : y < x
        · right; right; simp [hyx]
        · have : x = y := le_antisymm (not_lt.mp hyx) (not_lt.mp hxy)
          subst this
          simp only [hxy, if_false]
          rcases ih ys with h | h | h
          · exact Or.inl h
          · exact Or.inr (Or.inl (by rw [h]))
          · exact Or.inr (Or.inr h)

theorem strLess_asymm (a b : GoString) (h : strLess a b = true) : strLess b a = false := by
  cases hba : strLess b a
  · rfl
  · have := strLess_trans a b a h hba
    rw [strLess_irrefl] at this
    cases this

theorem time_before_iff (t u : Time) :
    t.Before u = true ↔ (t.sec < u.sec ∨ (t.sec = u.sec ∧ t.nsec < u.nsec)) := by
  simp [Time.Before]

theorem time_after_iff (t u : Time) :
    t.After u = true ↔ (u.sec < t.sec ∨ (t.sec = u.sec ∧ u.nsec < t.nsec)) := by
  simp [Time.After]

theorem time_eq_iff (t u : Time) : t = u ↔ (t.sec = u.sec ∧ t.nsec = u.nsec) := by
  cases t; cases u; simp

/-- Where Go orders the two starts as the wall clock does, the `less` of the catalog
writer is the strict order of the key `(start, path)`. -/
theorem recordingLess_iff (a b : Recording) (hab : StartsAgree a b) :
    recordingLess a b = true ↔ keyLt a b := by
  unfold recordingLess keyLt
  rw [hab.1, hab.2]
  by_cases hb : a.Start.Before b.Start = true
  · simp [hb]
  · by_cases ha : a.Start.After b.Start = true
    · have hne : a.Start ≠ b.Start := by
        intro heq
        rw [time_after_iff] at ha
        rw [time_eq_iff] at heq
        omega
      simp [hb, ha, hne]
    · have heq : a.Start = b.Start := by
        rw [time_before_iff] at hb
        rw [time_after_iff] at ha
        rw [time_eq_iff]
        omega
      rw [if_neg hb, if_neg ha]
      constructor
      · intro h; exact Or.inr ⟨heq, h⟩
      · rintro (h | h)
        · exact absurd h hb
        · exact h.2

theorem keyLt_irrefl (a : Recording) : ¬ keyLt a a := by
  unfold keyLt
  rw [time_before_iff, strLess_irrefl]
  simp

theorem keyLt_trans {a b c : Recording} (h1 : keyLt a b) (h2 : keyLt b c) : keyLt a c := by
  unfold keyLt at *
  rw [time_before_iff] at *
  rcases h1 with h1 | ⟨e1, s1⟩
  · rcases h2 with h2 | ⟨e2, s2⟩
    · left; omega
    · left; rw [← e2]; exact h1
  · rcases h2 with h2 | ⟨e2, s2⟩
    · left; rw [e1]; exact h2
    · right; exact ⟨e1.trans e2, strLess_trans _ _ _ s1 s2⟩

theorem keyLt_total (a b : Recording) :
    keyLt a b ∨ (a.Start = b.Start ∧ a.Path = b.Path) ∨ keyLt b a := by
  unfold keyLt
  rw [time_before_iff, time_before_iff]
  by_cases heq : a.Start = b.Start
  · rcases strLess_total a.Path b.Path with h | h | h
    · exact Or.inl (Or.inr ⟨heq, h⟩)
    · exact Or.inr (Or.inl ⟨heq, h⟩)
    · exact Or.inr (Or.inr (Or.inr ⟨heq.symm, h⟩))
  · rw [time_eq_iff] at heq
    by_cases h : a.Start.sec < b.Start.sec ∨ (a.Start.sec = b.Start.sec ∧ a.Start.nsec < b.Start.nsec)
    · exact Or.inl (Or.inl h)
    · right; right; left; omega

/-- Not greater is transitive. -/
theorem keyLe_trans {a b c : Recording} (h1 : ¬ keyLt b a) (h2 : ¬ keyLt c b) : ¬ keyLt c a := by
  intro hca
  rcases keyLt_total a b with h | ⟨hs, hp⟩ | h
  · exact h2 (keyLt_trans hca h)
  · apply h2
    unfold keyLt at hca ⊢
    rw [← hs, ← hp]
    exact hca
  · exact h1 h

/-! ## `sort.Slice` returns a permutation -/

/-- Putting an element of the list in front and the front element in its place is a
permutation. -/
theorem set_cons_perm {α : Type} (h y : α) (t : List α) (j : Nat) (hy : t[j]? = some y) :
    (y :: t.set j h).Perm (h :: t) := by
  induction t generalizing j with
  | nil => simp at hy
  | cons z zs ih =>
    cases j with
    | zero =>
      simp only [List.getElem?_cons_zero, Option.some.injEq] at hy
      subst hy
      simp only [List.set_cons_zero]
      exact List.Perm.swap _ _ _
    | succ j =>
      simp only [List.getElem?_cons_succ] at hy
      simp only [List.set_cons_succ]
      have := ih j hy
      exact ((List.Perm.swap z y _).trans (List.Perm.cons z this)).trans (List.Perm.swap h z zs)

/-- Exchanging two elements of a list is a permutation. -/
theorem set_set_perm {α : Type} (l : List α) (i j : Nat) (x y : α)
    (hx : l[i]? = some x) (hy : l[j]? = some y) : ((l.set i y).set j x).Perm l := by
  induction l generalizing i j with
  | nil => simp at hx
  | cons h t ih =>
    cases i with
    | zero =>
      simp only [List.getElem?_cons_zero, Option.some.injEq] at hx
      subst hx
      cases j with
      | zero =>
        simp only [List.getElem?_cons_zero, Option.some.injEq] at hy
        subst hy
        simp
      | succ j =>
        simp only [List.getElem?_cons_succ] at hy
        simp only [List.set_cons_zero, List.set_cons_succ]
        exact set_cons_perm h y t j hy
    | succ i =>
      simp only [List.getElem?_cons_succ] at hx
      cases j with
      | zero =>
        simp only [List.getElem?_cons_zero, Option.some.injEq] at hy
        subst hy
        simp only [List.set_cons_zero, List.set_cons_succ]
        exact set_cons_perm h x t i hx
      | succ j =>
        simp only [List.getElem?_cons_succ] at hy
        simp only [List.set_cons_succ]
        exact List.Perm.cons h (ih i j hx hy)

theorem swapAt_perm {α : Type} (data : List α) (i j : Nat) : (swapAt data i j).Perm data := by
  unfold swapAt
  split
  · rename_i x y hx hy
    exact set_set_perm data i j x y hx hy
  · exact List.Perm.refl _

theorem insertionShift_perm {α : Type} (less : α → α → Bool) (a j : Nat) (data : List α) :
    (insertionShift less a j data).Perm data := by
  induction j generalizing data with
  | zero => exact List.Perm.refl _
  | succ j ih =>
    unfold insertionShift
    split
    · exact (ih _).trans (swapAt_perm data _ _)
    · exact List.Perm.refl _

/-- A loop whose rounds each leave a permutation leaves a permutation. -/
theorem foldl_perm {α β : Type} (f : List α → β → List α) (hf : ∀ d i, (f d i).Perm d)
    (l : List β) (data : List α) : (l.foldl f data).Perm data := by
  induction l generalizing data with
  | nil => exact List.Perm.refl _
  | cons i rest ih =>
    simp only [List.foldl_cons]
    exact (ih _).trans (hf data i)

theorem insertionSort_func_perm {α : Type} (less : α → α → Bool) (data : List α) (a b : Nat) :
    (insertionSort_func less data a b).Perm data := by
  unfold insertionSort_func
  exact foldl_perm _ (fun d i => insertionShift_perm less a i d) _ data

theorem siftDownLoop_perm {α : Type} (less : α → α → Bool) (hi first fuel root : Nat)
    (data : List α) : (siftDownLoop less hi first fuel root data).Perm data := by
  induction fuel generalizing root data with
  | zero => exact List.Perm.refl _
  | succ fuel ih =>
    unfold siftDownLoop
    split
    · exact List.Perm.refl _
    · simp only []
      split <;> split <;>
        first
        | exact List.Perm.refl _
        | exact (ih _ _).trans (swapAt_perm data _ _)

theorem siftDown_func_perm {α : Type} (less : α → α → Bool) (data : List α)
    (lo hi first : Nat) : (siftDown_func less data lo hi first).Perm data :=
  siftDownLoop_perm less hi first hi lo data

theorem heapSort_func_perm {α : Type} (less : α → α → Bool) (data : List α) (a b : Nat) :
    (heapSort_func less data a b).Perm data := by
  unfold heapSort_func
  simp only []
  refine (foldl_perm _ (fun d i => ?_) _ _).trans (foldl_perm _ (fun d i => ?_) _ data)
  · exact (siftDown_func_perm less _ _ _ _).trans (swapAt_perm d _ _)
  · exact siftDown_func_perm less d _ _ _

theorem partitionLoop_perm {α : Type} (less : α → α → Bool) (a fuel : Nat) (data : List α)
    (i j : Nat) : (partitionLoop less a fuel data i j).1.Perm data := by
  induction fuel generalizing data i j with
  | zero => exact List.Perm.refl _
  | succ fuel ih =>
    unfold partitionLoop
    simp only []
    split
    · exact List.Perm.refl _
    · exact (ih _ _ _).trans (swapAt_perm data _ _)

theorem partition_func_perm {α : Type} (less : α → α → Bool) (data : List α)
    (a b pivot : Nat) : (partition_func less data a b pivot).1.Perm data := by
  unfold partition_func
  simp only []
  split
  · exact (swapAt_perm _ _ _).trans (swapAt_perm data _ _)
  · exact (swapAt_perm _ _ _).trans
      ((partitionLoop_perm less a _ _ _ _).trans
        ((swapAt_perm _ _ _).trans (swapAt_perm data _ _)))

theorem partitionEqualLoop_perm {α : Type} (less : α → α → Bool) (a fuel : Nat)
    (data : List α) (i j : Nat) : (partitionEqualLoop less a fuel data i j).1.Perm data := by
  induction fuel generalizing data i j with
  | zero => exact List.Perm.refl _
  | succ fuel ih =>
    unfold partitionEqualLoop
    simp only []
    split
    · exact List.Perm.refl _
    · exact (ih _ _ _).trans (swapAt_perm data _ _)

theorem partitionEqual_func_perm {α : Type} (less : α → α → Bool) (data : List α)
    (a b pivot : Nat) : (partitionEqual_func less data a b pivot).1.Perm data := by
  unfold partitionEqual_func
  exact (partitionEqualLoop_perm less a _ _ _ _).trans (swapAt_perm data _ _)

theorem shiftSmaller_perm {α : Type} (less : α → α → Bool) (j : Nat) (data : List α) :
    (shiftSmaller less j data).Perm data := by
  induction j generalizing data with
  | zero => exact List.Perm.refl _
  | succ j ih =>
    unfold shiftSmaller
    split
    · exact List.Perm.refl _
    · exact (ih _).trans (swapAt_perm data _ _)

theorem shiftGreater_perm {α : Type} (less : α → α → Bool) (n j : Nat) (data : List α) :
    (shiftGreater less n j data).Perm data := by
  induction n generalizing j data with
  | zero => exact List.Perm.refl _
  | succ n ih =>
    unfold shiftGreater
    split
    · exact List.Perm.refl _
    · exact (ih _ _).trans (swapAt_perm data _ _)

theorem partialInsertionSteps_perm {α : Type} (less : α → α → Bool) (a b steps i : Nat)
    (data : List α) : (partialInsertionSteps less a b steps i data).1.Perm data := by
  induction steps generalizing i data with
  | zero => exact List.Perm.refl _
  | succ steps ih =>
    unfold partialInsertionSteps
    simp only []
    split
    · exact List.Perm.refl _
    · split
      · exact List.Perm.refl _
      · refine (ih _ _).trans ?_
        have h1 := swapAt_perm data
          (scanUp (fun k => !lessAt less data k (k - 1)) (b - i) i)
          (scanUp (fun k => !lessAt less data k (k - 1)) (b - i) i - 1)
        split
        · split
          · exact (shiftGreater_perm less _ _ _).trans ((shiftSmaller_perm less _ _).trans h1)
          · exact (shiftGreater_perm less _ _ _).trans h1
        · split
          · exact (shiftSmaller_perm less _ _).trans h1
          · exact h1

theorem partialInsertionSort_func_perm {α : Type} (less : α → α → Bool) (data : List α)
    (a b : Nat) : (partialInsertionSort_func less data a b).1.Perm data :=
  partialInsertionSteps_perm less a b 5 (a + 1) data

theorem breakPatterns_func_perm {α : Type} (next : Nat → Nat) (data : List α) (a b : Nat) :
    (breakPatterns_func next data a b).Perm data := by
  unfold breakPatterns_func
  simp only []
  split
  · simp only [List.foldl_cons, List.foldl_nil, breakPatternsStep]
    exact (swapAt_perm _ _ _).trans ((swapAt_perm _ _ _).trans (swapAt_perm data _ _))
  · exact List.Perm.refl _

theorem reverseLoop_perm {α : Type} (n i j : Nat) (data : List α) :
    (reverseLoop n i j data).Perm data := by
  induction n generalizing i j data with
  | zero => exact List.Perm.refl _
  | succ n ih =>
    unfold reverseLoop
    split
    · exact (ih _ _ _).trans (swapAt_perm data _ _)
    · exact List.Perm.refl _

theorem reverseRange_func_perm {α : Type} (data : List α) (a b : Nat) :
    (reverseRange_func data a b).Perm data :=
  reverseLoop_perm _ _ _ data

/-- Whatever `less` is, `pdqsort_func` returns a permutation. -/
theorem pdqsort_func_perm {α : Type} (next : Nat → Nat) (less : α → α → Bool)
    (fuel : Nat) :
    ∀ (data : List α) (a b limit : Nat) (wasBalanced wasPartitioned : Bool) (out : List α),
      pdqsort_func next less fuel data a b limit wasBalanced wasPartitioned = some out →
      out.Perm data := by
  induction fuel with
  | zero =>
    intro data a b limit wb wp out h
    simp [pdqsort_func] at h
  | succ fuel ih =>
    intro data a b limit wb wp out h
    unfold pdqsort_func at h
    simp only [] at h
    have hd1 : (if (!wb) = true then breakPatterns_func next data a b else data).Perm data := by
      split
      · exact breakPatterns_func_perm next data a b
      · exact List.Perm.refl _
    generalize (if (!wb) = true then breakPatterns_func next data a b else data) = data1 at h hd1
    generalize (if (!wb) = true then limit - 1 else limit) = limit1 at h
    have hd2 : (if (choosePivot_func less data1 a b).2 = SortedHint.decreasingHint then
        reverseRange_func data1 a b else data1).Perm data := by
      split
      · exact (reverseRange_func_perm data1 a b).trans hd1
      · exact hd1
    generalize (if (choosePivot_func less data1 a b).2 = SortedHint.decreasingHint then
        reverseRange_func data1 a b else data1) = data2 at h hd2
    generalize (if (choosePivot_func less data1 a b).2 = SortedHint.decreasingHint then
        b - 1 - ((choosePivot_func less data1 a b).1 - a)
        else (choosePivot_func less data1 a b).1) = pivot at h
    generalize (if (choosePivot_func less data1 a b).2 = SortedHint.decreasingHint then
        SortedHint.increasingHint else (choosePivot_func less data1 a b).2) = hint at h
    have hd3 : (if (wb && wp && decide (hint = SortedHint.increasingHint)) = true then
        partialInsertionSort_func less data2 a b else (data2, false)).1.Perm data := by
      split
      · exact (partialInsertionSort_func_perm less data2 a b).trans hd2
      · exact hd2
    generalize (if (wb && wp && decide (hint = SortedHint.increasingHint)) = true then
        partialInsertionSort_func less data2 a b else (data2, false)) = partial1 at h hd3
    split at h
    · cases h
      exact insertionSort_func_perm less data a b
    · split at h
      · cases h
        exact heapSort_func_perm less data a b
      · split at h
        · cases h
          exact hd3
        · split at h
          · exact (ih _ _ _ _ _ _ _ h).trans
              ((partitionEqual_func_perm less partial1.1 a b pivot).trans hd3)
          · have hp := (partition_func_perm less partial1.1 a b pivot).trans hd3
            split at h
            · split at h
              · cases h
              · rename_i sorted hs
                exact (ih _ _ _ _ _ _ _ h).trans ((ih _ _ _ _ _ _ _ hs).trans hp)
            · split at h
              · cases h
              · rename_i sorted hs
                exact (ih _ _ _ _ _ _ _ h).trans ((ih _ _ _ _ _ _ _ hs).trans hp)

theorem sortSlice_perm {α : Type} (next : Nat → Nat) (less : α → α → Bool) (data : List α) :
    (sortSlice next less data).Perm data := by
  unfold sortSlice
  split
  · rename_i sorted h
    exact pdqsort_func_perm next less _ _ _ _ _ _ _ _ h
  · exact List.Perm.refl _

theorem sortRecordings_perm (next : Nat → Nat) (recordings : List Recording) :
    (sortRecordings next recordings).Perm recordings :=
  sortSlice_perm next recordingLess recordings

/-! ## `sort.Slice` orders by a strict weak order -/

theorem getElem?_nth {α : Type} (d : α) (data : List α) (k : Nat) (h : k < data.length) :
    data[k]? = some (nth d data k) := by
  unfold nth
  rw [List.getElem?_eq_getElem h]
  rfl

theorem lessAt_eq {α : Type} (less : α → α → Bool) (d : α) (data : List α) (i j : Nat)
    (hi : i < data.length) (hj : j < data.length) :
    lessAt less data i j = less (nth d data i) (nth d data j) := by
  unfold lessAt
  rw [getElem?_nth d data i hi, getElem?_nth d data j hj]

theorem length_swapAt {α : Type} (data : List α) (i j : Nat) :
    (swapAt data i j).length = data.length := by
  unfold swapAt
  split <;> simp

theorem nth_swapAt {α : Type} (d : α) (data : List α) (i j k : Nat)
    (hi : i < data.length) (hj : j < data.length) :
    nth d (swapAt data i j) k =
      if k = j then nth d data i else if k = i then nth d data j else nth d data k := by
  unfold swapAt
  rw [getElem?_nth d data i hi, getElem?_nth d data j hj]
  simp only []
  unfold nth
  rw [List.getElem?_set, List.getElem?_set]
  by_cases hkj : k = j
  · subst hkj
    simp [hj]
  · by_cases hki : k = i
    · subst hki
      have : ¬ j = k := fun e => hkj e.symm
      simp [this, hi, hkj]
    · have h1 : ¬ j = k := fun e => hkj e.symm
      have h2 : ¬ i = k := fun e => hki e.symm
      simp [h1, h2, hkj, hki]

/-- Facts that follow for a strict weak order. -/
theorem StrictWeak.asymm {α : Type} {less : α → α → Bool} (h : StrictWeak less) (x y : α)
    (hxy : less x y = true) : less y x = false := by
  cases hyx : less y x
  · rfl
  · have := h.2.1 x y x hxy hyx
    rw [h.1 x] at this
    cases this

theorem Within.refl {α : Type} (d : α) (a b : Nat) (data : List α) : Within d a b data data :=
  ⟨rfl, fun _ _ => rfl, fun k h1 h2 => ⟨k, h1, h2, rfl⟩⟩

theorem Within.trans {α : Type} {d : α} {a b : Nat} {x y z : List α}
    (h1 : Within d a b x y) (h2 : Within d a b y z) : Within d a b x z := by
  refine ⟨h2.1.trans h1.1, fun k hk => (h2.2.1 k hk).trans (h1.2.1 k hk), ?_⟩
  intro k ha hb
  obtain ⟨k1, a1, b1, e1⟩ := h2.2.2 k ha hb
  obtain ⟨k2, a2, b2, e2⟩ := h1.2.2 k1 a1 b1
  exact ⟨k2, a2, b2, e1.trans e2⟩

theorem Within.mono {α : Type} {d : α} {a b a' b' : Nat} {x y : List α}
    (h : Within d a b x y) (ha : a' ≤ a) (hb : b ≤ b') : Within d a' b' x y := by
  refine ⟨h.1, fun k hk => h.2.1 k (by omega), ?_⟩
  intro k hka hkb
  by_cases hin : a ≤ k ∧ k < b
  · obtain ⟨k1, a1, b1, e1⟩ := h.2.2 k hin.1 hin.2
    exact ⟨k1, by omega, by omega, e1⟩
  · exact ⟨k, hka, hkb, h.2.1 k (by omega)⟩

theorem Within.swap {α : Type} (d : α) (a b : Nat) (data : List α) (i j : Nat)
    (hb : b ≤ data.length) (hi : a ≤ i ∧ i < b) (hj : a ≤ j ∧ j < b) :
    Within d a b data (swapAt data i j) := by
  have hil : i < data.length := by omega
  have hjl : j < data.length := by omega
  refine ⟨length_swapAt data i j, ?_, ?_⟩
  · intro k hk
    rw [nth_swapAt d data i j k hil hjl]
    rw [if_neg (by omega), if_neg (by omega)]
  · intro k hka hkb
    rw [nth_swapAt d data i j k hil hjl]
    by_cases hkj : k = j
    · exact ⟨i, hi.1, hi.2, by rw [if_pos hkj]⟩
    · by_cases hki : k = i
      · exact ⟨j, hj.1, hj.2, by rw [if_neg hkj, if_pos hki]⟩
      · exact ⟨k, hka, hkb, by rw [if_neg hkj, if_neg hki]⟩

/-- A property of all elements of the range holds after they were moved within it. -/
theorem Within.forall {α : Type} {d : α} {a b : Nat} {x y : List α} (h : Within d a b x y)
    (P : α → Prop) (hP : ∀ k, a ≤ k → k < b → P (nth d x k)) :
    ∀ k, a ≤ k → k < b → P (nth d y k) := by
  intro k ha hb
  obtain ⟨k1, a1, b1, e1⟩ := h.2.2 k ha hb
  rw [e1]
  exact hP k1 a1 b1

theorem LowerBound.within {α : Type} {less : α → α → Bool} {d : α} {a b : Nat}
    {x y : List α} (hl : LowerBound less d x a b) (h : Within d a b x y) :
    LowerBound less d y a b := by
  by_cases h0 : a = 0
  · exact Or.inl h0
  · rcases hl with h1 | hl
    · exact absurd h1 h0
    · right
      have he : nth d y (a - 1) = nth d x (a - 1) := h.2.1 (a - 1) (by omega)
      rw [he]
      exact h.forall (fun e => less e (nth d x (a - 1)) = false) hl

theorem LowerBound.sub {α : Type} {less : α → α → Bool} {d : α} {a b b' : Nat}
    {x : List α} (hl : LowerBound less d x a b) (hb : b' ≤ b) : LowerBound less d x a b' := by
  rcases hl with h0 | hl
  · exact Or.inl h0
  · exact Or.inr (fun k h1 h2 => hl k h1 (by omega))

/-- The inner loop of the insertion sort puts the element at `j` in its place. -/
theorem insertionShift_spec {α : Type} (less : α → α → Bool) (hw : StrictWeak less) (d : α)
    (a i : Nat) :
    ∀ (j : Nat) (data : List α), a ≤ j → j ≤ i → i < data.length →
      SortedExcept less d data a i j →
      SortedOn less d (insertionShift less a j data) a (i + 1) ∧
      Within d a (i + 1) data (insertionShift less a j data) := by
  intro j
  induction j with
  | zero =>
    intro data ha hji hil hs
    have ha0 : a = 0 := by omega
    subst ha0
    unfold insertionShift
    refine ⟨?_, Within.refl _ _ _ _⟩
    intro p q hp hpq hq
    by_cases hp0 : p = 0
    · subst hp0
      exact hs.2 q (by omega) (by omega)
    · exact hs.1 p q hp hpq (by omega) hp0 (by omega)
  | succ j ih =>
    intro data ha hji hil hs
    unfold insertionShift
    have hj1 : j + 1 < data.length := by omega
    have hj0 : j < data.length := by omega
    rw [lessAt_eq less d data (j + 1) j hj1 hj0]
    by_cases hcond : (decide (a < j + 1) && less (nth d data (j + 1)) (nth d data j)) = true
    · rw [if_pos hcond]
      simp only [Bool.and_eq_true, decide_eq_true_eq] at hcond
      obtain ⟨haj, hless⟩ := hcond
      have hsw : ∀ k, nth d (swapAt data (j + 1) j) k =
          if k = j then nth d data (j + 1) else if k = j + 1 then nth d data j
          else nth d data k := fun k => nth_swapAt d data (j + 1) j k hj1 hj0
      have hinv : SortedExcept less d (swapAt data (j + 1) j) a i j := by
        constructor
        · intro p q hp hpq hq hpj hqj
          rw [hsw p, hsw q, if_neg hpj, if_neg hqj]
          by_cases hq1 : q = j + 1
          · rw [if_pos hq1, if_neg (by omega)]
            exact hs.1 p j hp (by omega) (by omega) (by omega) (by omega)
          · rw [if_neg hq1]
            by_cases hp1 : p = j + 1
            · rw [if_pos hp1]
              exact hs.1 j q (by omega) (by omega) hq (by omega) hq1
            · rw [if_neg hp1]
              exact hs.1 p q hp hpq hq hp1 hq1
        · intro q hjq hq
          rw [hsw q, hsw j, if_neg (by omega), if_pos rfl]
          by_cases hq1 : q = j + 1
          · rw [if_pos hq1]
            exact hw.asymm _ _ hless
          · rw [if_neg hq1]
            exact hs.2 q (by omega) hq
      obtain ⟨r1, r2⟩ := ih (swapAt data (j + 1) j) (by omega) (by omega)
        (by rw [length_swapAt]; exact hil) hinv
      exact ⟨r1, (Within.swap d a (i + 1) data (j + 1) j (by omega) ⟨by omega, by omega⟩
        ⟨by omega, by omega⟩).trans r2⟩
    · rw [if_neg hcond]
      refine ⟨?_, Within.refl _ _ _ _⟩
      simp only [Bool.and_eq_true, decide_eq_true_eq, not_and, Bool.not_eq_true] at hcond
      intro p q hp hpq hq
      by_cases hqj : q = j + 1
      · subst hqj
        have haj : a < j + 1 := by omega
        have hnl := hcond haj
        by_cases hpj : p = j
        · subst hpj
          exact hnl
        · exact hw.2.2 _ _ _ hnl (hs.1 p j hp (by omega) (by omega) (by omega) (by omega))
      · by_cases hpj : p = j + 1
        · subst hpj
          exact hs.2 q (by omega) (by omega)
        · exact hs.1 p q hp hpq (by omega) hpj hqj

/-- Go `insertionSort_func` orders the range and moves nothing else. -/
theorem insertionSort_func_spec {α : Type} (less : α → α → Bool) (hw : StrictWeak less)
    (d : α) (data : List α) (a b : Nat) (hb : b ≤ data.length) :
    SortedOn less d (insertionSort_func less data a b) a b ∧
    Within d a b data (insertionSort_func less data a b) := by
  unfold insertionSort_func
  have key : ∀ (n s : Nat) (x : List α), a < s → s + n ≤ x.length →
      SortedOn less d x a s →
      SortedOn less d ((List.range' s n).foldl (fun d' i => insertionShift less a i d') x) a
          (s + n) ∧
      Within d a (s + n) x
        ((List.range' s n).foldl (fun d' i => insertionShift less a i d') x) := by
    intro n
    induction n with
    | zero =>
      intro s x _ _ hs
      exact ⟨hs, Within.refl _ _ _ _⟩
    | succ n ih =>
      intro s x has hlen hs
      simp only [List.range'_succ, List.foldl_cons]
      have hex : SortedExcept less d x a s s :=
        ⟨fun p q hp hpq hq _ hqs => hs p q hp hpq (by omega), fun q h1 h2 => by omega⟩
      obtain ⟨r1, r2⟩ := insertionShift_spec less hw d a s s x (by omega) (Nat.le_refl _)
        (by omega) hex
      obtain ⟨t1, t2⟩ := ih (s + 1) (insertionShift less a s x) (by omega)
        (by rw [r2.1]; omega) r1
      have e : s + 1 + n = s + (n + 1) := by omega
      rw [e] at t1 t2
      exact ⟨t1, (r2.mono (Nat.le_refl _) (by omega)).trans t2⟩
  by_cases hab : a + 1 ≤ b
  · have h := key (b - (a + 1)) (a + 1) data (by omega) (by omega)
      (fun i j h1 h2 h3 => by omega)
    have e : a + 1 + (b - (a + 1)) = b := by omega
    rw [e] at h
    exact h
  · have e : b - (a + 1) = 0 := by omega
    rw [e]
    exact ⟨fun i j h1 h2 h3 => by omega, Within.refl _ _ _ _⟩

theorem scanUp_spec (cond : Nat → Bool) :
    ∀ n i, i ≤ scanUp cond n i ∧ scanUp cond n i ≤ i + n ∧
      (∀ k, i ≤ k → k < scanUp cond n i → cond k = true) ∧
      (scanUp cond n i < i + n → cond (scanUp cond n i) = false) := by
  intro n
  induction n with
  | zero =>
    intro i
    unfold scanUp
    exact ⟨Nat.le_refl _, Nat.le_refl _, fun k h1 h2 => by omega, fun h => by omega⟩
  | succ n ih =>
    intro i
    unfold scanUp
    by_cases hc : cond i = true
    · rw [if_pos hc]
      obtain ⟨h1, h2, h3, h4⟩ := ih (i + 1)
      refine ⟨by omega, by omega, ?_, fun h => h4 (by omega)⟩
      intro k hk1 hk2
      by_cases hki : k = i
      · rw [hki]; exact hc
      · exact h3 k (by omega) hk2
    · rw [if_neg hc]
      exact ⟨Nat.le_refl _, by omega, fun k h1 h2 => by omega,
        fun _ => by simpa using hc⟩

theorem scanDown_spec (cond : Nat → Bool) :
    ∀ n j, n ≤ j → scanDown cond n j ≤ j ∧ j ≤ scanDown cond n j + n ∧
      (∀ k, scanDown cond n j < k → k ≤ j → cond k = true) ∧
      (j < scanDown cond n j + n → cond (scanDown cond n j) = false) := by
  intro n
  induction n with
  | zero =>
    intro j _
    unfold scanDown
    exact ⟨Nat.le_refl _, Nat.le_refl _, fun k h1 h2 => by omega, fun h => by omega⟩
  | succ n ih =>
    intro j hn
    unfold scanDown
    by_cases hc : cond j = true
    · rw [if_pos hc]
      obtain ⟨h1, h2, h3, h4⟩ := ih (j - 1) (by omega)
      refine ⟨by omega, by omega, ?_, fun h => h4 (by omega)⟩
      intro k hk1 hk2
      by_cases hkj : k = j
      · rw [hkj]; exact hc
      · exact h3 k hk1 (by omega)
    · rw [if_neg hc]
      exact ⟨Nat.le_refl _, by omega, fun k h1 h2 => by omega,
        fun _ => by simpa using hc⟩

/-- The loop of the two partition functions.  With the pivot at `a`, the elements
before `i` on the left side and those after `j` on the right side, it ends with
`i = j + 1` and all elements between `a` and `b` on their sides. -/
theorem splitLoop_spec {α : Type} (left : List α → Nat → Bool) (f : α → α → Bool) (d : α)
    (a b : Nat)
    (hleft : ∀ (data : List α) k, a < data.length → k < data.length →
      left data k = f (nth d data k) (nth d data a)) :
    ∀ (fuel : Nat) (data : List α) (i j : Nat),
      j + 1 - i ≤ fuel → a + 1 ≤ i → i ≤ j + 1 → j < b → b ≤ data.length →
      (∀ k, a + 1 ≤ k → k < i → f (nth d data k) (nth d data a) = true) →
      (∀ k, j < k → k < b → f (nth d data k) (nth d data a) = false) →
      (splitLoop left fuel data i j).2.1 = (splitLoop left fuel data i j).2.2 + 1 ∧
      a + 1 ≤ (splitLoop left fuel data i j).2.1 ∧
      (splitLoop left fuel data i j).2.2 < b ∧
      Within d (a + 1) b data (splitLoop left fuel data i j).1 ∧
      (∀ k, a + 1 ≤ k → k < (splitLoop left fuel data i j).2.1 →
        f (nth d (splitLoop left fuel data i j).1 k) (nth d data a) = true) ∧
      (∀ k, (splitLoop left fuel data i j).2.2 < k → k < b →
        f (nth d (splitLoop left fuel data i j).1 k) (nth d data a) = false) := by
  intro fuel
  induction fuel with
  | zero =>
    intro data i j hf hai hij hjb hb hL hR
    unfold splitLoop
    simp only []
    exact ⟨by omega, hai, hjb, Within.refl _ _ _ _, hL, hR⟩
  | succ fuel ih =>
    intro data i j hf hai hij hjb hb hL hR
    have hal : a < data.length := by omega
    obtain ⟨u1, u2, u3, u4⟩ := scanUp_spec (fun k => left data k) (j + 1 - i) i
    generalize hi1 : scanUp (fun k => left data k) (j + 1 - i) i = i1 at u1 u2 u3 u4
    obtain ⟨v1, v2, v3, v4⟩ := scanDown_spec (fun k => !left data k) (j + 1 - i1) j (by omega)
    generalize hj1 : scanDown (fun k => !left data k) (j + 1 - i1) j = j1 at v1 v2 v3 v4
    have hL1 : ∀ k, a + 1 ≤ k → k < i1 → f (nth d data k) (nth d data a) = true := by
      intro k hk1 hk2
      by_cases hki : k < i
      · exact hL k hk1 hki
      · have := u3 k (by omega) hk2
        simp only [] at this
        rw [hleft data k hal (by omega)] at this
        exact this
    have hR1 : ∀ k, j1 < k → k < b → f (nth d data k) (nth d data a) = false := by
      intro k hk1 hk2
      by_cases hkj : j < k
      · exact hR k hkj hk2
      · have := v3 k hk1 (by omega)
        simp only [Bool.not_eq_true'] at this
        rw [hleft data k hal (by omega)] at this
        exact this
    unfold splitLoop
    rw [hi1, hj1]
    by_cases hlt : j1 < i1
    · rw [if_pos hlt]
      simp only []
      exact ⟨by omega, by omega, by omega, Within.refl _ _ _ _, hL1, hR1⟩
    · rw [if_neg hlt]
      have hfi : f (nth d data i1) (nth d data a) = false := by
        have := u4 (by omega)
        simp only [] at this
        rw [hleft data i1 hal (by omega)] at this
        exact this
      have hfj : f (nth d data j1) (nth d data a) = true := by
        have := v4 (by omega)
        simp only [Bool.not_eq_false'] at this
        rw [hleft data j1 hal (by omega)] at this
        exact this
      have hne : i1 ≠ j1 := by
        intro e
        rw [e, hfj] at hfi
        cases hfi
      have hi1l : i1 < data.length := by omega
      have hj1l : j1 < data.length := by omega
      have hsw : ∀ k, nth d (swapAt data i1 j1) k =
          if k = j1 then nth d data i1 else if k = i1 then nth d data j1
          else nth d data k := fun k => nth_swapAt d data i1 j1 k hi1l hj1l
      have hpa : nth d (swapAt data i1 j1) a = nth d data a := by
        rw [hsw a, if_neg (by omega), if_neg (by omega)]
      have hwin : Within d (a + 1) b data (swapAt data i1 j1) :=
        Within.swap d (a + 1) b data i1 j1 hb ⟨by omega, by omega⟩ ⟨by omega, by omega⟩
      obtain ⟨r1, r2, r3, r4, r5, r6⟩ := ih (swapAt data i1 j1) (i1 + 1) (j1 - 1)
        (by omega) (by omega) (by omega) (by omega) (by rw [length_swapAt]; exact hb)
        (by
          intro k hk1 hk2
          rw [hpa, hsw k]
          by_cases hk : k = i1
          · rw [if_neg (by omega), if_pos hk]
            exact hfj
          · rw [if_neg (by omega), if_neg hk]
            exact hL1 k hk1 (by omega))
        (by
          intro k hk1 hk2
          rw [hpa, hsw k]
          by_cases hk : k = j1
          · rw [if_pos hk]
            exact hfi
          · rw [if_neg hk, if_neg (by omega)]
            exact hR1 k (by omega) hk2)
      rw [hpa] at r5 r6
      exact ⟨r1, r2, r3, hwin.trans r4, r5, r6⟩

theorem partitionLoop_eq {α : Type} (less : α → α → Bool) (a : Nat) :
    ∀ (fuel : Nat) (data : List α) (i j : Nat),
      partitionLoop less a fuel data i j =
        ((splitLoop (fun x k => lessAt less x k a) fuel data i j).1,
          (splitLoop (fun x k => lessAt less x k a) fuel data i j).2.2) := by
  intro fuel
  induction fuel with
  | zero =>
    intro data i j
    rfl
  | succ fuel ih =>
    intro data i j
    unfold partitionLoop splitLoop
    simp only []
    split
    · rfl
    · exact ih _ _ _

theorem partitionEqualLoop_eq {α : Type} (less : α → α → Bool) (a : Nat) :
    ∀ (fuel : Nat) (data : List α) (i j : Nat),
      partitionEqualLoop less a fuel data i j =
        ((splitLoop (fun x k => !lessAt less x a k) fuel data i j).1,
          (splitLoop (fun x k => !lessAt less x a k) fuel data i j).2.1) := by
  intro fuel
  induction fuel with
  | zero =>
    intro data i j
    rfl
  | succ fuel ih =>
    intro data i j
    unfold partitionEqualLoop splitLoop
    simp only [Bool.not_not]
    split
    · rfl
    · exact ih _ _ _

/-- The last swap of Go `partition_func` puts the pivot between the two parts. -/
theorem partition_finish {α : Type} (less : α → α → Bool) (d : α) (a b : Nat)
    (data : List α) (j : Nat) (hb : b ≤ data.length) (haj : a ≤ j) (hjb : j < b)
    (hL : ∀ k, a + 1 ≤ k → k < j + 1 → less (nth d data k) (nth d data a) = true)
    (hR : ∀ k, j < k → k < b → less (nth d data k) (nth d data a) = false) :
    Within d a b data (swapAt data j a) ∧
    nth d (swapAt data j a) j = nth d data a ∧
    (∀ k, a ≤ k → k < j → less (nth d (swapAt data j a) k) (nth d data a) = true) ∧
    (∀ k, j < k → k < b → less (nth d (swapAt data j a) k) (nth d data a) = false) := by
  have hjl : j < data.length := by omega
  have hal : a < data.length := by omega
  have hsw : ∀ k, nth d (swapAt data j a) k =
      if k = a then nth d data j else if k = j then nth d data a
      else nth d data k := fun k => nth_swapAt d data j a k hjl hal
  refine ⟨Within.swap d a b data j a hb ⟨haj, hjb⟩ ⟨Nat.le_refl _, by omega⟩, ?_, ?_, ?_⟩
  · rw [hsw j]
    by_cases hja : j = a
    · rw [if_pos hja, hja]
    · rw [if_neg hja, if_pos rfl]
  · intro k hk1 hk2
    rw [hsw k]
    by_cases hka : k = a
    · rw [if_pos hka]
      exact hL j (by omega) (by omega)
    · rw [if_neg hka, if_neg (by omega)]
      exact hL k (by omega) (by omega)
  · intro k hk1 hk2
    rw [hsw k, if_neg (by omega), if_neg (by omega)]
    exact hR k hk1 hk2

/-- Go `partition_func`: the pivot ends at `newpivot`, with the lesser elements of the
range before it and the others after it. -/
theorem partition_func_spec {α : Type} (less : α → α → Bool) (d : α) (data : List α)
    (a b pivot : Nat) (hb : b ≤ data.length) (hp : a ≤ pivot ∧ pivot < b) :
    a ≤ (partition_func less data a b pivot).2.1 ∧
    (partition_func less data a b pivot).2.1 < b ∧
    Within d a b data (partition_func less data a b pivot).1 ∧
    nth d (partition_func less data a b pivot).1 (partition_func less data a b pivot).2.1
      = nth d data pivot ∧
    (∀ k, a ≤ k → k < (partition_func less data a b pivot).2.1 →
      less (nth d (partition_func less data a b pivot).1 k) (nth d data pivot) = true) ∧
    (∀ k, (partition_func less data a b pivot).2.1 < k → k < b →
      less (nth d (partition_func less data a b pivot).1 k) (nth d data pivot) = false) := by
  have hal : a < data.length := by omega
  have hpl : pivot < data.length := by omega
  have hw1 : Within d a b data (swapAt data a pivot) :=
    Within.swap d a b data a pivot hb ⟨Nat.le_refl _, by omega⟩ hp
  have hpa : nth d (swapAt data a pivot) a = nth d data pivot := by
    rw [nth_swapAt d data a pivot a hal hpl]
    by_cases h : a = pivot
    · rw [if_pos h, h]
    · rw [if_neg h, if_pos rfl]
  have hlen1 : (swapAt data a pivot).length = data.length := length_swapAt _ _ _
  unfold partition_func
  simp only []
  generalize hd1 : swapAt data a pivot = data1 at hw1 hpa hlen1
  have hleft : ∀ (x : List α) k, a < x.length → k < x.length →
      (fun (y : List α) m => lessAt less y m a) x k = less (nth d x k) (nth d x a) :=
    fun x k h1 h2 => lessAt_eq less d x k a h2 h1
  obtain ⟨u1, u2, u3, u4⟩ :=
    scanUp_spec (fun k => lessAt less data1 k a) (b - 1 + 1 - (a + 1)) (a + 1)
  generalize hi1 : scanUp (fun k => lessAt less data1 k a) (b - 1 + 1 - (a + 1)) (a + 1) = i1
    at u1 u2 u3 u4
  obtain ⟨v1, v2, v3, v4⟩ :=
    scanDown_spec (fun k => !lessAt less data1 k a) (b - 1 + 1 - i1) (b - 1) (by omega)
  generalize hj1 : scanDown (fun k => !lessAt less data1 k a) (b - 1 + 1 - i1) (b - 1) = j1
    at v1 v2 v3 v4
  have hL1 : ∀ k, a + 1 ≤ k → k < i1 → less (nth d data1 k) (nth d data1 a) = true := by
    intro k hk1 hk2
    have := u3 k hk1 hk2
    simp only [] at this
    rw [lessAt_eq less d data1 k a (by omega) (by omega)] at this
    exact this
  have hR1 : ∀ k, j1 < k → k < b → less (nth d data1 k) (nth d data1 a) = false := by
    intro k hk1 hk2
    have := v3 k hk1 (by omega)
    simp only [Bool.not_eq_true'] at this
    rw [lessAt_eq less d data1 k a (by omega) (by omega)] at this
    exact this
  by_cases hlt : j1 < i1
  · rw [if_pos hlt]
    simp only []
    obtain ⟨f1, f2, f3, f4⟩ := partition_finish less d a b data1 j1 (by omega) (by omega)
      (by omega) (fun k h1 h2 => hL1 k h1 (by omega)) hR1
    rw [hpa] at f2 f3 f4
    exact ⟨by omega, by omega, hw1.trans f1, f2, f3, f4⟩
  · rw [if_neg hlt]
    simp only []
    have hfi : less (nth d data1 i1) (nth d data1 a) = false := by
      have := u4 (by omega)
      simp only [] at this
      rw [lessAt_eq less d data1 i1 a (by omega) (by omega)] at this
      exact this
    have hfj : less (nth d data1 j1) (nth d data1 a) = true := by
      have := v4 (by omega)
      simp only [Bool.not_eq_false'] at this
      rw [lessAt_eq less d data1 j1 a (by omega) (by omega)] at this
      exact this
    have hne : i1 ≠ j1 := by
      intro e
      rw [e, hfj] at hfi
      cases hfi
    have hsw : ∀ k, nth d (swapAt data1 i1 j1) k =
        if k = j1 then nth d data1 i1 else if k = i1 then nth d data1 j1
        else nth d data1 k := fun k => nth_swapAt d data1 i1 j1 k (by omega) (by omega)
    have hpa2 : nth d (swapAt data1 i1 j1) a = nth d data1 a := by
      rw [hsw a, if_neg (by omega), if_neg (by omega)]
    have hwin : Within d (a + 1) b data1 (swapAt data1 i1 j1) :=
      Within.swap d (a + 1) b data1 i1 j1 (by omega) ⟨by omega, by omega⟩
        ⟨by omega, by omega⟩
    rw [partitionLoop_eq]
    simp only []
    obtain ⟨r1, r2, r3, r4, r5, r6⟩ := splitLoop_spec (fun x k => lessAt less x k a)
      (fun x y => less x y) d a b hleft (j1 - 1 + 1 - (i1 + 1)) (swapAt data1 i1 j1)
      (i1 + 1) (j1 - 1) (Nat.le_refl _) (by omega) (by omega) (by omega)
      (by rw [length_swapAt]; omega)
      (by
        intro k hk1 hk2
        rw [hpa2, hsw k]
        by_cases hk : k = i1
        · rw [if_neg (by omega), if_pos hk]
          exact hfj
        · rw [if_neg (by omega), if_neg hk]
          exact hL1 k hk1 (by omega))
      (by
        intro k hk1 hk2
        rw [hpa2, hsw k]
        by_cases hk : k = j1
        · rw [if_pos hk]
          exact hfi
        · rw [if_neg hk, if_neg (by omega)]
          exact hR1 k (by omega) hk2)
    generalize splitLoop (fun x k => lessAt less x k a) (j1 - 1 + 1 - (i1 + 1))
      (swapAt data1 i1 j1) (i1 + 1) (j1 - 1) = r at r1 r2 r3 r4 r5 r6
    have hpr : nth d r.1 a = nth d data1 a := by
      rw [r4.2.1 a (by omega)]
      exact hpa2
    rw [hpa2] at r5 r6
    rw [← hpr] at r5 r6
    obtain ⟨f1, f2, f3, f4⟩ := partition_finish less d a b r.1 r.2.2
      (by rw [r4.1, length_swapAt]; omega) (by omega) r3
      (fun k h1 h2 => r5 k h1 (by omega)) r6
    rw [hpr, hpa] at f2 f3 f4
    exact ⟨by omega, r3,
      hw1.trans ((hwin.mono (by omega) (Nat.le_refl _)).trans
        ((r4.mono (by omega) (Nat.le_refl _)).trans f1)), f2, f3, f4⟩

/-- Go `partitionEqual_func`: the elements that the pivot is not less than come first,
up to `newpivot`, then those it is less than. -/
theorem partitionEqual_func_spec {α : Type} (less : α → α → Bool) (hw : StrictWeak less)
    (d : α) (data : List α) (a b pivot : Nat) (hb : b ≤ data.length)
    (hp : a ≤ pivot ∧ pivot < b) :
    a < (partitionEqual_func less data a b pivot).2 ∧
    (partitionEqual_func less data a b pivot).2 ≤ b ∧
    Within d a b data (partitionEqual_func less data a b pivot).1 ∧
    (∀ k, a ≤ k → k < (partitionEqual_func less data a b pivot).2 →
      less (nth d data pivot) (nth d (partitionEqual_func less data a b pivot).1 k) = false) ∧
    (∀ k, (partitionEqual_func less data a b pivot).2 ≤ k → k < b →
      less (nth d data pivot) (nth d (partitionEqual_func less data a b pivot).1 k) = true) := by
  have hal : a < data.length := by omega
  have hpl : pivot < data.length := by omega
  have hw1 : Within d a b data (swapAt data a pivot) :=
    Within.swap d a b data a pivot hb ⟨Nat.le_refl _, by omega⟩ hp
  have hpa : nth d (swapAt data a pivot) a = nth d data pivot := by
    rw [nth_swapAt d data a pivot a hal hpl]
    by_cases h : a = pivot
    · rw [if_pos h, h]
    · rw [if_neg h, if_pos rfl]
  have hlen1 : (swapAt data a pivot).length = data.length := length_swapAt _ _ _
  unfold partitionEqual_func
  rw [partitionEqualLoop_eq]
  simp only []
  generalize hd1 : swapAt data a pivot = data1 at hw1 hpa hlen1
  have hleft : ∀ (x : List α) k, a < x.length → k < x.length →
      (fun (y : List α) m => !lessAt less y a m) x k
        = (fun u v => !less v u) (nth d x k) (nth d x a) := by
    intro x k h1 h2
    simp only []
    rw [lessAt_eq less d x a k h1 h2]
  obtain ⟨r1, r2, r3, r4, r5, r6⟩ := splitLoop_spec (fun x k => !lessAt less x a k)
    (fun u v => !less v u) d a b hleft (b - 1 + 1 - (a + 1)) data1 (a + 1) (b - 1)
    (Nat.le_refl _) (Nat.le_refl _) (by omega) (by omega) (by omega)
    (fun k h1 h2 => by omega) (fun k h1 h2 => by omega)
  generalize splitLoop (fun x k => !lessAt less x a k) (b - 1 + 1 - (a + 1)) data1 (a + 1)
    (b - 1) = r at r1 r2 r3 r4 r5 r6
  simp only [Bool.not_eq_true', Bool.not_eq_false'] at r5 r6
  rw [hpa] at r5 r6
  refine ⟨by omega, by omega, hw1.trans (r4.mono (by omega) (Nat.le_refl _)), ?_, ?_⟩
  · intro k hk1 hk2
    by_cases hka : k = a
    · rw [hka, r4.2.1 a (by omega), hpa]
      exact hw.1 _
    · exact r5 k (by omega) hk2
  · intro k hk1 hk2
    exact r6 k (by omega) hk2

theorem order2_func_cases {α : Type} (less : α → α → Bool) (data : List α) (a b swaps : Nat) :
    ((order2_func less data a b swaps).1 = a ∧ (order2_func less data a b swaps).2.1 = b) ∨
    ((order2_func less data a b swaps).1 = b ∧ (order2_func less data a b swaps).2.1 = a) := by
  unfold order2_func
  split
  · exact Or.inr ⟨rfl, rfl⟩
  · exact Or.inl ⟨rfl, rfl⟩

theorem median_func_cases {α : Type} (less : α → α → Bool) (data : List α)
    (a b c swaps : Nat) :
    (median_func less data a b c swaps).1 = a ∨ (median_func less data a b c swaps).1 = b ∨
      (median_func less data a b c swaps).1 = c := by
  unfold median_func
  simp only []
  rcases order2_func_cases less data a b swaps with h1 | h1 <;>
  rcases order2_func_cases less data (order2_func less data a b swaps).2.1 c
      (order2_func less data a b swaps).2.2 with h2 | h2 <;>
  rcases order2_func_cases less data (order2_func less data a b swaps).1
      (order2_func less data (order2_func less data a b swaps).2.1 c
        (order2_func less data a b swaps).2.2).1
      (order2_func less data (order2_func less data a b swaps).2.1 c
        (order2_func less data a b swaps).2.2).2.2 with h3 | h3 <;>
  rw [h3.2] <;> first
    | exact Or.inl h1.1
    | exact Or.inr (Or.inl h1.1)
    | exact Or.inl (h2.1.trans h1.2)
    | exact Or.inr (Or.inl (h2.1.trans h1.2))
    | exact Or.inr (Or.inr h2.1)

/-- Go `choosePivot_func` chooses an index of the range. -/
theorem choosePivot_func_bounds {α : Type} (less : α → α → Bool) (data : List α) (a b : Nat)
    (hab : a < b) :
    a ≤ (choosePivot_func less data a b).1 ∧ (choosePivot_func less data a b).1 < b := by
  unfold choosePivot_func
  simp only []
  by_cases h8 : 8 ≤ b - a
  · rw [if_pos h8]
    simp only []
    by_cases h50 : 50 ≤ b - a
    · simp only [if_pos h50]
      unfold medianAdjacent_func
      generalize hsi : median_func less data (a + (b - a) / 4 * 1 - 1) (a + (b - a) / 4 * 1)
        (a + (b - a) / 4 * 1 + 1) 0 = mi
      have ci := median_func_cases less data (a + (b - a) / 4 * 1 - 1) (a + (b - a) / 4 * 1)
        (a + (b - a) / 4 * 1 + 1) 0
      rw [hsi] at ci
      generalize hsj : median_func less data (a + (b - a) / 4 * 2 - 1) (a + (b - a) / 4 * 2)
        (a + (b - a) / 4 * 2 + 1) mi.2 = mj
      have cj := median_func_cases less data (a + (b - a) / 4 * 2 - 1) (a + (b - a) / 4 * 2)
        (a + (b - a) / 4 * 2 + 1) mi.2
      rw [hsj] at cj
      generalize hsk : median_func less data (a + (b - a) / 4 * 3 - 1) (a + (b - a) / 4 * 3)
        (a + (b - a) / 4 * 3 + 1) mj.2 = mk
      have ck := median_func_cases less data (a + (b - a) / 4 * 3 - 1) (a + (b - a) / 4 * 3)
        (a + (b - a) / 4 * 3 + 1) mj.2
      rw [hsk] at ck
      have cm := median_func_cases less data mi.1 mj.1 mk.1 mk.2
      omega
    · simp only [if_neg h50]
      have cm := median_func_cases less data (a + (b - a) / 4 * 1) (a + (b - a) / 4 * 2)
        (a + (b - a) / 4 * 3) 0
      omega
  · rw [if_neg h8]
    simp only []
    omega

theorem reverseLoop_within {α : Type} (d : α) (a b : Nat) :
    ∀ (n i j : Nat) (data : List α), a ≤ i → j < b → b ≤ data.length →
      Within d a b data (reverseLoop n i j data) := by
  intro n
  induction n with
  | zero =>
    intro i j data _ _ _
    exact Within.refl _ _ _ _
  | succ n ih =>
    intro i j data hi hj hb
    unfold reverseLoop
    split
    · exact (Within.swap d a b data i j hb ⟨hi, by omega⟩ ⟨by omega, hj⟩).trans
        (ih (i + 1) (j - 1) _ (by omega) (by omega) (by rw [length_swapAt]; exact hb))
    · exact Within.refl _ _ _ _

theorem reverseRange_func_within {α : Type} (d : α) (data : List α) (a b : Nat) (hab : a < b)
    (hb : b ≤ data.length) : Within d a b data (reverseRange_func data a b) :=
  reverseLoop_within d a b _ a (b - 1) data (Nat.le_refl _) (by omega) hb

/-- The index that Go `breakPatterns_func` draws is below the length of the range. -/
theorem breakPatterns_other_lt (random length : Nat) (h : 0 < length) :
    (if length ≤ random &&& (nextPowerOfTwo length - 1)
      then (random &&& (nextPowerOfTwo length - 1)) - length
      else random &&& (nextPowerOfTwo length - 1)) < length := by
  have hne : length ≠ 0 := by omega
  have h1 : nextPowerOfTwo length = 2 ^ (Nat.log2 length + 1) := by
    unfold nextPowerOfTwo bitsLen
    rw [if_neg hne]
  have h2 : 2 ^ (Nat.log2 length + 1) ≤ 2 * length := by
    have := Nat.log2_self_le hne
    rw [Nat.pow_succ]
    omega
  have h3 : random &&& (nextPowerOfTwo length - 1) < 2 * length := by
    rw [h1, Nat.and_pow_two_sub_one_eq_mod]
    exact Nat.lt_of_lt_of_le (Nat.mod_lt _ (Nat.pos_pow_of_pos _ (by decide))) h2
  split <;> omega

theorem breakPatterns_func_within {α : Type} (next : Nat → Nat) (d : α) (data : List α)
    (a b : Nat) (hb : b ≤ data.length) :
    Within d a b data (breakPatterns_func next data a b) := by
  unfold breakPatterns_func
  simp only []
  by_cases h8 : 8 ≤ b - a
  · rw [if_pos h8]
    simp only [List.foldl_cons, List.foldl_nil, breakPatternsStep]
    have o1 := breakPatterns_other_lt (next (b - a)) (b - a) (by omega)
    have o2 := breakPatterns_other_lt (next (next (b - a))) (b - a) (by omega)
    have o3 := breakPatterns_other_lt (next (next (next (b - a))))
      (b - a) (by omega)
    refine ((Within.swap d a b data _ _ hb ⟨by omega, by omega⟩ ⟨by omega, by omega⟩).trans
      (Within.swap d a b _ _ _ (by rw [length_swapAt]; exact hb) ⟨by omega, by omega⟩
        ⟨by omega, by omega⟩)).trans
      (Within.swap d a b _ _ _ (by rw [length_swapAt, length_swapAt]; exact hb)
        ⟨by omega, by omega⟩ ⟨by omega, by omega⟩)
  · rw [if_neg h8]
    exact Within.refl _ _ _ _

/-- Below a lower bound, the shift to the left of the partial insertion sort is the
inner loop of the insertion sort. -/
theorem shiftSmaller_eq {α : Type} (less : α → α → Bool) (d : α) (a b : Nat) :
    ∀ (j : Nat) (data : List α), a ≤ j → j < b → b ≤ data.length →
      LowerBound less d data a b →
      shiftSmaller less j data = insertionShift less a j data := by
  intro j
  induction j with
  | zero =>
    intro data _ _ _ _
    rfl
  | succ j ih =>
    intro data haj hjb hb hl
    unfold shiftSmaller insertionShift
    by_cases ha : a < j + 1
    · by_cases hc : lessAt less data (j + 1) j = true
      · rw [if_neg (by simp [hc]), if_pos (by simp [ha, hc])]
        exact ih _ (by omega) (by omega) (by rw [length_swapAt]; exact hb)
          (hl.within (Within.swap d a b data (j + 1) j hb ⟨by omega, by omega⟩
            ⟨by omega, by omega⟩))
      · rw [if_pos (by simp [hc]), if_neg (by simp [hc])]
    · have haeq : a = j + 1 := by omega
      have hnl : lessAt less data (j + 1) j = false := by
        rw [lessAt_eq less d data (j + 1) j (by omega) (by omega)]
        rcases hl with h0 | hl
        · omega
        · have := hl (j + 1) (by omega) hjb
          rw [haeq] at this
          exact this
      rw [if_pos (by simp [hnl]), if_neg (by simp [ha])]

theorem shiftGreater_within {α : Type} (less : α → α → Bool) (d : α) (lo b : Nat) :
    ∀ (n j : Nat) (data : List α), lo + 1 ≤ j → j + n ≤ b → b ≤ data.length →
      Within d lo b data (shiftGreater less n j data) := by
  intro n
  induction n with
  | zero =>
    intro j data _ _ _
    exact Within.refl _ _ _ _
  | succ n ih =>
    intro j data hj hn hb
    unfold shiftGreater
    split
    · exact Within.refl _ _ _ _
    · exact (Within.swap d lo b data j (j - 1) hb ⟨by omega, by omega⟩
        ⟨by omega, by omega⟩).trans
        (ih (j + 1) _ (by omega) (by omega) (by rw [length_swapAt]; exact hb))

/-- A sorted range stays sorted when nothing in it moves. -/
theorem SortedOn.within_apart {α : Type} {less : α → α → Bool} {d : α} {a b lo hi : Nat}
    {x y : List α} (hs : SortedOn less d x a b) (h : Within d lo hi x y)
    (hlo : b ≤ lo ∨ hi ≤ a) : SortedOn less d y a b := by
  intro i j h1 h2 h3
  rw [h.2.1 i (by omega), h.2.1 j (by omega)]
  exact hs i j h1 h2 h3

/-- A sorted range followed by elements each not less than the one before it is
sorted. -/
theorem SortedOn.extend {α : Type} {less : α → α → Bool} (hw : StrictWeak less) {d : α}
    {a i : Nat} {x : List α} (hs : SortedOn less d x a i) (hai : a < i) :
    ∀ m, i ≤ m →
      (∀ k, i ≤ k → k < m → less (nth d x k) (nth d x (k - 1)) = false) →
      SortedOn less d x a m := by
  intro m
  induction m with
  | zero =>
    intro h0 _
    omega
  | succ m ih =>
    intro hm hadj
    by_cases him : i = m + 1
    · rw [← him]
      exact hs
    · have hsm := ih (by omega) (fun k h1 h2 => hadj k h1 (by omega))
      intro p q hp hpq hq
      by_cases hqm : q = m
      · subst hqm
        have h1 := hadj q (by omega) (by omega)
        by_cases hpq1 : p = q - 1
        · rw [hpq1]
          exact h1
        · exact hw.2.2 _ _ _ h1 (hsm p (q - 1) hp (by omega) (by omega))
      · exact hsm p q hp hpq (by omega)

/-- The rounds of Go `partialInsertionSort_func` move elements within the range only,
and return true only with the range in order. -/
theorem partialInsertionSteps_spec {α : Type} (less : α → α → Bool) (hw : StrictWeak less)
    (d : α) (a b : Nat) :
    ∀ (steps i : Nat) (data : List α), a < i → i ≤ b → b ≤ data.length →
      LowerBound less d data a b → SortedOn less d data a i →
      Within d a b data (partialInsertionSteps less a b steps i data).1 ∧
      ((partialInsertionSteps less a b steps i data).2 = true →
        SortedOn less d (partialInsertionSteps less a b steps i data).1 a b) := by
  intro steps
  induction steps with
  | zero =>
    intro i data _ _ _ _ _
    unfold partialInsertionSteps
    exact ⟨Within.refl _ _ _ _, fun h => by cases h⟩
  | succ steps ih =>
    intro i data hai hib hb hl hs
    obtain ⟨u1, u2, u3, u4⟩ := scanUp_spec (fun k => !lessAt less data k (k - 1)) (b - i) i
    unfold partialInsertionSteps
    simp only []
    generalize hi1 : scanUp (fun k => !lessAt less data k (k - 1)) (b - i) i = i1
      at u1 u2 u3 u4
    have hs1 : SortedOn less d data a i1 := by
      apply hs.extend hw hai i1 u1
      intro k hk1 hk2
      have := u3 k hk1 hk2
      simp only [Bool.not_eq_true'] at this
      rw [lessAt_eq less d data k (k - 1) (by omega) (by omega)] at this
      exact this
    by_cases hend : i1 = b
    · rw [if_pos hend]
      simp only []
      exact ⟨Within.refl _ _ _ _, fun _ => by rw [← hend]; exact hs1⟩
    · rw [if_neg hend]
      by_cases hshort : b - a < 50
      · rw [if_pos hshort]
        exact ⟨Within.refl _ _ _ _, fun h => by cases h⟩
      · rw [if_neg hshort]
        have hi1b : i1 < b := by omega
        have hw1 : Within d a b data (swapAt data i1 (i1 - 1)) :=
          Within.swap d a b data i1 (i1 - 1) hb ⟨by omega, hi1b⟩ ⟨by omega, by omega⟩
        have hsw : ∀ k, nth d (swapAt data i1 (i1 - 1)) k =
            if k = i1 - 1 then nth d data i1 else if k = i1 then nth d data (i1 - 1)
            else nth d data k :=
          fun k => nth_swapAt d data i1 (i1 - 1) k (by omega) (by omega)
        generalize hd1 : swapAt data i1 (i1 - 1) = data1 at hw1 hsw
        have hl1 : LowerBound less d data1 a b := hl.within hw1
        have hlen1 : b ≤ data1.length := by rw [hw1.1]; exact hb
        -- the smaller one goes to the left
        have hw2 : Within d a b data1
            (if 2 ≤ i1 - a then shiftSmaller less (i1 - 1) data1 else data1) ∧
            SortedOn less d (if 2 ≤ i1 - a then shiftSmaller less (i1 - 1) data1 else data1)
              a i1 := by
          by_cases h2 : 2 ≤ i1 - a
          · rw [if_pos h2,
              shiftSmaller_eq less d a b (i1 - 1) data1 (by omega) (by omega) hlen1 hl1]
            have hex : SortedExcept less d data1 a (i1 - 1) (i1 - 1) := by
              constructor
              · intro p q hp hpq hq hpn hqn
                rw [hsw p, hsw q, if_neg hpn, if_neg hqn, if_neg (by omega), if_neg (by omega)]
                exact hs1 p q hp hpq (by omega)
              · intro q h1 h2
                omega
            obtain ⟨r1, r2⟩ := insertionShift_spec less hw d a (i1 - 1) (i1 - 1) data1
              (by omega) (Nat.le_refl _) (by omega) hex
            have e : i1 - 1 + 1 = i1 := by omega
            rw [e] at r1 r2
            exact ⟨r2.mono (Nat.le_refl _) (by omega), r1⟩
          · rw [if_neg h2]
            exact ⟨Within.refl _ _ _ _, fun p q h1 h2 h3 => by omega⟩
        generalize hd2 : (if 2 ≤ i1 - a then shiftSmaller less (i1 - 1) data1 else data1)
          = data2 at hw2
        have hlen2 : b ≤ data2.length := by rw [hw2.1.1]; exact hlen1
        -- the greater one goes to the right
        have hw3 : Within d i1 b data2
            (if 2 ≤ b - i1 then shiftGreater less (b - (i1 + 1)) (i1 + 1) data2
              else data2) := by
          by_cases h2 : 2 ≤ b - i1
          · rw [if_pos h2]
            exact shiftGreater_within less d i1 b _ _ data2 (by omega) (by omega) hlen2
          · rw [if_neg h2]
            exact Within.refl _ _ _ _
        generalize hd3 : (if 2 ≤ b - i1 then shiftGreater less (b - (i1 + 1)) (i1 + 1) data2
          else data2) = data3 at hw3
        have hw13 : Within d a b data1 data3 :=
          hw2.1.trans (hw3.mono (by omega) (Nat.le_refl _))
        obtain ⟨r1, r2⟩ := ih i1 data3 (by omega) (by omega)
          (by rw [hw13.1]; exact hlen1) (hl1.within hw13)
          (hw2.2.within_apart hw3 (Or.inl (Nat.le_refl _)))
        exact ⟨hw1.trans (hw13.trans r1), r2⟩

theorem partialInsertionSort_func_spec {α : Type} (less : α → α → Bool)
    (hw : StrictWeak less) (d : α) (data : List α) (a b : Nat) (hab : a < b)
    (hb : b ≤ data.length) (hl : LowerBound less d data a b) :
    Within d a b data (partialInsertionSort_func less data a b).1 ∧
    ((partialInsertionSort_func less data a b).2 = true →
      SortedOn less d (partialInsertionSort_func less data a b).1 a b) :=
  partialInsertionSteps_spec less hw d a b 5 (a + 1) data (by omega) (by omega) hb hl
    (fun p q h1 h2 h3 => by omega)

/-- The loop of Go `siftDown_func` makes a heap from a heap that is broken at `root`
only. -/
theorem siftDownLoop_spec {α : Type} (less : α → α → Bool) (hw : StrictWeak less) (d : α)
    (first lo hi : Nat) :
    ∀ (fuel root : Nat) (data : List α), hi ≤ fuel + root → lo ≤ root →
      first + hi ≤ data.length →
      (∀ c, 1 ≤ c → c < hi → lo ≤ (c - 1) / 2 → (c - 1) / 2 ≠ root →
        less (nth d data (first + (c - 1) / 2)) (nth d data (first + c)) = false) →
      (∀ c, 1 ≤ c → c < hi → (c - 1) / 2 = root → 1 ≤ root → lo ≤ (root - 1) / 2 →
        less (nth d data (first + (root - 1) / 2)) (nth d data (first + c)) = false) →
      HeapFrom less d (siftDownLoop less hi first fuel root data) first lo hi ∧
      Within d (first + lo) (first + hi) data (siftDownLoop less hi first fuel root data) := by
  intro fuel
  induction fuel with
  | zero =>
    intro root data hf hlo hlen h1 h2
    unfold siftDownLoop
    refine ⟨?_, Within.refl _ _ _ _⟩
    intro c hc1 hc2 hc3
    exact h1 c hc1 hc2 hc3 (by omega)
  | succ fuel ih =>
    intro root data hf hlo hlen h1 h2
    unfold siftDownLoop
    by_cases hleaf : hi ≤ 2 * root + 1
    · rw [if_pos hleaf]
      refine ⟨?_, Within.refl _ _ _ _⟩
      intro c hc1 hc2 hc3
      exact h1 c hc1 hc2 hc3 (by omega)
    · rw [if_neg hleaf]
      simp only []
      generalize hchild : (if (decide (2 * root + 1 + 1 < hi)
          && lessAt less data (first + (2 * root + 1)) (first + (2 * root + 1) + 1)) = true
          then 2 * root + 1 + 1 else 2 * root + 1) = child
      -- the chosen child is not less than a child of the root
      have hch : (child = 2 * root + 1 ∨ child = 2 * root + 1 + 1) ∧ child < hi ∧
          ∀ c, 1 ≤ c → c < hi → (c - 1) / 2 = root →
            less (nth d data (first + child)) (nth d data (first + c)) = false := by
        by_cases hc : (decide (2 * root + 1 + 1 < hi)
          && lessAt less data (first + (2 * root + 1)) (first + (2 * root + 1) + 1)) = true
        · rw [if_pos hc] at hchild
          simp only [Bool.and_eq_true, decide_eq_true_eq] at hc
          have hl := hc.2
          rw [lessAt_eq less d data _ _ (by omega) (by omega)] at hl
          refine ⟨Or.inr hchild.symm, by omega, ?_⟩
          intro c hc1 hc2 hc3
          have hcc : c = 2 * root + 1 ∨ c = 2 * root + 1 + 1 := by omega
          rcases hcc with e | e
          · rw [← hchild, e]
            exact hw.asymm _ _ hl
          · rw [← hchild, e]
            exact hw.1 _
        · rw [if_neg hc] at hchild
          refine ⟨Or.inl hchild.symm, by omega, ?_⟩
          intro c hc1 hc2 hc3
          have hcc : c = 2 * root + 1 ∨ c = 2 * root + 1 + 1 := by omega
          rcases hcc with e | e
          · rw [← hchild, e]
            exact hw.1 _
          · have hl : lessAt less data (first + (2 * root + 1)) (first + (2 * root + 1) + 1)
                = false := by
              cases hx : lessAt less data (first + (2 * root + 1)) (first + (2 * root + 1) + 1)
              · rfl
              · exfalso
                apply hc
                simp only [Bool.and_eq_true, decide_eq_true_eq]
                exact ⟨by omega, hx⟩
            rw [lessAt_eq less d data _ _ (by omega) (by omega)] at hl
            rw [← hchild, e]
            exact hl
      obtain ⟨hcv, hclt, hcmax⟩ := hch
      by_cases hstop : lessAt less data (first + root) (first + child) = true
      · rw [if_neg (by simp [hstop])]
        have hlt := hstop
        rw [lessAt_eq less d data _ _ (by omega) (by omega)] at hlt
        have hsw : ∀ k, nth d (swapAt data (first + root) (first + child)) k =
            if k = first + child then nth d data (first + root)
            else if k = first + root then nth d data (first + child) else nth d data k :=
          fun k => nth_swapAt d data _ _ k (by omega) (by omega)
        have hwin : Within d (first + lo) (first + hi) data
            (swapAt data (first + root) (first + child)) :=
          Within.swap d _ _ data _ _ hlen ⟨by omega, by omega⟩ ⟨by omega, by omega⟩
        generalize hd1 : swapAt data (first + root) (first + child) = data1 at hsw hwin
        obtain ⟨r1, r2⟩ := ih child data1 (by omega) (by omega)
          (by rw [hwin.1]; exact hlen)
          (by
            intro c hc1 hc2 hc3 hc4
            by_cases hp : (c - 1) / 2 = root
            · rw [hp, hsw (first + root), if_neg (by omega), if_pos rfl]
              by_cases hcc : c = child
              · rw [hcc, hsw (first + child), if_pos rfl]
                exact hw.asymm _ _ hlt
              · rw [hsw (first + c), if_neg (by omega), if_neg (by omega)]
                exact hcmax c hc1 hc2 hp
            · rw [hsw (first + (c - 1) / 2), if_neg (by omega), if_neg (by omega)]
              by_cases hcr : c = root
              · rw [hcr, hsw (first + root), if_neg (by omega), if_pos rfl]
                exact h2 child (by omega) hclt (by omega) (by omega) (by rw [← hcr]; exact hc3)
              · rw [hsw (first + c), if_neg (by omega), if_neg (by omega)]
                exact h1 c hc1 hc2 hc3 hp)
          (by
            intro c hc1 hc2 hc3 hc4 hc5
            have e : (child - 1) / 2 = root := by omega
            rw [e, hsw (first + root), if_neg (by omega), if_pos rfl,
              hsw (first + c), if_neg (by omega), if_neg (by omega)]
            have := h1 c hc1 hc2 (by omega) (by omega)
            rw [hc3] at this
            exact this)
        exact ⟨r1, hwin.trans r2⟩
      · rw [if_pos (by simp [hstop])]
        refine ⟨?_, Within.refl _ _ _ _⟩
        have hnl : less (nth d data (first + root)) (nth d data (first + child)) = false := by
          rw [← lessAt_eq less d data _ _ (by omega) (by omega)]
          cases hx : lessAt less data (first + root) (first + child)
          · rfl
          · exact absurd hx hstop
        intro c hc1 hc2 hc3
        by_cases hp : (c - 1) / 2 = root
        · rw [hp]
          exact hw.2.2 _ _ _ hnl (hcmax c hc1 hc2 hp)
        · exact h1 c hc1 hc2 hc3 hp

theorem siftDown_func_spec {α : Type} (less : α → α → Bool) (hw : StrictWeak less) (d : α)
    (data : List α) (lo hi first : Nat) (hlen : first + hi ≤ data.length)
    (h : HeapFrom less d data first (lo + 1) hi) :
    HeapFrom less d (siftDown_func less data lo hi first) first lo hi ∧
    Within d (first + lo) (first + hi) data (siftDown_func less data lo hi first) :=
  siftDownLoop_spec less hw d first lo hi hi lo data (by omega) (Nat.le_refl _) hlen
    (fun c hc1 hc2 hc3 hc4 => h c hc1 hc2 (by omega))
    (fun c hc1 hc2 hc3 hc4 hc5 => by omega)

/-- The root of a heap is not less than an element of it. -/
theorem HeapFrom.root_max {α : Type} {less : α → α → Bool} (hw : StrictWeak less) {d : α}
    {data : List α} {first hi : Nat} (h : HeapFrom less d data first 0 hi) :
    ∀ p, p < hi → less (nth d data (first + 0)) (nth d data (first + p)) = false := by
  intro p
  induction p using Nat.strong_induction_on with
  | _ p ih =>
    intro hp
    by_cases h0 : p = 0
    · rw [h0]
      exact hw.1 _
    · exact hw.2.2 _ _ _ (ih ((p - 1) / 2) (by omega) (by omega))
        (h p (by omega) hp (Nat.zero_le _))

/-- The first loop of Go `heapSort_func` builds a heap. -/
theorem heapBuild_spec {α : Type} (less : α → α → Bool) (hw : StrictWeak less) (d : α)
    (first hi : Nat) :
    ∀ (n : Nat) (data : List α), first + hi ≤ data.length →
      HeapFrom less d data first n hi →
      HeapFrom less d ((List.range n).reverse.foldl
        (fun x i => siftDown_func less x i hi first) data) first 0 hi ∧
      Within d first (first + hi) data ((List.range n).reverse.foldl
        (fun x i => siftDown_func less x i hi first) data) := by
  intro n
  induction n with
  | zero =>
    intro data _ h
    exact ⟨h, Within.refl _ _ _ _⟩
  | succ n ih =>
    intro data hlen h
    rw [List.range_succ, List.reverse_append, List.reverse_singleton, List.singleton_append,
      List.foldl_cons]
    obtain ⟨s1, s2⟩ := siftDown_func_spec less hw d data n hi first hlen h
    obtain ⟨r1, r2⟩ := ih (siftDown_func less data n hi first) (by rw [s2.1]; exact hlen) s1
    exact ⟨r1, (s2.mono (by omega) (Nat.le_refl _)).trans r2⟩

/-- The second loop of Go `heapSort_func` takes the greatest element of the heap to the
end of it, for heaps of `m` elements down to one. -/
theorem heapPop_spec {α : Type} (less : α → α → Bool) (hw : StrictWeak less) (d : α)
    (first hi : Nat) :
    ∀ (m : Nat) (data : List α), m ≤ hi → first + hi ≤ data.length →
      HeapFrom less d data first 0 m →
      SortedOn less d data (first + m) (first + hi) →
      (∀ p q, first ≤ p → p < first + m → first + m ≤ q → q < first + hi →
        less (nth d data q) (nth d data p) = false) →
      SortedOn less d ((List.range m).reverse.foldl
        (fun x i => siftDown_func less (swapAt x first (first + i)) 0 i first) data)
        first (first + hi) ∧
      Within d first (first + hi) data ((List.range m).reverse.foldl
        (fun x i => siftDown_func less (swapAt x first (first + i)) 0 i first) data) := by
  intro m
  induction m with
  | zero =>
    intro data _ _ _ hs _
    exact ⟨hs, Within.refl _ _ _ _⟩
  | succ m ih =>
    intro data hm hlen hheap hs hcross
    rw [List.range_succ, List.reverse_append, List.reverse_singleton, List.singleton_append,
      List.foldl_cons]
    have hmax := hheap.root_max hw
    have hsw : ∀ k, nth d (swapAt data first (first + m)) k =
        if k = first + m then nth d data first
        else if k = first then nth d data (first + m) else nth d data k :=
      fun k => nth_swapAt d data _ _ k (by omega) (by omega)
    have hwin1 : Within d first (first + (m + 1)) data (swapAt data first (first + m)) :=
      Within.swap d _ _ data _ _ (by omega) ⟨by omega, by omega⟩ ⟨by omega, by omega⟩
    generalize hd1 : swapAt data first (first + m) = data1 at hsw hwin1
    have hlen1 : first + hi ≤ data1.length := by rw [hwin1.1]; exact hlen
    have hheap1 : HeapFrom less d data1 first (0 + 1) m := by
      intro c hc1 hc2 hc3
      rw [hsw (first + (c - 1) / 2), if_neg (by omega), if_neg (by omega),
        hsw (first + c), if_neg (by omega), if_neg (by omega)]
      exact hheap c hc1 (by omega) (Nat.zero_le _)
    obtain ⟨s1, s2⟩ := siftDown_func_spec less hw d data1 0 m first (by omega) hheap1
    have s2' : Within d first (first + m) data1 (siftDown_func less data1 0 m first) := by
      have := s2
      rw [Nat.add_zero] at this
      exact this
    generalize hd2 : siftDown_func less data1 0 m first = data2 at s1 s2'
    -- the elements of the smaller heap were in the heap
    have hsmall : ∀ p, first ≤ p → p < first + m →
        ∃ p', first ≤ p' ∧ p' < first + (m + 1) ∧ nth d data2 p = nth d data p' := by
      intro p hp1 hp2
      obtain ⟨p1, a1, a2, a3⟩ := s2'.2.2 p hp1 hp2
      obtain ⟨p2, b1, b2, b3⟩ := hwin1.2.2 p1 a1 (by omega)
      exact ⟨p2, b1, b2, by rw [a3, b3]⟩
    have hlast : nth d data2 (first + m) = nth d data first := by
      rw [s2'.2.1 (first + m) (by omega), hsw (first + m), if_pos rfl]
    have hrest : ∀ q, first + (m + 1) ≤ q → nth d data2 q = nth d data q := by
      intro q hq
      rw [s2'.2.1 q (by omega), hwin1.2.1 q (by omega)]
    obtain ⟨r1, r2⟩ := ih data2 (by omega) (by rw [s2'.1]; exact hlen1) s1
      (by
        intro i j hi1 hij hj
        by_cases him : i = first + m
        · rw [him, hlast, hrest j (by omega)]
          exact hcross first j (Nat.le_refl _) (by omega) (by omega) hj
        · rw [hrest i (by omega), hrest j (by omega)]
          exact hs i j (by omega) hij hj)
      (by
        intro p q hp1 hp2 hq1 hq2
        obtain ⟨p', c1, c2, c3⟩ := hsmall p hp1 hp2
        rw [c3]
        by_cases hqm : q = first + m
        · rw [hqm, hlast]
          have := hmax (p' - first) (by omega)
          rw [Nat.add_zero] at this
          have e : first + (p' - first) = p' := by omega
          rw [e] at this
          exact this
        · rw [hrest q (by omega)]
          exact hcross p' q c1 c2 (by omega) hq2)
    exact ⟨r1, ((hwin1.trans (s2'.mono (Nat.le_refl _) (by omega))).mono (Nat.le_refl _)
      (by omega)).trans r2⟩

/-- Go `heapSort_func` sorts the range. -/
theorem heapSort_func_spec {α : Type} (less : α → α → Bool) (hw : StrictWeak less) (d : α)
    (data : List α) (a b : Nat) (hab : a ≤ b) (hb : b ≤ data.length) :
    SortedOn less d (heapSort_func less data a b) a b ∧
    Within d a b data (heapSort_func less data a b) := by
  unfold heapSort_func
  simp only []
  obtain ⟨b1, b2⟩ := heapBuild_spec less hw d a (b - a) ((b - a - 1) / 2 + 1) data
    (by omega) (fun c hc1 hc2 hc3 => by omega)
  generalize (List.range ((b - a - 1) / 2 + 1)).reverse.foldl
    (fun x i => siftDown_func less x i (b - a) a) data = heap at b1 b2
  obtain ⟨p1, p2⟩ := heapPop_spec less hw d a (b - a) (b - a) heap (Nat.le_refl _)
    (by rw [b2.1]; omega) b1 (fun i j h1 h2 h3 => by omega)
    (fun p q h1 h2 h3 h4 => by omega)
  have e : a + (b - a) = b := by omega
  rw [e] at p1 p2 b2
  exact ⟨p1, b2.trans p2⟩

/-- Two sorted ranges around a pivot, with smaller elements before it and no smaller
element after it, make a sorted range. -/
theorem SortedOn.around {α : Type} {less : α → α → Bool} (hw : StrictWeak less) {d : α}
    {a b mid : Nat} {x : List α} (pv : α) (hl : SortedOn less d x a mid)
    (hr : SortedOn less d x (mid + 1) b) (hm : nth d x mid = pv)
    (hlt : ∀ k, a ≤ k → k < mid → less (nth d x k) pv = true)
    (hge : ∀ k, mid < k → k < b → less (nth d x k) pv = false) :
    SortedOn less d x a b := by
  intro i j h1 h2 h3
  by_cases hj : j < mid
  · exact hl i j h1 h2 hj
  · by_cases hi : mid < i
    · exact hr i j (by omega) h2 h3
    · by_cases hje : j = mid
      · rw [hje, hm]
        exact hw.asymm _ _ (hlt i h1 (by omega))
      · have hjge := hge j (by omega) h3
        by_cases hie : i = mid
        · rw [hie, hm]
          exact hjge
        · have hilt := hlt i h1 (by omega)
          cases hx : less (nth d x j) (nth d x i)
          · rfl
          · rw [hw.2.1 _ _ _ hx hilt] at hjge
            cases hjge

/-- A range of elements equivalent to the pivot, before a sorted range of greater
elements, makes a sorted range. -/
theorem SortedOn.after_equal {α : Type} {less : α → α → Bool} (hw : StrictWeak less) {d : α}
    {a b mid : Nat} {x : List α} (pv : α) (hr : SortedOn less d x mid b)
    (h1 : ∀ k, a ≤ k → k < mid → less pv (nth d x k) = false)
    (h2 : ∀ k, a ≤ k → k < mid → less (nth d x k) pv = false)
    (h3 : ∀ k, mid ≤ k → k < b → less pv (nth d x k) = true) :
    SortedOn less d x a b := by
  intro i j hi hij hj
  by_cases hjm : j < mid
  · exact hw.2.2 _ _ _ (h2 j (by omega) hjm) (h1 i hi (by omega))
  · by_cases him : mid ≤ i
    · exact hr i j him hij hj
    · have hpj := h3 j (by omega) hj
      have hpi := h1 i hi (by omega)
      cases hx : less (nth d x j) (nth d x i)
      · rfl
      · rw [hw.2.1 _ _ _ hpj hx] at hpi
        cases hpi

/-- Go `pdqsort_func` returns, with the range sorted and nothing else moved, when no
element of the range is less than the element before the range. -/
theorem pdqsort_func_spec {α : Type} (next : Nat → Nat) (less : α → α → Bool)
    (hw : StrictWeak less) (d : α) :
    ∀ (fuel : Nat) (data : List α) (a b limit : Nat) (wb wp : Bool),
      a ≤ b → b ≤ data.length → LowerBound less d data a b → b - a < fuel →
      ∃ out, pdqsort_func next less fuel data a b limit wb wp = some out ∧
        Within d a b data out ∧ SortedOn less d out a b := by
  intro fuel
  induction fuel with
  | zero =>
    intro data a b limit wb wp _ _ _ hf
    omega
  | succ fuel ih =>
    intro data a b limit wb wp hab hb hlow hf
    unfold pdqsort_func
    simp only []
    by_cases h12 : b - a ≤ 12
    · rw [if_pos h12]
      obtain ⟨s1, s2⟩ := insertionSort_func_spec less hw d data a b hb
      exact ⟨_, rfl, s2, s1⟩
    rw [if_neg h12]
    by_cases hlim : limit = 0
    · rw [if_pos hlim]
      obtain ⟨s1, s2⟩ := heapSort_func_spec less hw d data a b hab hb
      exact ⟨_, rfl, s2, s1⟩
    rw [if_neg hlim]
    have hw1 : Within d a b data (if (!wb) = true then breakPatterns_func next data a b else data) := by
      split
      · exact breakPatterns_func_within next d data a b hb
      · exact Within.refl _ _ _ _
    generalize hd1 : (if (!wb) = true then breakPatterns_func next data a b else data) = data1
      at hw1
    generalize hl1 : (if (!wb) = true then limit - 1 else limit) = limit1
    have hb1 : b ≤ data1.length := by rw [hw1.1]; exact hb
    have hcb := choosePivot_func_bounds less data1 a b (by omega)
    generalize hch : choosePivot_func less data1 a b = choice at hcb
    have hw2 : Within d a b data1 (if choice.2 = SortedHint.decreasingHint
        then reverseRange_func data1 a b else data1) := by
      split
      · exact reverseRange_func_within d data1 a b (by omega) hb1
      · exact Within.refl _ _ _ _
    generalize hd2 : (if choice.2 = SortedHint.decreasingHint then reverseRange_func data1 a b
      else data1) = data2 at hw2
    have hpb : a ≤ (if choice.2 = SortedHint.decreasingHint then b - 1 - (choice.1 - a)
        else choice.1) ∧ (if choice.2 = SortedHint.decreasingHint then b - 1 - (choice.1 - a)
        else choice.1) < b := by
      split <;> omega
    generalize hpv : (if choice.2 = SortedHint.decreasingHint then b - 1 - (choice.1 - a)
      else choice.1) = pivot at hpb
    generalize hhint : (if choice.2 = SortedHint.decreasingHint then SortedHint.increasingHint
      else choice.2) = hint
    have hb2 : b ≤ data2.length := by rw [hw2.1]; exact hb1
    have hlow2 : LowerBound less d data2 a b := hlow.within (hw1.trans hw2)
    have hw3 : Within d a b data2
        (if (wb && wp && decide (hint = SortedHint.increasingHint)) = true
          then partialInsertionSort_func less data2 a b else (data2, false)).1 ∧
        ((if (wb && wp && decide (hint = SortedHint.increasingHint)) = true
          then partialInsertionSort_func less data2 a b else (data2, false)).2 = true →
          SortedOn less d (if (wb && wp && decide (hint = SortedHint.increasingHint)) = true
            then partialInsertionSort_func less data2 a b else (data2, false)).1 a b) := by
      split
      · exact partialInsertionSort_func_spec less hw d data2 a b (by omega) hb2 hlow2
      · exact ⟨Within.refl _ _ _ _, fun h => by cases h⟩
    generalize hpart : (if (wb && wp && decide (hint = SortedHint.increasingHint)) = true
      then partialInsertionSort_func less data2 a b else (data2, false)) = partial1 at hw3
    by_cases hdone : partial1.2 = true
    · rw [if_pos hdone]
      exact ⟨_, rfl, hw1.trans (hw2.trans hw3.1), hw3.2 hdone⟩
    rw [if_neg hdone]
    have hw13 : Within d a b data partial1.1 := hw1.trans (hw2.trans hw3.1)
    generalize hd3 : partial1.1 = data3 at hw13
    have hb3 : b ≤ data3.length := by rw [hw13.1]; exact hb
    have hlow3 : LowerBound less d data3 a b := hlow.within hw13
    by_cases heq : (decide (0 < a) && !lessAt less data3 (a - 1) pivot) = true
    · rw [if_pos heq]
      simp only [Bool.and_eq_true, decide_eq_true_eq, Bool.not_eq_true'] at heq
      obtain ⟨ha0, hle⟩ := heq
      rw [lessAt_eq less d data3 _ _ (by omega) (by omega)] at hle
      obtain ⟨e1, e2, e3, e4, e5⟩ := partitionEqual_func_spec less hw d data3 a b pivot hb3 hpb
      generalize hd4 : (partitionEqual_func less data3 a b pivot).1 = data4 at e3 e4 e5
      generalize hmid : (partitionEqual_func less data3 a b pivot).2 = mid at e1 e2 e4 e5
      have hb4 : b ≤ data4.length := by rw [e3.1]; exact hb3
      have hlow4 : LowerBound less d data4 a b := hlow3.within e3
      have hprev : nth d data4 (a - 1) = nth d data3 (a - 1) := e3.2.1 (a - 1) (by omega)
      have hlowm : LowerBound less d data4 mid b := by
        right
        intro k hk1 hk2
        have hpk := e5 k hk1 hk2
        have hpm := e4 (mid - 1) (by omega) (by omega)
        cases hx : less (nth d data4 k) (nth d data4 (mid - 1))
        · rfl
        · rw [hw.2.1 _ _ _ hpk hx] at hpm
          cases hpm
      obtain ⟨out, o1, o2, o3⟩ := ih data4 mid b limit1 wb wp e2 hb4 hlowm (by omega)
      refine ⟨out, o1, hw13.trans (e3.trans (o2.mono (by omega) (Nat.le_refl _))), ?_⟩
      apply SortedOn.after_equal hw (nth d data3 pivot) o3
      · intro k hk1 hk2
        rw [o2.2.1 k (by omega)]
        exact e4 k hk1 hk2
      · intro k hk1 hk2
        rw [o2.2.1 k (by omega)]
        rcases hlow4 with h0 | hlow4
        · omega
        · have := hlow4 k hk1 (by omega)
          rw [hprev] at this
          exact hw.2.2 _ _ _ this hle
      · exact o2.forall (fun x => less (nth d data3 pivot) x = true) e5
    rw [if_neg heq]
    obtain ⟨p1, p2, p3, p4, p5, p6⟩ := partition_func_spec less d data3 a b pivot hb3 hpb
    generalize hd4 : (partition_func less data3 a b pivot).1 = data4 at p3 p4 p5 p6
    generalize hmid : (partition_func less data3 a b pivot).2.1 = mid at p1 p2 p4 p5 p6
    generalize (partition_func less data3 a b pivot).2.2 = wp1
    generalize hpvv : nth d data3 pivot = pv at p4 p5 p6
    have hb4 : b ≤ data4.length := by rw [p3.1]; exact hb3
    have hlow4 : LowerBound less d data4 a b := hlow3.within p3
    by_cases hside : mid - a < b - mid
    · rw [if_pos hside]
      obtain ⟨out1, o1, o2, o3⟩ := ih data4 a mid limit1 true true p1 (by omega)
        (hlow4.sub (by omega)) (by omega)
      rw [o1]
      simp only []
      have hb5 : b ≤ out1.length := by rw [o2.1]; exact hb4
      have hm5 : nth d out1 mid = pv := by rw [o2.2.1 mid (by omega)]; exact p4
      have hlow5 : LowerBound less d out1 (mid + 1) b := by
        right
        intro k hk1 hk2
        rw [Nat.add_sub_cancel, hm5, o2.2.1 k (by omega)]
        exact p6 k (by omega) hk2
      obtain ⟨out2, q1, q2, q3⟩ := ih out1 (mid + 1) b limit1
        (decide ((b - a) / 8 ≤ mid - a)) wp1 (by omega) hb5 hlow5 (by omega)
      refine ⟨out2, q1, hw13.trans (p3.trans ((o2.mono (Nat.le_refl _) (by omega)).trans
        (q2.mono (by omega) (Nat.le_refl _)))), ?_⟩
      apply SortedOn.around hw pv (o3.within_apart q2 (Or.inl (by omega))) q3
        (by rw [q2.2.1 mid (by omega)]; exact hm5)
      · intro k hk1 hk2
        rw [q2.2.1 k (by omega)]
        exact o2.forall (fun x => less x pv = true) p5 k hk1 hk2
      · intro k hk1 hk2
        refine q2.forall (fun x => less x pv = false) ?_ k (by omega) hk2
        intro k' hk1' hk2'
        rw [o2.2.1 k' (by omega)]
        exact p6 k' (by omega) hk2'
    · rw [if_neg hside]
      have hlow4r : LowerBound less d data4 (mid + 1) b := by
        right
        intro k hk1 hk2
        rw [Nat.add_sub_cancel, p4]
        exact p6 k (by omega) hk2
      obtain ⟨out1, o1, o2, o3⟩ := ih data4 (mid + 1) b limit1 true true (by omega) hb4
        hlow4r (by omega)
      rw [o1]
      simp only []
      have hb5 : b ≤ out1.length := by rw [o2.1]; exact hb4
      have hm5 : nth d out1 mid = pv := by rw [o2.2.1 mid (by omega)]; exact p4
      have hlow5 : LowerBound less d out1 a mid :=
        (hlow4.within (o2.mono (by omega) (Nat.le_refl _))).sub (by omega)
      obtain ⟨out2, q1, q2, q3⟩ := ih out1 a mid limit1
        (decide ((b - a) / 8 ≤ b - mid)) wp1 p1 (by omega) hlow5 (by omega)
      refine ⟨out2, q1, hw13.trans (p3.trans ((o2.mono (by omega) (Nat.le_refl _)).trans
        (q2.mono (Nat.le_refl _) (by omega)))), ?_⟩
      apply SortedOn.around hw pv q3 (o3.within_apart q2 (Or.inr (by omega)))
        (by rw [q2.2.1 mid (by omega)]; exact hm5)
      · intro k hk1 hk2
        refine q2.forall (fun x => less x pv = true) ?_ k hk1 hk2
        intro k' hk1' hk2'
        rw [o2.2.1 k' (by omega)]
        exact p5 k' hk1' hk2'
      · intro k hk1 hk2
        rw [q2.2.1 k (by omega)]
        exact o2.forall (fun x => less x pv = false)
          (fun k' h1' h2' => p6 k' (by omega) h2') k (by omega) hk2

/-! ### `sort.Slice` under a map

The sort looks at the elements through `less` only, so it commutes with a map `f` when
`less` on the images is what the sort of the originals is given. -/

theorem lessAt_map {α β : Type} (less : α → α → Bool) (f : β → α) (l : List β) (i j : Nat) :
    lessAt less (l.map f) i j = lessAt (fun x y => less (f x) (f y)) l i j := by
  unfold lessAt
  simp only [List.getElem?_map]
  cases l[i]? <;> cases l[j]? <;> rfl

theorem swapAt_map {α β : Type} (f : β → α) (l : List β) (i j : Nat) :
    swapAt (l.map f) i j = (swapAt l i j).map f := by
  unfold swapAt
  simp only [List.getElem?_map]
  cases l[i]? <;> cases l[j]? <;> simp [List.map_set]

theorem insertionShift_map {α β : Type} (less : α → α → Bool) (f : β → α) (a : Nat) :
    ∀ (j : Nat) (l : List β), insertionShift less a j (l.map f) =
      (insertionShift (fun x y => less (f x) (f y)) a j l).map f := by
  intro j
  induction j with
  | zero =>
    intro l
    rfl
  | succ j ih =>
    intro l
    unfold insertionShift
    rw [lessAt_map, swapAt_map, ih]
    split <;> rfl

theorem foldl_map_comm {α β γ : Type} (f : β → α) (p : List α → γ → List α)
    (q : List β → γ → List β) (h : ∀ l c, p (l.map f) c = (q l c).map f) :
    ∀ (cs : List γ) (l : List β), cs.foldl p (l.map f) = (cs.foldl q l).map f := by
  intro cs
  induction cs with
  | nil =>
    intro l
    rfl
  | cons c cs ih =>
    intro l
    rw [List.foldl_cons, List.foldl_cons, h, ih]

theorem insertionSort_func_map {α β : Type} (less : α → α → Bool) (f : β → α) (l : List β)
    (a b : Nat) : insertionSort_func less (l.map f) a b =
      (insertionSort_func (fun x y => less (f x) (f y)) l a b).map f := by
  unfold insertionSort_func
  exact foldl_map_comm f _ _ (fun l c => insertionShift_map less f a c l) _ l

theorem siftDownLoop_map {α β : Type} (less : α → α → Bool) (f : β → α) (hi first : Nat) :
    ∀ (fuel root : Nat) (l : List β), siftDownLoop less hi first fuel root (l.map f) =
      (siftDownLoop (fun x y => less (f x) (f y)) hi first fuel root l).map f := by
  intro fuel
  induction fuel with
  | zero =>
    intro root l
    rfl
  | succ fuel ih =>
    intro root l
    unfold siftDownLoop
    simp only [lessAt_map, swapAt_map, ih]
    split_ifs <;> rfl

theorem siftDown_func_map {α β : Type} (less : α → α → Bool) (f : β → α) (l : List β)
    (lo hi first : Nat) : siftDown_func less (l.map f) lo hi first =
      (siftDown_func (fun x y => less (f x) (f y)) l lo hi first).map f :=
  siftDownLoop_map less f hi first hi lo l

theorem heapSort_func_map {α β : Type} (less : α → α → Bool) (f : β → α) (l : List β)
    (a b : Nat) : heapSort_func less (l.map f) a b =
      (heapSort_func (fun x y => less (f x) (f y)) l a b).map f := by
  unfold heapSort_func
  simp only []
  rw [foldl_map_comm f (fun d i => siftDown_func less d i (b - a) a)
    (fun d i => siftDown_func (fun x y => less (f x) (f y)) d i (b - a) a)
    (fun l c => siftDown_func_map less f l c (b - a) a)]
  exact foldl_map_comm f _ _
    (fun l c => by simp only [swapAt_map]; exact siftDown_func_map less f _ 0 c a) _ _

theorem partitionLoop_map {α β : Type} (less : α → α → Bool) (f : β → α) (a : Nat) :
    ∀ (fuel : Nat) (l : List β) (i j : Nat), partitionLoop less a fuel (l.map f) i j =
      ((partitionLoop (fun x y => less (f x) (f y)) a fuel l i j).1.map f,
        (partitionLoop (fun x y => less (f x) (f y)) a fuel l i j).2) := by
  intro fuel
  induction fuel with
  | zero =>
    intro l i j
    rfl
  | succ fuel ih =>
    intro l i j
    unfold partitionLoop
    simp only [lessAt_map, swapAt_map, ih]
    split <;> rfl

theorem partition_func_map {α β : Type} (less : α → α → Bool) (f : β → α) (l : List β)
    (a b pivot : Nat) : partition_func less (l.map f) a b pivot =
      ((partition_func (fun x y => less (f x) (f y)) l a b pivot).1.map f,
        (partition_func (fun x y => less (f x) (f y)) l a b pivot).2) := by
  unfold partition_func
  simp only [lessAt_map, swapAt_map, partitionLoop_map]
  split <;> rfl

theorem partitionEqualLoop_map {α β : Type} (less : α → α → Bool) (f : β → α) (a : Nat) :
    ∀ (fuel : Nat) (l : List β) (i j : Nat), partitionEqualLoop less a fuel (l.map f) i j =
      ((partitionEqualLoop (fun x y => less (f x) (f y)) a fuel l i j).1.map f,
        (partitionEqualLoop (fun x y => less (f x) (f y)) a fuel l i j).2) := by
  intro fuel
  induction fuel with
  | zero =>
    intro l i j
    rfl
  | succ fuel ih =>
    intro l i j
    unfold partitionEqualLoop
    simp only [lessAt_map, swapAt_map, ih]
    split <;> rfl

theorem partitionEqual_func_map {α β : Type} (less : α → α → Bool) (f : β → α) (l : List β)
    (a b pivot : Nat) : partitionEqual_func less (l.map f) a b pivot =
      ((partitionEqual_func (fun x y => less (f x) (f y)) l a b pivot).1.map f,
        (partitionEqual_func (fun x y => less (f x) (f y)) l a b pivot).2) := by
  unfold partitionEqual_func
  rw [swapAt_map, partitionEqualLoop_map]

theorem shiftSmaller_map {α β : Type} (less : α → α → Bool) (f : β → α) :
    ∀ (j : Nat) (l : List β), shiftSmaller less j (l.map f) =
      (shiftSmaller (fun x y => less (f x) (f y)) j l).map f := by
  intro j
  induction j with
  | zero =>
    intro l
    rfl
  | succ j ih =>
    intro l
    unfold shiftSmaller
    rw [lessAt_map, swapAt_map, ih]
    split <;> rfl

theorem shiftGreater_map {α β : Type} (less : α → α → Bool) (f : β → α) :
    ∀ (n j : Nat) (l : List β), shiftGreater less n j (l.map f) =
      (shiftGreater (fun x y => less (f x) (f y)) n j l).map f := by
  intro n
  induction n with
  | zero =>
    intro j l
    rfl
  | succ n ih =>
    intro j l
    unfold shiftGreater
    rw [lessAt_map, swapAt_map, ih]
    split <;> rfl

theorem partialInsertionSteps_map {α β : Type} (less : α → α → Bool) (f : β → α) (a b : Nat) :
    ∀ (steps i : Nat) (l : List β), partialInsertionSteps less a b steps i (l.map f) =
      ((partialInsertionSteps (fun x y => less (f x) (f y)) a b steps i l).1.map f,
        (partialInsertionSteps (fun x y => less (f x) (f y)) a b steps i l).2) := by
  intro steps
  induction steps with
  | zero =>
    intro i l
    rfl
  | succ steps ih =>
    intro i l
    unfold partialInsertionSteps
    simp only [lessAt_map, swapAt_map]
    split
    · rfl
    · split
      · rfl
      · have e2 : ∀ (c : Prop) [Decidable c] (n : Nat) (x : List β),
            (if c then shiftSmaller less n (x.map f) else x.map f) =
              (if c then shiftSmaller (fun x y => less (f x) (f y)) n x else x).map f := by
          intro c _ n x
          split
          · exact shiftSmaller_map less f n x
          · rfl
        have e3 : ∀ (c : Prop) [Decidable c] (n j : Nat) (x : List β),
            (if c then shiftGreater less n j (x.map f) else x.map f) =
              (if c then shiftGreater (fun x y => less (f x) (f y)) n j x else x).map f := by
          intro c _ n j x
          split
          · exact shiftGreater_map less f n j x
          · rfl
        rw [e2, e3, ih]

theorem partialInsertionSort_func_map {α β : Type} (less : α → α → Bool) (f : β → α)
    (l : List β) (a b : Nat) : partialInsertionSort_func less (l.map f) a b =
      ((partialInsertionSort_func (fun x y => less (f x) (f y)) l a b).1.map f,
        (partialInsertionSort_func (fun x y => less (f x) (f y)) l a b).2) :=
  partialInsertionSteps_map less f a b 5 (a + 1) l

theorem breakPatterns_func_map {α β : Type} (next : Nat → Nat) (f : β → α) (l : List β)
    (a b : Nat) :
    breakPatterns_func next (l.map f) a b = (breakPatterns_func next l a b).map f := by
  unfold breakPatterns_func
  simp only [List.foldl_cons, List.foldl_nil, breakPatternsStep, swapAt_map]
  split <;> rfl

theorem order2_func_map {α β : Type} (less : α → α → Bool) (f : β → α) (l : List β)
    (a b swaps : Nat) : order2_func less (l.map f) a b swaps =
      order2_func (fun x y => less (f x) (f y)) l a b swaps := by
  unfold order2_func
  rw [lessAt_map]

theorem median_func_map {α β : Type} (less : α → α → Bool) (f : β → α) (l : List β)
    (a b c swaps : Nat) : median_func less (l.map f) a b c swaps =
      median_func (fun x y => less (f x) (f y)) l a b c swaps := by
  unfold median_func
  simp only [order2_func_map]

theorem choosePivot_func_map {α β : Type} (less : α → α → Bool) (f : β → α) (l : List β)
    (a b : Nat) : choosePivot_func less (l.map f) a b =
      choosePivot_func (fun x y => less (f x) (f y)) l a b := by
  unfold choosePivot_func medianAdjacent_func
  simp only [median_func_map]

theorem reverseLoop_map {α β : Type} (f : β → α) :
    ∀ (n i j : Nat) (l : List β), reverseLoop n i j (l.map f) = (reverseLoop n i j l).map f := by
  intro n
  induction n with
  | zero =>
    intro i j l
    rfl
  | succ n ih =>
    intro i j l
    unfold reverseLoop
    rw [swapAt_map, ih]
    split <;> rfl

theorem reverseRange_func_map {α β : Type} (f : β → α) (l : List β) (a b : Nat) :
    reverseRange_func (l.map f) a b = (reverseRange_func l a b).map f :=
  reverseLoop_map f _ _ _ l

theorem pdqsort_func_map {α β : Type} (next : Nat → Nat) (less : α → α → Bool) (f : β → α) :
    ∀ (fuel : Nat) (l : List β) (a b limit : Nat) (wb wp : Bool),
      pdqsort_func next less fuel (l.map f) a b limit wb wp =
        (pdqsort_func next (fun x y => less (f x) (f y)) fuel l a b limit wb wp).map
          (List.map f) := by
  intro fuel
  induction fuel with
  | zero =>
    intro l a b limit wb wp
    rfl
  | succ fuel ih =>
    intro l a b limit wb wp
    have m1 := insertionSort_func_map less f
    have m2 := heapSort_func_map less f
    have m3 := choosePivot_func_map less f
    have m4 := partialInsertionSort_func_map less f
    have m5 := lessAt_map less f
    have m6 := partitionEqual_func_map less f
    have m7 := partition_func_map less f
    generalize hg : (fun x y => less (f x) (f y)) = g at ih m1 m2 m3 m4 m5 m6 m7 ⊢
    rw [pdqsort_func, pdqsort_func]
    conv_lhs => simp only []
    conv_rhs =>
      arg 2
      simp only []
    by_cases h12 : b - a ≤ 12
    · rw [if_pos h12, if_pos h12, m1]
      rfl
    rw [if_neg h12, if_neg h12]
    by_cases hlim : limit = 0
    · rw [if_pos hlim, if_pos hlim, m2]
      rfl
    rw [if_neg hlim, if_neg hlim]
    have e1 : (if (!wb) = true then breakPatterns_func next (l.map f) a b else l.map f) =
        (if (!wb) = true then breakPatterns_func next l a b else l).map f := by
      split
      · exact breakPatterns_func_map next f l a b
      · rfl
    rw [e1]
    generalize (if (!wb) = true then breakPatterns_func next l a b else l) = l1
    generalize (if (!wb) = true then limit - 1 else limit) = limit1
    rw [m3]
    generalize choosePivot_func g l1 a b = choice
    have e2 : (if choice.2 = SortedHint.decreasingHint then reverseRange_func (l1.map f) a b
        else l1.map f) = (if choice.2 = SortedHint.decreasingHint then reverseRange_func l1 a b
        else l1).map f := by
      split
      · exact reverseRange_func_map f l1 a b
      · rfl
    rw [e2]
    generalize (if choice.2 = SortedHint.decreasingHint then reverseRange_func l1 a b
      else l1) = l2
    generalize (if choice.2 = SortedHint.decreasingHint then b - 1 - (choice.1 - a)
      else choice.1) = pivot
    generalize (if choice.2 = SortedHint.decreasingHint then SortedHint.increasingHint
      else choice.2) = hint
    have e3 : (if (wb && wp && decide (hint = SortedHint.increasingHint)) = true
        then partialInsertionSort_func less (l2.map f) a b else (l2.map f, false)) =
        ((if (wb && wp && decide (hint = SortedHint.increasingHint)) = true
          then partialInsertionSort_func g l2 a b else (l2, false)).1.map f,
         (if (wb && wp && decide (hint = SortedHint.increasingHint)) = true
          then partialInsertionSort_func g l2 a b else (l2, false)).2) := by
      split
      · exact m4 l2 a b
      · rfl
    rw [e3]
    generalize (if (wb && wp && decide (hint = SortedHint.increasingHint)) = true
      then partialInsertionSort_func g l2 a b else (l2, false)) = partial1
    simp only []
    by_cases hdone : partial1.2 = true
    · rw [if_pos hdone, if_pos hdone]
      rfl
    rw [if_neg hdone, if_neg hdone, m5]
    by_cases heq : (decide (0 < a) && !lessAt g partial1.1 (a - 1) pivot) = true
    · rw [if_pos heq, if_pos heq, m6]
      exact ih _ _ _ _ _ _
    rw [if_neg heq, if_neg heq, m7]
    simp only []
    by_cases hside : (partition_func g partial1.1 a b pivot).2.1 - a
        < b - (partition_func g partial1.1 a b pivot).2.1
    · rw [if_pos hside, if_pos hside, ih]
      cases pdqsort_func next g fuel (partition_func g partial1.1 a b pivot).1 a
        (partition_func g partial1.1 a b pivot).2.1 limit1 true true
      · rfl
      · exact ih _ _ _ _ _ _
    · rw [if_neg hside, if_neg hside, ih]
      cases pdqsort_func next g fuel (partition_func g partial1.1 a b pivot).1
        ((partition_func g partial1.1 a b pivot).2.1 + 1) b limit1 true true
      · rfl
      · exact ih _ _ _ _ _ _

theorem sortSlice_map {α β : Type} (next : Nat → Nat) (less : α → α → Bool) (f : β → α)
    (l : List β) :
    sortSlice next less (l.map f) = (sortSlice next (fun x y => less (f x) (f y)) l).map f := by
  unfold sortSlice
  rw [pdqsort_func_map, List.length_map]
  cases pdqsort_func next (fun x y => less (f x) (f y)) (l.length + 1) l 0 l.length
    (bitsLen l.length) true true <;> rfl

/-- Go `sort.Slice` leaves the slice in order when `less` is a strict weak order. -/
theorem sortSlice_sorted {α : Type} (next : Nat → Nat) (less : α → α → Bool)
    (hw : StrictWeak less) (data : List α) :
    (sortSlice next less data).Pairwise (fun x y => less y x = false) := by
  cases data with
  | nil =>
    have h := sortSlice_perm next less ([] : List α)
    rw [List.perm_nil] at h
    rw [h]
    exact List.Pairwise.nil
  | cons d rest =>
    obtain ⟨out, o1, o2, o3⟩ := pdqsort_func_spec next less hw d ((d :: rest).length + 1)
      (d :: rest) 0 (d :: rest).length (bitsLen (d :: rest).length) true true
      (Nat.zero_le _) (Nat.le_refl _) (Or.inl rfl) (by omega)
    unfold sortSlice
    rw [o1]
    simp only []
    rw [List.pairwise_iff_getElem]
    intro i j hi hj hij
    have h := o3 i j (Nat.zero_le _) hij (by rw [← o2.1]; exact hj)
    have ei := getElem?_nth d out i hi
    have ej := getElem?_nth d out j hj
    rw [List.getElem?_eq_getElem hi] at ei
    rw [List.getElem?_eq_getElem hj] at ej
    rw [Option.some.inj ei, Option.some.inj ej]
    exact h

/-- Go `sort.Slice` leaves the slice in order when `less` is a strict weak order on the
elements of the slice. -/
theorem sortSlice_sorted_of_mem {α : Type} (next : Nat → Nat) (less : α → α → Bool)
    (data : List α)
    (h1 : ∀ x ∈ data, less x x = false)
    (h2 : ∀ x ∈ data, ∀ y ∈ data, ∀ z ∈ data,
      less x y = true → less y z = true → less x z = true)
    (h3 : ∀ x ∈ data, ∀ y ∈ data, ∀ z ∈ data,
      less x y = false → less y z = false → less x z = false) :
    (sortSlice next less data).Pairwise (fun x y => less y x = false) := by
  have hw : StrictWeak (fun (x y : { x // x ∈ data }) => less x.1 y.1) :=
    ⟨fun x => h1 x.1 x.2, fun x y z => h2 x.1 x.2 y.1 y.2 z.1 z.2,
      fun x y z => h3 x.1 x.2 y.1 y.2 z.1 z.2⟩
  have hs := sortSlice_sorted next _ hw data.attach
  have e := sortSlice_map next less Subtype.val data.attach
  rw [List.attach_map_subtype_val] at e
  rw [e, List.pairwise_map]
  exact hs

theorem recordingLess_false_iff (a b : Recording) (hab : StartsAgree a b) :
    recordingLess a b = false ↔ ¬ keyLt a b := by
  rw [← recordingLess_iff a b hab]
  cases recordingLess a b <;> simp

/-- The sort signal leaves the catalog in non-decreasing order of the key
`(start, path)` when Go orders the starts of its entries as the wall clock does. -/
theorem sortRecordings_sorted (next : Nat → Nat) (recordings : List Recording)
    (hagree : ∀ a ∈ recordings, ∀ b ∈ recordings, StartsAgree a b) :
    (sortRecordings next recordings).Pairwise (fun a b => ¬ keyLt b a) := by
  have hs := sortSlice_sorted_of_mem next recordingLess recordings
    (fun x hx => (recordingLess_false_iff x x (hagree x hx x hx)).mpr (keyLt_irrefl x))
    (fun x hx y hy z hz hxy hyz =>
      (recordingLess_iff x z (hagree x hx z hz)).mpr
        (keyLt_trans ((recordingLess_iff x y (hagree x hx y hy)).mp hxy)
          ((recordingLess_iff y z (hagree y hy z hz)).mp hyz)))
    (fun x hx y hy z hz hxy hyz =>
      (recordingLess_false_iff x z (hagree x hx z hz)).mpr
        (keyLe_trans ((recordingLess_false_iff y z (hagree y hy z hz)).mp hyz)
          ((recordingLess_false_iff x y (hagree x hx y hy)).mp hxy)))
  have hperm := sortRecordings_perm next recordings
  unfold sortRecordings at hperm ⊢
  refine List.Pairwise.imp_of_mem ?_ hs
  intro a b ha hb h
  exact (recordingLess_false_iff b a
    (hagree b ((List.Perm.mem_iff hperm).mp hb) a ((List.Perm.mem_iff hperm).mp ha))).mp h

/-- Go orders the starts of two recordings as the wall clock does when one of them
carries no monotonic reading. -/
theorem startsAgree_of_wall (a b : Recording) (h : a.StartMono = none ∨ b.StartMono = none) :
    StartsAgree a b := by
  unfold StartsAgree startBefore startAfter
  rcases h with h | h
  · rw [h]
    exact ⟨rfl, rfl⟩
  · rw [h]
    cases a.StartMono <;> exact ⟨rfl, rfl⟩

/-! ### `sort.Slice` returns, whatever `less` is -/

theorem partitionEqual_func_bounds {α : Type} (less : α → α → Bool) (d : α) (data : List α)
    (a b pivot : Nat) (hb : b ≤ data.length) (hp : a ≤ pivot ∧ pivot < b) :
    a < (partitionEqual_func less data a b pivot).2 ∧
    (partitionEqual_func less data a b pivot).2 ≤ b := by
  have hlen1 : (swapAt data a pivot).length = data.length := length_swapAt _ _ _
  unfold partitionEqual_func
  rw [partitionEqualLoop_eq]
  simp only []
  generalize hd1 : swapAt data a pivot = data1 at hlen1
  have hleft : ∀ (x : List α) k, a < x.length → k < x.length →
      (fun (y : List α) m => !lessAt less y a m) x k
        = (fun u v => !less v u) (nth d x k) (nth d x a) := by
    intro x k h1 h2
    simp only []
    rw [lessAt_eq less d x a k h1 h2]
  obtain ⟨r1, r2, r3, _, _, _⟩ := splitLoop_spec (fun x k => !lessAt less x a k)
    (fun u v => !less v u) d a b hleft (b - 1 + 1 - (a + 1)) data1 (a + 1) (b - 1)
    (Nat.le_refl _) (Nat.le_refl _) (by omega) (by omega) (by omega)
    (fun k h1 h2 => by omega) (fun k h1 h2 => by omega)
  generalize splitLoop (fun x k => !lessAt less x a k) (b - 1 + 1 - (a + 1)) data1 (a + 1)
    (b - 1) = r at r1 r2 r3
  exact ⟨by omega, by omega⟩

/-- Go `pdqsort_func` returns whatever `less` is: every round goes on with a shorter
range, so the depth stays below the length of the range plus one. -/
theorem pdqsort_func_returns {α : Type} (next : Nat → Nat) (less : α → α → Bool) (d : α) :
    ∀ (fuel : Nat) (data : List α) (a b limit : Nat) (wb wp : Bool),
      a ≤ b → b ≤ data.length → b - a < fuel →
      ∃ out, pdqsort_func next less fuel data a b limit wb wp = some out := by
  intro fuel
  induction fuel with
  | zero =>
    intro data a b limit wb wp _ _ hf
    omega
  | succ fuel ih =>
    intro data a b limit wb wp hab hb hf
    unfold pdqsort_func
    simp only []
    by_cases h12 : b - a ≤ 12
    · rw [if_pos h12]
      exact ⟨_, rfl⟩
    rw [if_neg h12]
    by_cases hlim : limit = 0
    · rw [if_pos hlim]
      exact ⟨_, rfl⟩
    rw [if_neg hlim]
    have hw1 : (if (!wb) = true then breakPatterns_func next data a b else data).length
        = data.length := by
      split
      · exact (breakPatterns_func_perm next data a b).length_eq
      · rfl
    generalize (if (!wb) = true then breakPatterns_func next data a b else data) = data1
      at hw1
    generalize (if (!wb) = true then limit - 1 else limit) = limit1
    have hcb := choosePivot_func_bounds less data1 a b (by omega)
    generalize choosePivot_func less data1 a b = choice at hcb
    have hw2 : (if choice.2 = SortedHint.decreasingHint
        then reverseRange_func data1 a b else data1).length = data1.length := by
      split
      · exact (reverseRange_func_perm data1 a b).length_eq
      · rfl
    generalize (if choice.2 = SortedHint.decreasingHint then reverseRange_func data1 a b
      else data1) = data2 at hw2
    have hpb : a ≤ (if choice.2 = SortedHint.decreasingHint then b - 1 - (choice.1 - a)
        else choice.1) ∧ (if choice.2 = SortedHint.decreasingHint then b - 1 - (choice.1 - a)
        else choice.1) < b := by
      split <;> omega
    generalize (if choice.2 = SortedHint.decreasingHint then b - 1 - (choice.1 - a)
      else choice.1) = pivot at hpb
    generalize (if choice.2 = SortedHint.decreasingHint then SortedHint.increasingHint
      else choice.2) = hint
    have hw3 : (if (wb && wp && decide (hint = SortedHint.increasingHint)) = true
          then partialInsertionSort_func less data2 a b else (data2, false)).1.length
        = data2.length := by
      split
      · exact (partialInsertionSort_func_perm less data2 a b).length_eq
      · rfl
    generalize (if (wb && wp && decide (hint = SortedHint.increasingHint)) = true
      then partialInsertionSort_func less data2 a b else (data2, false)) = partial1 at hw3
    by_cases hdone : partial1.2 = true
    · rw [if_pos hdone]
      exact ⟨_, rfl⟩
    rw [if_neg hdone]
    generalize partial1.1 = data3 at hw3
    have hb3 : b ≤ data3.length := by omega
    by_cases heq : (decide (0 < a) && !lessAt less data3 (a - 1) pivot) = true
    · rw [if_pos heq]
      obtain ⟨e1, e2⟩ := partitionEqual_func_bounds less d data3 a b pivot hb3 hpb
      have e3 := (partitionEqual_func_perm less data3 a b pivot).length_eq
      exact ih _ _ _ _ _ _ e2 (by omega) (by omega)
    rw [if_neg heq]
    obtain ⟨p1, p2, _, _, _, _⟩ := partition_func_spec less d data3 a b pivot hb3 hpb
    have p3 := (partition_func_perm less data3 a b pivot).length_eq
    generalize (partition_func less data3 a b pivot).1 = data4 at p3
    generalize (partition_func less data3 a b pivot).2.1 = mid at p1 p2
    generalize (partition_func less data3 a b pivot).2.2 = wp1
    by_cases hside : mid - a < b - mid
    · rw [if_pos hside]
      obtain ⟨out1, o1⟩ := ih data4 a mid limit1 true true p1 (by omega) (by omega)
      rw [o1]
      simp only []
      have o2 := (pdqsort_func_perm next less fuel _ _ _ _ _ _ _ o1).length_eq
      exact ih _ _ _ _ _ _ (by omega) (by omega) (by omega)
    · rw [if_neg hside]
      obtain ⟨out1, o1⟩ := ih data4 (mid + 1) b limit1 true true (by omega) (by omega)
        (by omega)
      rw [o1]
      simp only []
      have o2 := (pdqsort_func_perm next less fuel _ _ _ _ _ _ _ o1).length_eq
      exact ih _ _ _ _ _ _ p1 (by omega) (by omega)

/-- Go `sort.Slice` returns whatever `less` is: the depth that `sortSlice` allows is
enough. -/
theorem sortSlice_returns {α : Type} (next : Nat → Nat) (less : α → α → Bool)
    (data : List α) :
    pdqsort_func next less (data.length + 1) data 0 data.length (bitsLen data.length)
      true true = some (sortSlice next less data) := by
  have h : ∃ out, pdqsort_func next less (data.length + 1) data 0 data.length
      (bitsLen data.length) true true = some out := by
    cases data with
    | nil => exact ⟨_, rfl⟩
    | cons d rest =>
      exact pdqsort_func_returns next less d _ _ _ _ _ _ _ (Nat.zero_le _) (Nat.le_refl _)
        (by omega)
  obtain ⟨out, h⟩ := h
  unfold sortSlice
  rw [h]

/-! ### The rounds that the loops are given are enough

A loop that is given `fuel` rounds, with `fuel` at least the number of rounds that
are left, does what it does when given one round more. -/

theorem siftDownLoop_fuel {α : Type} (less : α → α → Bool) (hi first : Nat) :
    ∀ (fuel root : Nat) (data : List α), hi ≤ fuel + root →
      siftDownLoop less hi first (fuel + 1) root data
        = siftDownLoop less hi first fuel root data := by
  intro fuel
  induction fuel with
  | zero =>
    intro root data h
    unfold siftDownLoop
    rw [if_pos (by omega)]
  | succ fuel ih =>
    intro root data h
    rw [siftDownLoop, siftDownLoop]
    by_cases hleaf : hi ≤ 2 * root + 1
    · rw [if_pos hleaf, if_pos hleaf]
    · rw [if_neg hleaf, if_neg hleaf]
      simp only []
      have hc : root + 1 ≤ (if (decide (2 * root + 1 + 1 < hi)
          && lessAt less data (first + (2 * root + 1)) (first + (2 * root + 1) + 1)) = true
          then 2 * root + 1 + 1 else 2 * root + 1) := by
        split <;> omega
      generalize (if (decide (2 * root + 1 + 1 < hi)
          && lessAt less data (first + (2 * root + 1)) (first + (2 * root + 1) + 1)) = true
          then 2 * root + 1 + 1 else 2 * root + 1) = child at hc
      split
      · rfl
      · exact ih _ _ (by omega)

theorem partitionLoop_fuel {α : Type} (less : α → α → Bool) (a : Nat) :
    ∀ (fuel : Nat) (data : List α) (i j : Nat), j + 1 - i ≤ fuel → 1 ≤ i →
      partitionLoop less a (fuel + 1) data i j = partitionLoop less a fuel data i j := by
  intro fuel
  induction fuel with
  | zero =>
    intro data i j h _
    have e : j + 1 - i = 0 := by omega
    rw [partitionLoop, partitionLoop]
    simp only [e, scanUp, scanDown]
    rw [if_pos (by omega)]
  | succ fuel ih =>
    intro data i j h hi1
    conv_lhs => rw [partitionLoop]
    conv_rhs => rw [partitionLoop]
    obtain ⟨u1, u2, _, _⟩ := scanUp_spec (fun k => lessAt less data k a) (j + 1 - i) i
    generalize scanUp (fun k => lessAt less data k a) (j + 1 - i) i = i1 at u1 u2 ⊢
    obtain ⟨v1, v2, _, _⟩ := scanDown_spec (fun k => !lessAt less data k a) (j + 1 - i1) j
      (by omega)
    generalize scanDown (fun k => !lessAt less data k a) (j + 1 - i1) j = j1 at v1 v2 ⊢
    split
    · rfl
    · exact ih _ _ _ (by omega) (by omega)

theorem partitionEqualLoop_fuel {α : Type} (less : α → α → Bool) (a : Nat) :
    ∀ (fuel : Nat) (data : List α) (i j : Nat), j + 1 - i ≤ fuel → 1 ≤ i →
      partitionEqualLoop less a (fuel + 1) data i j
        = partitionEqualLoop less a fuel data i j := by
  intro fuel
  induction fuel with
  | zero =>
    intro data i j h _
    have e : j + 1 - i = 0 := by omega
    rw [partitionEqualLoop, partitionEqualLoop]
    simp only [e, scanUp, scanDown]
    rw [if_pos (by omega)]
  | succ fuel ih =>
    intro data i j h hi1
    conv_lhs => rw [partitionEqualLoop]
    conv_rhs => rw [partitionEqualLoop]
    obtain ⟨u1, u2, _, _⟩ := scanUp_spec (fun k => !lessAt less data a k) (j + 1 - i) i
    generalize scanUp (fun k => !lessAt less data a k) (j + 1 - i) i = i1 at u1 u2 ⊢
    obtain ⟨v1, v2, _, _⟩ := scanDown_spec (fun k => lessAt less data a k) (j + 1 - i1) j
      (by omega)
    generalize scanDown (fun k => lessAt less data a k) (j + 1 - i1) j = j1 at v1 v2 ⊢
    split
    · rfl
    · exact ih _ _ _ (by omega) (by omega)

/-- More depth than `pdqsort_func` needs changes nothing. -/
theorem pdqsort_func_fuel {α : Type} (next : Nat → Nat) (less : α → α → Bool) :
    ∀ (fuel : Nat) (data : List α) (a b limit : Nat) (wb wp : Bool) (out : List α),
      pdqsort_func next less fuel data a b limit wb wp = some out →
      pdqsort_func next less (fuel + 1) data a b limit wb wp = some out := by
  intro fuel
  induction fuel with
  | zero =>
    intro data a b limit wb wp out h
    cases h
  | succ fuel ih =>
    intro data a b limit wb wp out h
    rw [pdqsort_func] at h
    rw [pdqsort_func]
    simp only [] at h ⊢
    by_cases h12 : b - a ≤ 12
    · rw [if_pos h12] at h ⊢
      exact h
    rw [if_neg h12] at h ⊢
    by_cases hlim : limit = 0
    · rw [if_pos hlim] at h ⊢
      exact h
    rw [if_neg hlim] at h ⊢
    generalize (if (!wb) = true then breakPatterns_func next data a b else data) = data1
      at h ⊢
    generalize (if (!wb) = true then limit - 1 else limit) = limit1 at h ⊢
    generalize choosePivot_func less data1 a b = choice at h ⊢
    generalize (if choice.2 = SortedHint.decreasingHint then reverseRange_func data1 a b
      else data1) = data2 at h ⊢
    generalize (if choice.2 = SortedHint.decreasingHint then b - 1 - (choice.1 - a)
      else choice.1) = pivot at h ⊢
    generalize (if choice.2 = SortedHint.decreasingHint then SortedHint.increasingHint
      else choice.2) = hint at h ⊢
    generalize (if (wb && wp && decide (hint = SortedHint.increasingHint)) = true
      then partialInsertionSort_func less data2 a b else (data2, false)) = partial1 at h ⊢
    by_cases hdone : partial1.2 = true
    · rw [if_pos hdone] at h ⊢
      exact h
    rw [if_neg hdone] at h ⊢
    by_cases heq : (decide (0 < a) && !lessAt less partial1.1 (a - 1) pivot) = true
    · rw [if_pos heq] at h ⊢
      exact ih _ _ _ _ _ _ _ h
    rw [if_neg heq] at h ⊢
    generalize partition_func less partial1.1 a b pivot = part at h ⊢
    by_cases hside : part.2.1 - a < b - part.2.1
    · rw [if_pos hside] at h ⊢
      cases h1 : pdqsort_func next less fuel part.1 a part.2.1 limit1 true true with
      | none =>
        rw [h1] at h
        cases h
      | some sorted =>
        rw [h1] at h
        rw [ih _ _ _ _ _ _ _ h1]
        exact ih _ _ _ _ _ _ _ h
    · rw [if_neg hside] at h ⊢
      cases h1 : pdqsort_func next less fuel part.1 (part.2.1 + 1) b limit1 true true with
      | none =>
        rw [h1] at h
        cases h
      | some sorted =>
        rw [h1] at h
        rw [ih _ _ _ _ _ _ _ h1]
        exact ih _ _ _ _ _ _ _ h

/-! ## The sort signal -/

/-- C8 (as amended). Servicing a sort signal returns and leaves a permutation of the
catalog; when Go orders the starts of the entries as the wall clock does, it leaves the
catalog in non-decreasing order of the key `(start, path)`, and after a recording is
appended and the catalog sorted, the newest-first listing has no entry with a smaller
key before the recording and no entry with a larger key after it.  This is so for every
step `next` of the generator of the sort. -/
theorem sort_signal_orders_catalog (next : Nat → Nat) (recordings : List Recording)
    (r : Recording) :
    pdqsort_func next recordingLess (recordings.length + 1) recordings 0 recordings.length
        (bitsLen recordings.length) true true = some (sortRecordings next recordings) ∧
    (sortRecordings next recordings).Perm recordings ∧
    ((∀ a ∈ recordings, ∀ b ∈ recordings, StartsAgree a b) →
      (sortRecordings next recordings).Pairwise (fun a b => ¬ keyLt b a)) ∧
    ((∀ a ∈ saveRecording recordings r, ∀ b ∈ saveRecording recordings r, StartsAgree a b) →
      ∃ before after,
        newestFirst (sortRecordings next (saveRecording recordings r)) = before ++ r :: after ∧
        (∀ x ∈ before, ¬ keyLt x r) ∧ (∀ x ∈ after, ¬ keyLt r x)) := by
  refine ⟨sortSlice_returns next recordingLess recordings,
    sortRecordings_perm next recordings, sortRecordings_sorted next recordings, ?_⟩
  intro hagree
  have hperm := sortRecordings_perm next (saveRecording recordings r)
  have hsorted := sortRecordings_sorted next (saveRecording recordings r) hagree
  have hmem : r ∈ newestFirst (sortRecordings next (saveRecording recordings r)) := by
    unfold newestFirst
    rw [List.mem_reverse, List.Perm.mem_iff hperm]
    simp [saveRecording]
  obtain ⟨before, after, hsplit⟩ := List.append_of_mem hmem
  refine ⟨before, after, hsplit, ?_⟩
  have hrev : (newestFirst (sortRecordings next (saveRecording recordings r))).Pairwise
      (fun a b => ¬ keyLt a b) := by
    unfold newestFirst
    rw [List.pairwise_reverse]
    exact hsorted
  rw [hsplit, List.pairwise_append] at hrev
  obtain ⟨_, h2, h3⟩ := hrev
  rw [List.pairwise_cons] at h2
  exact ⟨fun x hx => h3 x hx r (List.mem_cons_self _ _), fun x hx => h2.1 x hx⟩

/-! ## Catalog paths (C9) -/

theorem removeRecordingFromMem_sublist (recordings : List Recording) (path : GoString) :
    (removeRecordingFromMem recordings path).Sublist recordings := by
  induction recordings with
  | nil => exact List.Sublist.refl _
  | cons r rest ih =>
    unfold removeRecordingFromMem
    split
    · exact List.sublist_cons_self r rest
    · exact List.Sublist.cons₂ r ih

theorem catalogStep_nodup (next : Nat → Nat) (recordings : List Recording) (op : CatalogOp)
    (hn : (recordings.map Recording.Path).Nodup)
    (hf : ∀ r, op = CatalogOp.save r → r.Path ∉ recordings.map Recording.Path) :
    ((catalogStep next recordings op).map Recording.Path).Nodup := by
  cases op with
  | save r =>
    have := hf r rfl
    simp only [catalogStep, saveRecording, List.map_append, List.map_cons, List.map_nil]
    rw [List.nodup_append]
    refine ⟨hn, List.nodup_singleton _, ?_⟩
    intro p hp hq
    simp only [List.mem_singleton] at hq
    rw [hq] at hp
    exact this hp
  | sort =>
    simp only [catalogStep]
    exact (List.Perm.nodup_iff (List.Perm.map _ (sortRecordings_perm next recordings))).mpr hn
  | remove path =>
    simp only [catalogStep]
    exact List.Nodup.sublist (List.Sublist.map _ (removeRecordingFromMem_sublist recordings path)) hn

/-- The paths stay pairwise distinct along a run exactly when they are distinct at its
start and every append carries a path that no entry has at that moment. -/
theorem runCatalog_nodup_iff (next : Nat → Nat) (ops : List CatalogOp) :
    ∀ recordings : List Recording,
      (∀ k, k ≤ ops.length →
        ((runCatalog next recordings (ops.take k)).map Recording.Path).Nodup) ↔
      ((recordings.map Recording.Path).Nodup ∧ freshSaves next recordings ops = true) := by
  induction ops with
  | nil =>
    intro recordings
    constructor
    · intro h
      exact ⟨h 0 (Nat.le_refl _), rfl⟩
    · intro h k _
      simpa [runCatalog] using h.1
  | cons op ops ih =>
    intro recordings
    have hrun : ∀ k, runCatalog next recordings ((op :: ops).take (k + 1))
        = runCatalog next (catalogStep next recordings op) (ops.take k) := by
      intro k
      simp [runCatalog]
    constructor
    · intro h
      have h0 : (recordings.map Recording.Path).Nodup := by
        simpa [runCatalog] using h 0 (Nat.zero_le _)
      have hrest := (ih (catalogStep next recordings op)).mp (by
        intro k hk
        rw [← hrun k]
        exact h (k + 1) (by simp only [List.length_cons]; omega))
      refine ⟨h0, ?_⟩
      cases op with
      | save r =>
        unfold freshSaves
        simp only [Bool.and_eq_true, decide_eq_true_eq]
        refine ⟨?_, hrest.2⟩
        have hn := hrest.1
        simp only [catalogStep, saveRecording, List.map_append, List.map_cons, List.map_nil]
          at hn
        intro hmem
        exact (List.nodup_append.mp hn).2.2 hmem (List.mem_singleton_self _)
      | sort =>
        unfold freshSaves
        exact hrest.2
      | remove path =>
        unfold freshSaves
        exact hrest.2
    · intro h k hk
      cases k with
      | zero => simpa [runCatalog] using h.1
      | succ k =>
        rw [hrun k]
        have hstep : ((catalogStep next recordings op).map Recording.Path).Nodup ∧
            freshSaves next (catalogStep next recordings op) ops = true := by
          cases op with
          | save r =>
            have hf := h.2
            unfold freshSaves at hf
            simp only [Bool.and_eq_true, decide_eq_true_eq] at hf
            refine ⟨catalogStep_nodup next _ _ h.1 ?_, hf.2⟩
            intro r' hr'
            cases hr'
            exact hf.1
          | sort =>
            have hf := h.2
            unfold freshSaves at hf
            refine ⟨catalogStep_nodup next _ _ h.1 ?_, hf⟩
            intro r' hr'
            cases hr'
          | remove path =>
            have hf := h.2
            unfold freshSaves at hf
            refine ⟨catalogStep_nodup next _ _ h.1 ?_, hf⟩
            intro r' hr'
            cases hr'
        exact (ih (catalogStep next recordings op)).mpr hstep k
          (by simp only [List.length_cons] at hk; omega)

/-- Appends whose paths differ from one another and from the paths of the catalog are
appends of paths that no entry has at that moment. -/
theorem freshSaves_of_nodup (next : Nat → Nat) (ops : List CatalogOp) :
    ∀ recordings : List Recording,
      (recordings.map Recording.Path ++ savedPaths ops).Nodup →
      freshSaves next recordings ops = true := by
  induction ops with
  | nil =>
    intro recordings _
    rfl
  | cons op ops ih =>
    intro recordings h
    cases op with
    | save r =>
      unfold freshSaves
      simp only [Bool.and_eq_true, decide_eq_true_eq]
      simp only [savedPaths] at h
      constructor
      · intro hmem
        exact (List.nodup_append.mp h).2.2 hmem (List.mem_cons_self _ _)
      · apply ih
        simp only [catalogStep, saveRecording, List.map_append, List.map_cons, List.map_nil,
          List.append_assoc, List.singleton_append]
        exact h
    | sort =>
      unfold freshSaves
      apply ih
      simp only [savedPaths] at h
      simp only [catalogStep]
      exact (List.Perm.nodup_iff (List.Perm.append_right _
        (List.Perm.map _ (sortRecordings_perm next recordings)))).mpr h
    | remove path =>
      unfold freshSaves
      apply ih
      simp only [savedPaths] at h
      simp only [catalogStep]
      exact List.Nodup.sublist (List.Sublist.append
        (List.Sublist.map _ (removeRecordingFromMem_sublist recordings path))
        (List.Sublist.refl _)) h

/-- C9 (as amended). The catalog writer appends without looking at the paths.  For
every sequence of appends, sort signals and `removeRecordingFromMem` calls applied to
the empty catalog: the catalog has pairwise distinct paths after each step of the
sequence exactly when every append carries a path that no entry has at that moment;
and this is so whenever the appended paths differ from one another. -/
theorem catalog_paths_distinct (next : Nat → Nat) (ops : List CatalogOp) :
    ((∀ k, k ≤ ops.length →
        ((runCatalog next [] (ops.take k)).map Recording.Path).Nodup) ↔
      freshSaves next [] ops = true) ∧
    ((savedPaths ops).Nodup →
      ∀ k, k ≤ ops.length → ((runCatalog next [] (ops.take k)).map Recording.Path).Nodup) := by
  have hiff := runCatalog_nodup_iff next ops []
  constructor
  · constructor
    · intro h
      exact (hiff.mp h).2
    · intro h
      exact hiff.mpr ⟨List.nodup_nil, h⟩
  · intro h
    exact hiff.mpr ⟨List.nodup_nil, freshSaves_of_nodup next ops [] (by simpa using h)⟩

/-! ## Parsing and formatting the stamp (C10) -/

/-- C10. When `parseRecordingTime` succeeds on a path, formatting the instant with the
layout of the stamp gives 19 bytes that sit in the path right before its last 4
bytes; and `parseRecordingTime` fails on every path shorter than 24 bytes. -/
theorem parseRecordingTime_format_roundtrip (path : GoString) :
    (∀ t, parseRecordingTime path = some t →
      (formatStamp t).length = 19 ∧
      ∃ front ext, path = front ++ formatStamp t ++ ext ∧ ext.length = 4 ∧
        front.length = path.length - 23) ∧
    (path.length < 24 → parseRecordingTime path = none) := by
  constructor
  · intro t ht
    unfold parseRecordingTime at ht
    split at ht
    · cases ht
    · rename_i hlen
      have hl : ((path.drop (path.length - 23)).take 19).length = 19 := by
        rw [List.length_take, List.length_drop]; omega
      have hfmt := formatStamp_timeParse _ t hl ht
      refine ⟨by rw [hfmt]; exact hl, path.take (path.length - 23),
        (path.drop (path.length - 23)).drop 19, ?_, ?_, ?_⟩
      · rw [hfmt, List.append_assoc, List.take_append_drop, List.take_append_drop]
      · rw [List.length_drop, List.length_drop]; omega
      · rw [List.length_take]; omega
  · intro hlen
    unfold parseRecordingTime
    rw [if_pos hlen]

/-! ## Running the pruner twice (C6) -/

/-- With the removals first, nothing the date walk keeps is something it would remove. -/
theorem dateWalk_kept_of_removalsFirst (step : Entry → WalkStep) (walk : List Entry)
    (h : RemovalsFirst step walk) : ∀ x ∈ (dateWalk step walk).kept, step x ≠ WalkStep.removed := by
  induction walk with
  | nil => intro x hx; simp [dateWalk] at hx
  | cons e rest ih =>
    unfold RemovalsFirst at h
    rw [List.pairwise_cons] at h
    have ihr := ih h.2
    intro x hx
    cases hs : step e with
    | next =>
      have h1 : (dateWalk step (e :: rest)).kept = e :: (dateWalk step rest).kept := by
        rw [dateWalk]; simp only [hs]
      rw [h1] at hx
      rcases List.mem_cons.mp hx with hx | hx
      · rw [hx, hs]; intro hc; cases hc
      · exact ihr x hx
    | removed =>
      have h1 : (dateWalk step (e :: rest)).kept = (dateWalk step rest).kept := by
        rw [dateWalk]; simp only [hs]
      rw [h1] at hx
      exact ihr x hx
    | skipAll =>
      have h1 : (dateWalk step (e :: rest)).kept = e :: rest := by
        rw [dateWalk]; simp only [hs]
      rw [h1] at hx
      rcases List.mem_cons.mp hx with hx | hx
      · rw [hx, hs]; intro hc; cases hc
      · exact h.1 x hx (by rw [hs]; rfl)
    | fail err =>
      have h1 : (dateWalk step (e :: rest)).kept = e :: rest := by
        rw [dateWalk]; simp only [hs]
      rw [h1] at hx
      rcases List.mem_cons.mp hx with hx | hx
      · rw [hx, hs]; intro hc; cases hc
      · exact h.1 x hx (by rw [hs]; rfl)

theorem setDir_same (disk : GoString → List Entry) (dir : GoString) (l : List Entry) :
    setDir disk dir l dir = l := by
  simp [setDir]

theorem setDir_other (disk : GoString → List Entry) (dir d : GoString) (l : List Entry)
    (h : d ≠ dir) : setDir disk dir l d = disk d := by
  simp [setDir, h]

/-- With the removals first, the removal condition holds whatever the size pass
removes. -/
theorem removalsSettle_of_removalsFirst (step : Entry → WalkStep) (r walk : List Entry)
    (h : RemovalsFirst step walk) : RemovalsSettle step r walk := by
  unfold RemovalsFirst at h
  unfold RemovalsSettle
  exact List.Pairwise.imp (fun hab hs _ => hab hs) h

/-- When the size pass removes nothing, the removal condition holds. -/
theorem removalsSettle_nil (step : Entry → WalkStep) (walk : List Entry) :
    RemovalsSettle step [] walk := by
  unfold RemovalsSettle
  exact List.pairwise_of_forall (fun a b _ hm => absurd hm (List.not_mem_nil a))

theorem daysSinceEpoch_succ (y : Int) (hy : 0 ≤ y + 292277022399) :
    daysSinceEpoch (y + 1) = daysSinceEpoch y + 365 + (if isLeap y = true then 1 else 0) := by
  obtain ⟨a, b, c, e, hY, hb, hc, he⟩ := year_cycles (y + 292277022399).toNat
  have hl := isLeap_cycles y a b c e hy hY hb hc he
  rw [daysSinceEpoch_cycles y a b c e hY hb hc he]
  have hY1 : (y + 1 + 292277022399).toNat = 400 * a + 100 * b + 4 * c + e + 1 := by omega
  by_cases he3 : e < 3
  · have hnl : ¬ (isLeap y = true) := fun h => by have := (hl.mp h).1; omega
    rw [if_neg hnl]
    rw [daysSinceEpoch_cycles (y + 1) a b c (e + 1) (by omega) hb hc (by omega)]
    omega
  · have e3 : e = 3 := by omega
    subst e3
    by_cases hc24 : c < 24
    · have hlp : isLeap y = true := hl.mpr ⟨rfl, Or.inl (by omega)⟩
      rw [if_pos hlp]
      rw [daysSinceEpoch_cycles (y + 1) a b (c + 1) 0 (by omega) hb (by omega) (by omega)]
      omega
    · have c24 : c = 24 := by omega
      subst c24
      by_cases hb3 : b < 3
      · have hnl : ¬ (isLeap y = true) := fun h => by
          have := (hl.mp h).2
          omega
        rw [if_neg hnl]
        rw [daysSinceEpoch_cycles (y + 1) a (b + 1) 0 0 (by omega) (by omega) (by omega)
          (by omega)]
        omega
      · have b3 : b = 3 := by omega
        subst b3
        have hlp : isLeap y = true := hl.mpr ⟨rfl, Or.inr rfl⟩
        rw [if_pos hlp]
        rw [daysSinceEpoch_cycles (y + 1) (a + 1) 0 0 0 (by omega) (by omega) (by omega)
          (by omega)]
        omega

theorem daysSinceEpoch_add (y : Int) (hy : 0 ≤ y + 292277022399) (n : Nat) :
    daysSinceEpoch y ≤ daysSinceEpoch (y + (n : Int)) := by
  induction n with
  | zero => simp
  | succ k ih =>
    have h1 := daysSinceEpoch_succ (y + (k : Int)) (by omega)
    have e : y + ((k + 1 : Nat) : Int) = y + (k : Int) + 1 := by push_cast; omega
    rw [e, h1]
    omega

/-- A later year starts after the last day of an earlier year. -/
theorem daysSinceEpoch_lt (y1 y2 : Int) (hy : 0 ≤ y1 + 292277022399) (h : y1 < y2) :
    daysSinceEpoch y1 + 365 + (if isLeap y1 = true then 1 else 0) ≤ daysSinceEpoch y2 := by
  rw [← daysSinceEpoch_succ y1 hy]
  have h2 := daysSinceEpoch_add (y1 + 1) (by omega) (y2 - (y1 + 1)).toNat
  have e : y1 + 1 + ((y2 - (y1 + 1)).toNat : Int) = y2 := by omega
  rw [e] at h2
  exact h2

theorem month_start_table (leap : Bool) : ∀ m1 < 13, ∀ m2 < 13, 1 ≤ m1 → m1 < m2 →
    daysBefore (m1 - 1) + (if leap = true ∧ 3 ≤ m1 then 1 else 0) + daysIn m1 leap
      ≤ daysBefore (m2 - 1) + (if leap = true ∧ 3 ≤ m2 then 1 else 0) := by
  cases leap <;> decide

theorem Date_sec_eq (y : Int) (m d h mi s n : Nat) :
    (Date y m d h mi s n).sec = (dateAbs y m d h mi s : Int) - unixToAbsolute := rfl

/-- `Date` is monotone in the calendar fields. -/
theorem dateAbs_mono (y1 m1 d1 h1 mi1 s1 y2 m2 d2 h2 mi2 s2 : Nat)
    (v1 : 1 ≤ m1 ∧ m1 ≤ 12 ∧ 1 ≤ d1 ∧ d1 ≤ daysIn m1 (isLeap (y1 : Int)) ∧ h1 < 24 ∧ mi1 < 60
      ∧ s1 < 60)
    (v2 : 1 ≤ m2 ∧ m2 ≤ 12 ∧ 1 ≤ d2 ∧ d2 ≤ daysIn m2 (isLeap (y2 : Int)) ∧ h2 < 24 ∧ mi2 < 60
      ∧ s2 < 60)
    (hk : stampKey y1 m1 d1 h1 mi1 s1 ≤ stampKey y2 m2 d2 h2 mi2 s2) :
    dateAbs (y1 : Int) m1 d1 h1 mi1 s1 ≤ dateAbs (y2 : Int) m2 d2 h2 mi2 s2 := by
  obtain ⟨a1, a2, a3, a4, a5, a6, a7⟩ := v1
  obtain ⟨b1, b2, b3, b4, b5, b6, b7⟩ := v2
  have hd1 : d1 ≤ 31 := le_trans a4 (daysIn_le _ m1 (by omega))
  have hd2 : d2 ≤ 31 := le_trans b4 (daysIn_le _ m2 (by omega))
  unfold stampKey at hk
  unfold dateAbs
  rcases Nat.lt_trichotomy y1 y2 with hy | hy | hy
  · have hlt := daysSinceEpoch_lt (y1 : Int) (y2 : Int) (by omega) (by omega)
    have hyd := (monthDay_yday (isLeap (y1 : Int)) m1 d1 a1 a2 a3 a4).1
    generalize (if isLeap (y1 : Int) = true ∧ 3 ≤ m1 then 1 else 0) = adj1 at *
    generalize (if isLeap (y2 : Int) = true ∧ 3 ≤ m2 then 1 else 0) = adj2 at *
    generalize (if isLeap (y1 : Int) = true then 1 else 0) = lp1 at *
    generalize daysSinceEpoch (y1 : Int) = e1 at *
    generalize daysSinceEpoch (y2 : Int) = e2 at *
    generalize daysBefore (m1 - 1) = q1 at *
    generalize daysBefore (m2 - 1) = q2 at *
    omega
  · subst hy
    rcases Nat.lt_trichotomy m1 m2 with hm | hm | hm
    · have ht := month_start_table (isLeap (y1 : Int)) m1 (by omega) m2 (by omega) a1 hm
      generalize (if isLeap (y1 : Int) = true ∧ 3 ≤ m1 then 1 else 0) = adj1 at *
      generalize (if isLeap (y1 : Int) = true ∧ 3 ≤ m2 then 1 else 0) = adj2 at *
      generalize daysSinceEpoch (y1 : Int) = e1 at *
      generalize daysBefore (m1 - 1) = q1 at *
      generalize daysBefore (m2 - 1) = q2 at *
      generalize daysIn m1 (isLeap (y1 : Int)) = di1 at *
      omega
    · subst hm
      generalize (if isLeap (y1 : Int) = true ∧ 3 ≤ m1 then 1 else 0) = adj1 at *
      generalize daysSinceEpoch (y1 : Int) = e1 at *
      generalize daysBefore (m1 - 1) = q1 at *
      omega
    · omega
  · omega

theorem digitChar_lt_iff : ∀ a < 10, ∀ b < 10, (digitChar a < digitChar b ↔ a < b) := by
  decide

theorem strLess_digit (x y : Nat) (hx : x < 10) (hy : y < 10) (r1 r2 : GoString) :
    strLess (digitChar x :: r1) (digitChar y :: r2)
      = if x < y then true else if y < x then false else strLess r1 r2 := by
  have h1 := digitChar_lt_iff x hx y hy
  have h2 := digitChar_lt_iff y hy x hx
  rw [strLess]
  by_cases a : x < y
  · rw [if_pos (h1.mpr a), if_pos a]
  · rw [if_neg (fun h => a (h1.mp h)), if_neg a]
    by_cases b : y < x
    · rw [if_pos (h2.mpr b), if_pos b]
    · rw [if_neg (fun h => b (h2.mp h)), if_neg b]

theorem strLess_two (a b : Nat) (ha : a < 100) (hb : b < 100) (r1 r2 : GoString) :
    strLess (appendInt (a : Int) 2 ++ r1) (appendInt (b : Int) 2 ++ r2)
      = if a < b then true else if b < a then false else strLess r1 r2 := by
  rw [appendInt_two a ha, appendInt_two b hb]
  simp only [List.cons_append, List.nil_append]
  rw [strLess_digit _ _ (by omega) (by omega), strLess_digit _ _ (by omega) (by omega)]
  split_ifs <;> first | rfl | omega

theorem strLess_four (a b : Nat) (ha : a < 10000) (hb : b < 10000) (r1 r2 : GoString) :
    strLess (appendInt (a : Int) 4 ++ r1) (appendInt (b : Int) 4 ++ r2)
      = if a < b then true else if b < a then false else strLess r1 r2 := by
  rw [appendInt_four a ha, appendInt_four b hb]
  simp only [List.cons_append, List.nil_append]
  rw [strLess_digit _ _ (by omega) (by omega), strLess_digit _ _ (by omega) (by omega),
    strLess_digit _ _ (by omega) (by omega), strLess_digit _ _ (by omega) (by omega)]
  split_ifs <;> first | rfl | omega

theorem strLess_dash (r1 r2 : GoString) : strLess ('-' :: r1) ('-' :: r2) = strLess r1 r2 := by
  rw [strLess]
  simp

theorem stampText_assoc (y m d h mi s : Nat) (ext : GoString) :
    stampText y m d h mi s ++ ext =
      appendInt (y : Int) 4 ++ ('-' :: (appendInt (m : Int) 2 ++ ('-' :: (appendInt (d : Int) 2
        ++ ('-' :: (appendInt (h : Int) 2 ++ ('-' :: (appendInt (mi : Int) 2
          ++ ('-' :: (appendInt (s : Int) 2 ++ ext)))))))))) := by
  unfold stampText
  generalize appendInt (y : Int) 4 = ty
  generalize appendInt (m : Int) 2 = tm
  generalize appendInt (d : Int) 2 = td
  generalize appendInt (h : Int) 2 = th
  generalize appendInt (mi : Int) 2 = tmi
  generalize appendInt (s : Int) 2 = ts
  simp only [List.append_assoc, List.cons_append]

theorem lex_chain (y1 m1 d1 h1 mi1 s1 y2 m2 d2 h2 mi2 s2 : Nat)
    (b1 : y1 < 10000 ∧ m1 < 100 ∧ d1 < 100 ∧ h1 < 100 ∧ mi1 < 100 ∧ s1 < 100)
    (b2 : y2 < 10000 ∧ m2 < 100 ∧ d2 < 100 ∧ h2 < 100 ∧ mi2 < 100 ∧ s2 < 100) :
    (if y1 < y2 then true else if y2 < y1 then false else
      if m1 < m2 then true else if m2 < m1 then false else
      if d1 < d2 then true else if d2 < d1 then false else
      if h1 < h2 then true else if h2 < h1 then false else
      if mi1 < mi2 then true else if mi2 < mi1 then false else
      if s1 < s2 then true else if s2 < s1 then false else false)
      = decide (stampKey y1 m1 d1 h1 mi1 s1 < stampKey y2 m2 d2 h2 mi2 s2) := by
  unfold stampKey
  by_cases c1 : y1 < y2
  · rw [if_pos c1]; symm; rw [decide_eq_true_eq]; omega
  rw [if_neg c1]
  by_cases c1' : y2 < y1
  · rw [if_pos c1']; symm; rw [decide_eq_false_iff_not]; omega
  rw [if_neg c1']
  by_cases c2 : m1 < m2
  · rw [if_pos c2]; symm; rw [decide_eq_true_eq]; omega
  rw [if_neg c2]
  by_cases c2' : m2 < m1
  · rw [if_pos c2']; symm; rw [decide_eq_false_iff_not]; omega
  rw [if_neg c2']
  by_cases c3 : d1 < d2
  · rw [if_pos c3]; symm; rw [decide_eq_true_eq]; omega
  rw [if_neg c3]
  by_cases c3' : d2 < d1
  · rw [if_pos c3']; symm; rw [decide_eq_false_iff_not]; omega
  rw [if_neg c3']
  by_cases c4 : h1 < h2
  · rw [if_pos c4]; symm; rw [decide_eq_true_eq]; omega
  rw [if_neg c4]
  by_cases c4' : h2 < h1
  · rw [if_pos c4']; symm; rw [decide_eq_false_iff_not]; omega
  rw [if_neg c4']
  by_cases c5 : mi1 < mi2
  · rw [if_pos c5]; symm; rw [decide_eq_true_eq]; omega
  rw [if_neg c5]
  by_cases c5' : mi2 < mi1
  · rw [if_pos c5']; symm; rw [decide_eq_false_iff_not]; omega
  rw [if_neg c5']
  by_cases c6 : s1 < s2
  · rw [if_pos c6]; symm; rw [decide_eq_true_eq]; omega
  rw [if_neg c6]
  by_cases c6' : s2 < s1
  · rw [if_pos c6']; symm; rw [decide_eq_false_iff_not]; omega
  rw [if_neg c6']
  symm; rw [decide_eq_false_iff_not]; omega

/-- Stamps compare as byte strings the way their fields compare. -/
theorem strLess_stampText (y1 m1 d1 h1 mi1 s1 y2 m2 d2 h2 mi2 s2 : Nat) (ext : GoString)
    (b1 : y1 < 10000 ∧ m1 < 100 ∧ d1 < 100 ∧ h1 < 100 ∧ mi1 < 100 ∧ s1 < 100)
    (b2 : y2 < 10000 ∧ m2 < 100 ∧ d2 < 100 ∧ h2 < 100 ∧ mi2 < 100 ∧ s2 < 100) :
    strLess (stampText y1 m1 d1 h1 mi1 s1 ++ ext) (stampText y2 m2 d2 h2 mi2 s2 ++ ext)
      = decide (stampKey y1 m1 d1 h1 mi1 s1 < stampKey y2 m2 d2 h2 mi2 s2) := by
  rw [← lex_chain y1 m1 d1 h1 mi1 s1 y2 m2 d2 h2 mi2 s2 b1 b2]
  obtain ⟨p1, p2, p3, p4, p5, p6⟩ := b1
  obtain ⟨q1, q2, q3, q4, q5, q6⟩ := b2
  rw [stampText_assoc, stampText_assoc]
  rw [strLess_four y1 y2 p1 q1, strLess_dash, strLess_two m1 m2 p2 q2, strLess_dash,
    strLess_two d1 d2 p3 q3, strLess_dash, strLess_two h1 h2 p4 q4, strLess_dash,
    strLess_two mi1 mi2 p5 q5, strLess_dash, strLess_two s1 s2 p6 q6, strLess_irrefl]

theorem strLess_append_left (f a b : GoString) : strLess (f ++ a) (f ++ b) = strLess a b := by
  induction f with
  | nil => rfl
  | cons c cs ih =>
    simp only [List.cons_append]
    rw [strLess]
    simp [ih]

theorem parseRecordingTime_recordingPath (input : Input) (stamp : GoString)
    (hlen : stamp.length = 19) :
    parseRecordingTime (recordingPath input stamp) = timeParse stamp := by
  have hsplit : recordingPath input stamp
      = (input.RecordingDirectory ++ '/' :: (input.ID ++ ['-'])) ++ (stamp ++ ".mp4".toList) := by
    unfold recordingPath
    simp only [List.append_assoc, List.cons_append, List.nil_append]
  have hext : ".mp4".toList.length = 4 := rfl
  unfold parseRecordingTime
  rw [hsplit]
  have hl : ((input.RecordingDirectory ++ '/' :: (input.ID ++ ['-']))
      ++ (stamp ++ ".mp4".toList)).length
      = (input.RecordingDirectory ++ '/' :: (input.ID ++ ['-'])).length + 23 := by
    have h23 : (stamp ++ ".mp4".toList).length = 23 := by
      rw [List.length_append, hlen, hext]
    rw [List.length_append, h23]
  have hfront : 1 ≤ (input.RecordingDirectory ++ '/' :: (input.ID ++ ['-'])).length := by
    rw [List.length_append, List.length_cons]; omega
  rw [if_neg (by rw [hl]; omega), hl, Nat.add_sub_cancel, List.drop_left,
    List.take_left' hlen]

theorem recordingPath_filter (input : Input) (stamp : GoString) (hlen : stamp.length = 19) :
    hasSuffix (recordingPath input stamp) ".mp4".toList = true ∧
    containsStr (recordingPath input stamp) input.ID = true ∧
    ¬ (recordingPath input stamp).length ≤ 24 := by
  refine ⟨?_, ?_, ?_⟩
  · rw [hasSuffix_iff]
    refine ⟨input.RecordingDirectory ++ '/' :: (input.ID ++ '-' :: stamp), ?_⟩
    unfold recordingPath
    simp only [List.append_assoc, List.cons_append]
  · have : recordingPath input stamp
        = (input.RecordingDirectory ++ ['/']) ++ (input.ID ++ ('-' :: (stamp ++ ".mp4".toList))) := by
      unfold recordingPath
      simp only [List.append_assoc, List.cons_append, List.nil_append]
    rw [this]
    exact containsStr_infix _ _ _
  · unfold recordingPath Input.RecordingDirectory
    simp only [List.length_append, List.length_cons, hlen]
    have h1 : "media/".toList.length = 6 := rfl
    have h2 : "/archive".toList.length = 8 := rfl
    have h3 : ".mp4".toList.length = 4 := rfl
    omega

/-- The age callback on an archive segment: stop when its stamp is after the target,
remove it otherwise. -/
theorem recordingDateStep_recording (input : Input) (target : Time) (e : Entry)
    (he : IsRecording input e) :
    recordingDateStep input target e
      = if newerThan target e = true then WalkStep.skipAll else WalkStep.removed := by
  obtain ⟨stamp, t, hp, hlen, ht, hd, hw, hr⟩ := he
  obtain ⟨f1, f2, f3⟩ := recordingPath_filter input stamp hlen
  have hparse : parseRecordingTime e.path = some t := by
    rw [hp, parseRecordingTime_recordingPath input stamp hlen, ht]
  unfold recordingDateStep newerThan
  rw [hw, hd, hparse, hr, hp, f1, f2]
  have f3' : decide ((recordingPath input stamp).length ≤ 24) = false := by
    rw [decide_eq_false_iff_not]; exact f3
  rw [f3']
  simp

/-- Two archive segments of one input: when the path of the first is not greater than
the path of the second, its stamp is not later. -/
theorem recording_order (input : Input) (target : Time) (a b : Entry)
    (ha : IsRecording input a) (hb : IsRecording input b)
    (hle : strLess b.path a.path = false) (hnew : newerThan target a = true) :
    newerThan target b = true := by
  obtain ⟨sa, ta, hpa, hla, hta, _, _, _⟩ := ha
  obtain ⟨sb, tb, hpb, hlb, htb, _, _, _⟩ := hb
  have pa : parseRecordingTime a.path = some ta := by
    rw [hpa, parseRecordingTime_recordingPath input sa hla, hta]
  have pb : parseRecordingTime b.path = some tb := by
    rw [hpb, parseRecordingTime_recordingPath input sb hlb, htb]
  unfold newerThan at hnew ⊢
  rw [pa] at hnew
  rw [pb]
  simp only at hnew ⊢
  obtain ⟨y1, m1, d1, h1, mi1, s1, a1, a2, a3, a4, a5, a6, a7, a8, a9, a10⟩ :=
    timeParse_shape sa ta hla hta
  obtain ⟨y2, m2, d2, h2, mi2, s2, b1, b2, b3, b4, b5, b6, b7, b8, b9, b10⟩ :=
    timeParse_shape sb tb hlb htb
  have hd1 : d1 ≤ 31 := le_trans a5 (daysIn_le _ m1 (by omega))
  have hd2 : d2 ≤ 31 := le_trans b5 (daysIn_le _ m2 (by omega))
  have hcmp : strLess b.path a.path
      = decide (stampKey y2 m2 d2 h2 mi2 s2 < stampKey y1 m1 d1 h1 mi1 s1) := by
    rw [hpa, hpb]
    unfold recordingPath
    have ea : input.RecordingDirectory ++ '/' :: (input.ID ++ '-' :: (sa ++ ".mp4".toList))
        = (input.RecordingDirectory ++ '/' :: (input.ID ++ ['-'])) ++ (sa ++ ".mp4".toList) := by
      simp only [List.append_assoc, List.cons_append, List.nil_append]
    have eb : input.RecordingDirectory ++ '/' :: (input.ID ++ '-' :: (sb ++ ".mp4".toList))
        = (input.RecordingDirectory ++ '/' :: (input.ID ++ ['-'])) ++ (sb ++ ".mp4".toList) := by
      simp only [List.append_assoc, List.cons_append, List.nil_append]
    rw [ea, eb, strLess_append_left]
    have sa' : sa = stampText y1 m1 d1 h1 mi1 s1 := a10
    have sb' : sb = stampText y2 m2 d2 h2 mi2 s2 := b10
    rw [sa', sb']
    exact strLess_stampText y2 m2 d2 h2 mi2 s2 y1 m1 d1 h1 mi1 s1 _
      ⟨b1, by omega, by omega, by omega, by omega, by omega⟩
      ⟨a1, by omega, by omega, by omega, by omega, by omega⟩
  rw [hcmp, decide_eq_false_iff_not] at hle
  have hmono := dateAbs_mono y1 m1 d1 h1 mi1 s1 y2 m2 d2 h2 mi2 s2
    ⟨a2, a3, a4, a5, a6, a7, a8⟩ ⟨b2, b3, b4, b5, b6, b7, b8⟩ (by omega)
  rw [a9] at hnew
  rw [b9]
  rw [time_after_iff] at hnew ⊢
  rw [Date_sec_eq] at hnew ⊢
  have n1 : (Date (y1 : Int) m1 d1 h1 mi1 s1 0).nsec = 0 := rfl
  have n2 : (Date (y2 : Int) m2 d2 h2 mi2 s2 0).nsec = 0 := rfl
  rw [n1] at hnew
  rw [n2]
  omega

theorem notNewerThan_recording (input : Input) (target : Time) (e : Entry)
    (he : IsRecording input e) : notNewerThan target e = !newerThan target e := by
  obtain ⟨stamp, t, hp, hlen, ht, _, _, _⟩ := he
  have hparse : parseRecordingTime e.path = some t := by
    rw [hp, parseRecordingTime_recordingPath input stamp hlen, ht]
  unfold notNewerThan newerThan
  rw [hparse]

theorem dateWalk_recordings (input : Input) (target : Time) (recs : List Entry)
    (hrecs : ∀ e ∈ recs, IsRecording input e)
    (hsorted : recs.Pairwise (fun a b => strLess b.path a.path = false)) :
    dateWalk (recordingDateStep input target) recs =
      { kept := recs.filter (newerThan target)
        removed := recs.filter (notNewerThan target)
        err := none } := by
  induction recs with
  | nil => rfl
  | cons e rest ih =>
    rw [List.pairwise_cons] at hsorted
    have he := hrecs e (List.mem_cons_self _ _)
    have hrest := fun x hx => hrecs x (List.mem_cons_of_mem _ hx)
    have hstep := recordingDateStep_recording input target e he
    have hnn := notNewerThan_recording input target e he
    by_cases hnew : newerThan target e = true
    · rw [if_pos hnew] at hstep
      have hall : ∀ x ∈ rest, newerThan target x = true := fun x hx =>
        recording_order input target e x he (hrest x hx) (hsorted.1 x hx) hnew
      have hall2 : ∀ x ∈ rest, notNewerThan target x = false := fun x hx => by
        rw [notNewerThan_recording input target x (hrest x hx), hall x hx]; rfl
      rw [dateWalk]
      simp only [hstep]
      have k1 : (e :: rest).filter (newerThan target) = e :: rest := by
        rw [List.filter_eq_self]
        intro x hx
        rcases List.mem_cons.mp hx with hx | hx
        · rw [hx]; exact hnew
        · exact hall x hx
      have k2 : (e :: rest).filter (notNewerThan target) = [] := by
        rw [List.filter_eq_nil_iff]
        intro x hx
        rcases List.mem_cons.mp hx with hx | hx
        · rw [hx, hnn, hnew]; decide
        · rw [hall2 x hx]; decide
      rw [k1, k2]
    · have hnew' : newerThan target e = false := by
        cases h : newerThan target e
        · rfl
        · exact absurd h hnew
      rw [if_neg hnew] at hstep
      rw [dateWalk]
      simp only [hstep]
      rw [ih hrest hsorted.2]
      have k1 : (e :: rest).filter (newerThan target) = rest.filter (newerThan target) := by
        rw [List.filter_cons, hnew']; rfl
      have k2 : (e :: rest).filter (notNewerThan target)
          = e :: rest.filter (notNewerThan target) := by
        rw [List.filter_cons, hnn, hnew']; rfl
      rw [k1, k2]

/-- The archive age pass on a directory that holds only archive segments of the input,
visited in lexical path order: it removes every segment whose stamp is not after the
target, keeps every segment whose stamp is after it, and returns no error. -/
theorem recordingsByDate_chronological (input : Input) (now : Time) (root : Entry)
    (recs : List Entry) (hroot : root.isDir = true ∧ root.walkErr = false)
    (hrecs : ∀ e ∈ recs, IsRecording input e)
    (hsorted : recs.Pairwise (fun a b => strLess b.path a.path = false)) :
    recordingsByDate input now (root :: recs) =
      { kept := root :: recs.filter
          (newerThan (ageTarget now input.RecordingAgeLimitHours))
        removed := recs.filter (notNewerThan (ageTarget now input.RecordingAgeLimitHours))
        err := none } := by
  unfold recordingsByDate
  have hstep : recordingDateStep input (ageTarget now input.RecordingAgeLimitHours) root
      = WalkStep.next := by
    unfold recordingDateStep
    rw [hroot.2, hroot.1]
    rfl
  rw [dateWalk]
  simp only [hstep]
  rw [dateWalk_recordings input _ recs hrecs hsorted]

/-- In such a directory the removals of the age pass come first in walk order. -/
theorem removalsFirst_chronological (input : Input) (target : Time) (root : Entry)
    (recs : List Entry) (hroot : root.isDir = true ∧ root.walkErr = false)
    (hrecs : ∀ e ∈ recs, IsRecording input e)
    (hsorted : recs.Pairwise (fun a b => strLess b.path a.path = false)) :
    RemovalsFirst (recordingDateStep input target) (root :: recs) := by
  unfold RemovalsFirst
  rw [List.pairwise_cons]
  constructor
  · intro b _ hstops
    have hstep : recordingDateStep input target root = WalkStep.next := by
      unfold recordingDateStep
      rw [hroot.2, hroot.1]
      rfl
    rw [hstep] at hstops
    cases hstops
  · have hmem : ∀ {a b : Entry}, a ∈ recs → b ∈ recs →
        strLess b.path a.path = false →
        (recordingDateStep input target a).stops = true →
        recordingDateStep input target b ≠ WalkStep.removed := by
      intro a b ha hb hle hstops
      have sa := recordingDateStep_recording input target a (hrecs a ha)
      have sb := recordingDateStep_recording input target b (hrecs b hb)
      by_cases hnew : newerThan target a = true
      · have := recording_order input target a b (hrecs a ha) (hrecs b hb) hle hnew
        rw [sb, if_pos this]
        intro hc; cases hc
      · rw [sa, if_neg hnew] at hstops
        cases hstops
    exact List.Pairwise.imp_of_mem (fun ha hb hle => hmem ha hb hle) hsorted

/-! ## Durations -/

/-- Truncated division by one second: quotient and remainder recompose, and the
remainder stays within one second of zero. -/
theorem tdiv_tmod_second (d : Int) :
    d.tmod 1000000000 + 1000000000 * d.tdiv 1000000000 = d ∧
    -1000000000 < d.tmod 1000000000 ∧ d.tmod 1000000000 < 1000000000 := by
  refine ⟨Int.tmod_add_tdiv d 1000000000, ?_, Int.tmod_lt_of_pos d (by decide)⟩
  rcases le_total 0 d with h | h
  · have := Int.tmod_nonneg 1000000000 h
    omega
  · have h1 : d.tmod 1000000000 = d - 1000000000 * d.tdiv 1000000000 := Int.tmod_def d _
    have h2 : d.tdiv 1000000000 = -((-d).tdiv 1000000000) := by
      rw [Int.neg_tdiv, Int.neg_neg]
    have h3 : (-d).tdiv 1000000000 = (-d) / 1000000000 :=
      Int.tdiv_eq_ediv (by omega) (by decide)
    rw [h1, h2, h3]
    omega

/-- Adding `d` nanoseconds to a valid instant gives the valid instant that lies `d`
nanoseconds later. -/
theorem time_add_spec (u : Time) (d : Int) (hu : u.valid) :
    (u.Add d).valid ∧ nanosBetween (u.Add d) u = d := by
  obtain ⟨h1, h2, h3⟩ := tdiv_tmod_second d
  unfold Time.valid at hu ⊢
  unfold nanosBetween Time.Add
  generalize d.tdiv 1000000000 = q at *
  generalize d.tmod 1000000000 = r at *
  simp only []
  split
  · simp only []
    constructor <;> omega
  · split
    · simp only []
      constructor <;> omega
    · simp only []
      constructor <;> omega

/-- Valid instants with no nanoseconds between them are equal. -/
theorem nanosBetween_eq_zero (t u : Time) (ht : t.valid) (hu : u.valid)
    (h : nanosBetween t u = 0) : t = u := by
  unfold Time.valid at ht hu
  unfold nanosBetween at h
  rw [time_eq_iff]
  constructor <;> omega

/-- Adding `d` to `u` gives `t` exactly when `d` is the difference. -/
theorem time_add_eq_iff (t u : Time) (d : Int) (ht : t.valid) (hu : u.valid) :
    u.Add d = t ↔ d = nanosBetween t u := by
  obtain ⟨hv, hd⟩ := time_add_spec u d hu
  constructor
  · intro h
    rw [← h]
    exact hd.symm
  · intro h
    apply nanosBetween_eq_zero _ _ hv ht
    unfold nanosBetween at hd h ⊢
    omega

/-- Wrapping is the identity on the `int64` range and differs from its argument
outside of it; the result is always in range. -/
theorem wrapInt64_range (x : Int) :
    -9223372036854775808 ≤ wrapInt64 x ∧ wrapInt64 x ≤ 9223372036854775807 ∧
    (wrapInt64 x = x ↔ (-9223372036854775808 ≤ x ∧ x ≤ 9223372036854775807)) := by
  unfold wrapInt64
  omega

/-- Wrapping twice along a sum is wrapping once. -/
theorem wrapInt64_add_wrap (a b : Int) : wrapInt64 (wrapInt64 a + b) = wrapInt64 (a + b) := by
  unfold wrapInt64
  omega

/-- Go `Time.Sub` on valid instants: the exact difference inside the `int64` range,
saturated outside of it. -/
theorem time_sub_spec (t u : Time) (ht : t.valid) (hu : u.valid) :
    t.Sub u =
      if nanosBetween t u < -9223372036854775808 then minDuration
      else if 9223372036854775807 < nanosBetween t u then maxDuration
      else nanosBetween t u := by
  have hw : wrapInt64 (wrapInt64 ((t.sec - u.sec) * 1000000000)
      + ((t.nsec : Int) - (u.nsec : Int))) = wrapInt64 (nanosBetween t u) := by
    rw [wrapInt64_add_wrap]
    rfl
  unfold Time.Sub
  simp only [hw]
  have hadd := time_add_eq_iff t u (wrapInt64 (nanosBetween t u)) ht hu
  obtain ⟨r1, r2, r3⟩ := wrapInt64_range (nanosBetween t u)
  have hb := time_before_iff t u
  unfold Time.valid at ht hu
  by_cases h : wrapInt64 (nanosBetween t u) = nanosBetween t u
  · rw [if_pos (hadd.mpr h), h]
    have := r3.mp h
    rw [if_neg (by omega), if_neg (by omega)]
  · rw [if_neg (fun c => h (hadd.mp c))]
    have hr : ¬ (-9223372036854775808 ≤ nanosBetween t u ∧
        nanosBetween t u ≤ 9223372036854775807) := fun c => h (r3.mpr c)
    by_cases hlt : nanosBetween t u < -9223372036854775808
    · rw [if_pos hlt]
      have : t.Before u = true := by
        rw [hb]
        unfold nanosBetween at hlt
        omega
      rw [if_pos this]
    · rw [if_neg hlt]
      have hgt : 9223372036854775807 < nanosBetween t u := by omega
      rw [if_pos hgt]
      have : ¬ t.Before u = true := by
        rw [hb]
        unfold nanosBetween at hgt
        omega
      rw [if_neg this]

/-- Comparing `Time.Sub` with a bound of the monitor is comparing the exact
difference with it. -/
theorem time_sub_lt_iff (t u : Time) (ht : t.valid) (hu : u.valid) (k : Int)
    (hk : -9223372036854775808 < k ∧ k ≤ 9223372036854775807) :
    t.Sub u < k ↔ nanosBetween t u < k := by
  rw [time_sub_spec t u ht hu]
  unfold minDuration maxDuration
  split
  · omega
  · split <;> omega

/-- Comparing a bound of the monitor with `Time.Sub` is comparing it with the exact
difference. -/
theorem lt_time_sub_iff (t u : Time) (ht : t.valid) (hu : u.valid) (k : Int)
    (hk : -9223372036854775808 ≤ k ∧ k < 9223372036854775807) :
    k < t.Sub u ↔ k < nanosBetween t u := by
  rw [time_sub_spec t u ht hu]
  unfold minDuration maxDuration
  split
  · omega
  · split <;> omega

/-! ## The liveness monitor (C11, C12, C15) -/

/-- The cells a monitor tick stores, and the cells it leaves alone. -/
theorem monitorTick_fst (w : Stream) (now : TickNows) :
    (monitorTick w now).1 =
      { w with
        LastRestartInErr := decide (now.restart.Sub w.LastRestart < 300000000000)
        LastFileOpenedInErr := decide (180000000000 < now.fileOpened.Sub w.LastFileOpened)
        LastSegmentOpenedInErr :=
          decide (900000000000 < now.segmentOpened.Sub w.LastSegmentOpened) } := rfl

/-- The invocations of `restart()` in a tick: one for a rising file-opened flag, then
one for a rising segment-opened flag, when the function is set. -/
theorem monitorTick_snd (w : Stream) (now : TickNows) :
    (monitorTick w now).2 =
      (if (decide (180000000000 < now.fileOpened.Sub w.LastFileOpened)
            && !w.LastFileOpenedInErr) = true then
          (if w.RestartRecordingSet = true then [RestartCause.fileOpened] else [])
        else []) ++
      (if (decide (900000000000 < now.segmentOpened.Sub w.LastSegmentOpened)
            && !w.LastSegmentOpenedInErr) = true then
          (if w.RestartRecordingSet = true then [RestartCause.segmentOpened] else [])
        else []) := rfl

/-- A line without both `Opening` and `for writing` leaves the stream as it is. -/
theorem onLine_quiet (w : Stream) (now : Nows) (p : GoString)
    (h : (containsStr p "Opening".toList && containsStr p "for writing".toList) = false) :
    onLine w now p = (w, []) := by
  unfold onLine
  rw [h]
  rfl

/-- The cells a store of `record` leaves alone. -/
theorem recordStore_keeps (w : Stream) (s : RecordStore) :
    (recordStore w s).LastFileOpened = w.LastFileOpened ∧
    (recordStore w s).LastSegmentOpened = w.LastSegmentOpened ∧
    (recordStore w s).LastFileOpenedInErr = w.LastFileOpenedInErr ∧
    (recordStore w s).LastSegmentOpenedInErr = w.LastSegmentOpenedInErr := by
  cases s <;> exact ⟨rfl, rfl, rfl, rfl⟩

/-- A quiet event on a stream whose file and segment instants are the sentinel and
whose two flags are stored true invokes no restart and keeps all that. -/
theorem applyEvent_quiet (sentinel : Time) (hs : sentinel.valid) (w : Stream) (e : StreamEvent)
    (hq : quietEvent sentinel e = true)
    (h1 : w.LastFileOpened = sentinel) (h2 : w.LastSegmentOpened = sentinel)
    (h3 : w.LastFileOpenedInErr = true) (h4 : w.LastSegmentOpenedInErr = true) :
    (applyEvent w e).2 = [] ∧
    (applyEvent w e).1.LastFileOpened = sentinel ∧
    (applyEvent w e).1.LastSegmentOpened = sentinel ∧
    (applyEvent w e).1.LastFileOpenedInErr = true ∧
    (applyEvent w e).1.LastSegmentOpenedInErr = true := by
  cases e with
  | tick now =>
    simp only [quietEvent, Bool.and_eq_true, decide_eq_true_eq] at hq
    obtain ⟨⟨⟨hv1, hv2⟩, hf⟩, hg⟩ := hq
    have e1 : decide (180000000000 < now.fileOpened.Sub w.LastFileOpened) = true := by
      rw [decide_eq_true_eq, h1, lt_time_sub_iff _ _ hv1 hs _ (by decide)]
      omega
    have e2 : decide (900000000000 < now.segmentOpened.Sub w.LastSegmentOpened) = true := by
      rw [decide_eq_true_eq, h2, lt_time_sub_iff _ _ hv2 hs _ (by decide)]
      exact hg
    simp only [applyEvent]
    rw [monitorTick_snd, monitorTick_fst, e1, e2, h3, h4]
    exact ⟨rfl, h1, h2, rfl, rfl⟩
  | line now p =>
    simp only [quietEvent, Bool.not_eq_true'] at hq
    simp only [applyEvent]
    rw [onLine_quiet w now p hq]
    exact ⟨trivial, h1, h2, h3, h4⟩
  | record s =>
    obtain ⟨k1, k2, k3, k4⟩ := recordStore_keeps w s
    simp only [applyEvent]
    exact ⟨trivial, k1.trans h1, k2.trans h2, k3.trans h3, k4.trans h4⟩

/-- Quiet events only: no event invokes a restart, and the two flags stay true. -/
theorem runEvents_quiet (sentinel : Time) (hs : sentinel.valid) (events : List StreamEvent) :
    ∀ w : Stream, (∀ e ∈ events, quietEvent sentinel e = true) →
    w.LastFileOpened = sentinel → w.LastSegmentOpened = sentinel →
    w.LastFileOpenedInErr = true → w.LastSegmentOpenedInErr = true →
    (∀ calls ∈ (runEvents w events).2, calls = []) ∧
    (runEvents w events).1.LastFileOpenedInErr = true ∧
    (runEvents w events).1.LastSegmentOpenedInErr = true := by
  induction events with
  | nil =>
    intro w _ _ _ h3 h4
    exact ⟨fun c hc => by simp [runEvents] at hc, h3, h4⟩
  | cons e rest ih =>
    intro w hq h1 h2 h3 h4
    obtain ⟨a0, a1, a2, a3, a4⟩ :=
      applyEvent_quiet sentinel hs w e (hq e (List.mem_cons_self _ _)) h1 h2 h3 h4
    obtain ⟨b0, b1, b2⟩ :=
      ih (applyEvent w e).1 (fun x hx => hq x (List.mem_cons_of_mem _ hx)) a1 a2 a3 a4
    unfold runEvents
    refine ⟨?_, b1, b2⟩
    intro c hc
    rcases List.mem_cons.mp hc with hc | hc
    · rw [hc]
      exact a0
    · exact b0 c hc

/-- C11 (amended): a stream whose last file was opened more than 3 minutes before the
tick's clock reading, whose file-opened flag is stored false and whose restart function
is set: the tick stores true into the file-opened flag and invokes the restart function
for that edge; it is the only invocation of the tick unless the last segment was opened
more than 15 minutes ago with the segment-opened flag stored false, and then the
function is invoked a second time. -/
theorem monitorTick_file_edge_restarts (w : Stream) (now : TickNows)
    (hvf : now.fileOpened.valid ∧ w.LastFileOpened.valid)
    (hvs : now.segmentOpened.valid ∧ w.LastSegmentOpened.valid)
    (hstale : 180000000000 < nanosBetween now.fileOpened w.LastFileOpened)
    (hflag : w.LastFileOpenedInErr = false)
    (hset : w.RestartRecordingSet = true) :
    (monitorTick w now).1.LastFileOpenedInErr = true ∧
    (monitorTick w now).2 =
      if 900000000000 < nanosBetween now.segmentOpened w.LastSegmentOpened ∧
          w.LastSegmentOpenedInErr = false
      then [RestartCause.fileOpened, RestartCause.segmentOpened]
      else [RestartCause.fileOpened] := by
  have e1 : decide (180000000000 < now.fileOpened.Sub w.LastFileOpened) = true := by
    rw [decide_eq_true_eq, lt_time_sub_iff _ _ hvf.1 hvf.2 _ (by decide)]
    exact hstale
  have e2 : (900000000000 < now.segmentOpened.Sub w.LastSegmentOpened) ↔
      900000000000 < nanosBetween now.segmentOpened w.LastSegmentOpened :=
    lt_time_sub_iff _ _ hvs.1 hvs.2 _ (by decide)
  rw [monitorTick_snd, monitorTick_fst]
  simp only [e1, e2, hflag, hset]
  refine ⟨trivial, ?_⟩
  by_cases hs : 900000000000 < nanosBetween now.segmentOpened w.LastSegmentOpened <;>
    cases hb : w.LastSegmentOpenedInErr <;> simp [hs]

/-- C12: after a monitor tick the restart flag is true exactly when the clock reading
is less than 5 minutes after the last restart, the file-opened flag exactly when it is
more than 3 minutes after the last opened file, the segment-opened flag exactly when
it is more than 15 minutes after the last opened segment, whatever the flags were
before; and the restart invocations of the tick are the same for every stored restart
flag, every last-restart instant and every clock reading used for it. -/
theorem monitorTick_stores_flags (w : Stream) (now : TickNows)
    (hvr : now.restart.valid ∧ w.LastRestart.valid)
    (hvf : now.fileOpened.valid ∧ w.LastFileOpened.valid)
    (hvs : now.segmentOpened.valid ∧ w.LastSegmentOpened.valid) :
    ((monitorTick w now).1.LastRestartInErr = true ↔
      nanosBetween now.restart w.LastRestart < 300000000000) ∧
    ((monitorTick w now).1.LastFileOpenedInErr = true ↔
      180000000000 < nanosBetween now.fileOpened w.LastFileOpened) ∧
    ((monitorTick w now).1.LastSegmentOpenedInErr = true ↔
      900000000000 < nanosBetween now.segmentOpened w.LastSegmentOpened) ∧
    (∀ (flag : Bool) (lastRestart reading : Time),
      (monitorTick { w with LastRestartInErr := flag, LastRestart := lastRestart }
        { now with restart := reading }).2 = (monitorTick w now).2) := by
  rw [monitorTick_fst]
  refine ⟨?_, ?_, ?_, fun _ _ _ => rfl⟩
  · simp only [decide_eq_true_eq]
    exact time_sub_lt_iff _ _ hvr.1 hvr.2 _ (by decide)
  · simp only [decide_eq_true_eq]
    exact lt_time_sub_iff _ _ hvf.1 hvf.2 _ (by decide)
  · simp only [decide_eq_true_eq]
    exact lt_time_sub_iff _ _ hvs.1 hvs.2 _ (by decide)

/-- C15: from the initial state of a stream, along every sequence of monitor ticks
whose clock readings are more than 15 minutes after the sentinel, lines that do not
contain both `Opening` and `for writing`, and stores of `record`, no tick invokes the
restart function, and the file-opened and segment-opened flags are true at the end. -/
theorem quiet_stream_never_restarts (sentinel : Time) (events : List StreamEvent)
    (hs : sentinel.valid) (hq : ∀ e ∈ events, quietEvent sentinel e = true) :
    (∀ calls ∈ (runEvents (initStream sentinel) events).2, calls = []) ∧
    (runEvents (initStream sentinel) events).1.LastFileOpenedInErr = true ∧
    (runEvents (initStream sentinel) events).1.LastSegmentOpenedInErr = true :=
  runEvents_quiet sentinel hs events (initStream sentinel) hq rfl rfl rfl rfl

/-! ## The stderr writer (C13) -/

/-- Bytes without a newline hold no complete line. -/
theorem newlineLines_no_newline (s : GoString) (h : newline ∉ s) :
    newlineLines s = ([], s) := by
  induction s with
  | nil => rfl
  | cons c cs ih =>
    have hc : c ≠ newline := fun e => h (by rw [e]; exact List.mem_cons_self _ _)
    have hcs : newline ∉ cs := fun e => h (List.mem_cons_of_mem _ e)
    unfold newlineLines
    rw [if_neg hc, ih hcs]

/-- The bytes after the last newline hold no newline. -/
theorem newlineLines_rest (s : GoString) : newline ∉ (newlineLines s).2 := by
  induction s with
  | nil => simp [newlineLines]
  | cons c cs ih =>
    unfold newlineLines
    by_cases hc : c = newline
    · rw [if_pos hc]
      exact ih
    · rw [if_neg hc]
      cases h : (newlineLines cs).1 with
      | nil =>
        simp only []
        intro hm
        rcases List.mem_cons.mp hm with e | e
        · exact hc e.symm
        · exact ih e
      | cons l ls =>
        simp only []
        exact ih

/-- Every line ends in the only newline it has. -/
theorem newlineLines_lines (s : GoString) :
    ∀ l ∈ (newlineLines s).1, ∃ body, l = body ++ [newline] ∧ newline ∉ body := by
  induction s with
  | nil => simp [newlineLines]
  | cons c cs ih =>
    unfold newlineLines
    by_cases hc : c = newline
    · rw [if_pos hc]
      intro l hl
      rcases List.mem_cons.mp hl with e | e
      · exact ⟨[], by rw [e, hc]; rfl, by simp⟩
      · exact ih l e
    · rw [if_neg hc]
      cases h : (newlineLines cs).1 with
      | nil => simp
      | cons l0 ls =>
        rw [h] at ih
        simp only []
        intro l hl
        rcases List.mem_cons.mp hl with e | e
        · obtain ⟨body, hb, hn⟩ := ih l0 (List.mem_cons_self _ _)
          refine ⟨c :: body, by rw [e, hb]; rfl, ?_⟩
          intro hm
          rcases List.mem_cons.mp hm with e2 | e2
          · exact hc e2.symm
          · exact hn e2
        · exact ih l (List.mem_cons_of_mem _ e)

/-- The lines followed by the remaining bytes are the byte sequence. -/
theorem newlineLines_flatten (s : GoString) :
    (newlineLines s).1.flatten ++ (newlineLines s).2 = s := by
  induction s with
  | nil => rfl
  | cons c cs ih =>
    unfold newlineLines
    by_cases hc : c = newline
    · rw [if_pos hc]
      simp only [List.flatten_cons, List.singleton_append, List.cons_append, List.nil_append]
      rw [ih]
    · rw [if_neg hc]
      cases h : (newlineLines cs).1 with
      | nil =>
        rw [h] at ih
        simp only [List.flatten_nil, List.nil_append] at ih ⊢
        rw [ih]
      | cons l0 ls =>
        rw [h] at ih
        simp only [List.flatten_cons, List.cons_append] at ih ⊢
        rw [ih]

/-- Lines of a byte sequence continued by more bytes: the lines already complete, then
the lines of the unfinished rest continued by the new bytes. -/
theorem newlineLines_append (s p : GoString) :
    newlineLines (s ++ p) =
      ((newlineLines s).1 ++ (newlineLines ((newlineLines s).2 ++ p)).1,
        (newlineLines ((newlineLines s).2 ++ p)).2) := by
  induction s with
  | nil => rfl
  | cons c cs ih =>
    rw [List.cons_append]
    by_cases hc : c = newline
    · have e1 : newlineLines (c :: (cs ++ p)) =
          ([c] :: (newlineLines (cs ++ p)).1, (newlineLines (cs ++ p)).2) := by
        rw [newlineLines, if_pos hc]
      have e2 : newlineLines (c :: cs) = ([c] :: (newlineLines cs).1, (newlineLines cs).2) := by
        rw [newlineLines, if_pos hc]
      rw [e1, e2, ih]
      rfl
    · have e1 : newlineLines (c :: (cs ++ p)) =
          match (newlineLines (cs ++ p)).1 with
          | [] => ([], c :: (newlineLines (cs ++ p)).2)
          | line :: lines => ((c :: line) :: lines, (newlineLines (cs ++ p)).2) := by
        rw [newlineLines, if_neg hc]
      have e2 : newlineLines (c :: cs) =
          match (newlineLines cs).1 with
          | [] => ([], c :: (newlineLines cs).2)
          | line :: lines => ((c :: line) :: lines, (newlineLines cs).2) := by
        rw [newlineLines, if_neg hc]
      rw [e1, e2, ih]
      cases h : (newlineLines cs).1 with
      | nil =>
        simp only [List.nil_append, List.cons_append]
        have e3 : newlineLines (c :: ((newlineLines cs).2 ++ p)) =
            match (newlineLines ((newlineLines cs).2 ++ p)).1 with
            | [] => ([], c :: (newlineLines ((newlineLines cs).2 ++ p)).2)
            | line :: lines =>
              ((c :: line) :: lines, (newlineLines ((newlineLines cs).2 ++ p)).2) := by
          rw [newlineLines, if_neg hc]
        rw [e3]
      | cons l0 ls => rfl

/-- The newline-terminated lines and the rest are the only way to cut a byte sequence
into lines that end in their only newline and a rest without newline. -/
theorem newlineLines_unique (lines : List GoString) (rest : GoString)
    (hl : ∀ l ∈ lines, ∃ body, l = body ++ [newline] ∧ newline ∉ body)
    (hr : newline ∉ rest) :
    newlineLines (lines.flatten ++ rest) = (lines, rest) := by
  induction lines with
  | nil => exact newlineLines_no_newline rest hr
  | cons l ls ih =>
    obtain ⟨body, hb, hn⟩ := hl l (List.mem_cons_self _ _)
    have ih2 := ih (fun x hx => hl x (List.mem_cons_of_mem _ hx))
    have key : ∀ (b : GoString), newline ∉ b →
        newlineLines (b ++ [newline] ++ (ls.flatten ++ rest)) = ((b ++ [newline]) :: ls, rest) := by
      intro b
      induction b with
      | nil =>
        intro _
        show newlineLines (newline :: (ls.flatten ++ rest)) = _
        rw [newlineLines, if_pos rfl, ih2]
        rfl
      | cons c cs ihb =>
        intro hcs
        have hc : c ≠ newline := fun e => hcs (by rw [e]; exact List.mem_cons_self _ _)
        have := ihb (fun e => hcs (List.mem_cons_of_mem _ e))
        show newlineLines (c :: (cs ++ [newline] ++ (ls.flatten ++ rest))) = _
        rw [newlineLines, if_neg hc, this]
        rfl
    rw [List.flatten_cons, hb, List.append_assoc]
    exact key body hn

/-- Go `ReadBytes` against the newline-terminated lines: with a newline in the buffer
it hands over the first line and leaves fewer bytes; without one it hands over all
bytes and reports the end. -/
theorem readBytes_spec (s : GoString) :
    ((readBytes newline s).2.2 = false →
      newlineLines s = ((readBytes newline s).1 :: (newlineLines (readBytes newline s).2.1).1,
        (newlineLines (readBytes newline s).2.1).2) ∧
      (readBytes newline s).2.1.length < s.length) ∧
    ((readBytes newline s).2.2 = true →
      newlineLines s = ([], (readBytes newline s).1)) := by
  induction s with
  | nil =>
    constructor
    · intro h
      simp [readBytes] at h
    · intro _
      rfl
  | cons c cs ih =>
    by_cases hc : c = newline
    · have e : readBytes newline (c :: cs) = ([c], cs, false) := by
        rw [readBytes, if_pos hc]
      rw [e]
      constructor
      · intro _
        refine ⟨?_, by simp⟩
        rw [newlineLines, if_pos hc]
      · intro h
        simp at h
    · have e : readBytes newline (c :: cs) =
          ((c :: (readBytes newline cs).1), (readBytes newline cs).2.1,
            (readBytes newline cs).2.2) := by
        rw [readBytes, if_neg hc]
      rw [e]
      constructor
      · intro h
        obtain ⟨h1, h2⟩ := ih.1 h
        refine ⟨?_, by simp only [List.length_cons]; omega⟩
        rw [newlineLines, if_neg hc, h1]
      · intro h
        have h1 := ih.2 h
        rw [newlineLines, if_neg hc, h1]

/-- The loop of `Write` ends within one round more than the buffer has bytes, having
handed over the newline-terminated lines and kept the rest. -/
theorem writeLoop_spec : ∀ (fuel : Nat) (s : GoString), s.length < fuel →
    writeLoop fuel s = some (newlineLines s)
  | 0, _, h => absurd h (Nat.not_lt_zero _)
  | fuel + 1, s, h => by
    obtain ⟨h1, h2⟩ := readBytes_spec s
    unfold writeLoop
    rcases hr : readBytes newline s with ⟨line, rest, eof⟩
    rw [hr] at h1 h2
    cases eof with
    | true =>
      simp only []
      rw [h2 rfl]
    | false =>
      obtain ⟨k1, k2⟩ := h1 rfl
      simp only [] at k1 k2 ⊢
      rw [writeLoop_spec fuel rest (by omega), k1]

/-- One `Write` on a buffer without newline: it returns, hands over the
newline-terminated lines of buffer plus argument, keeps the rest, and reports the
length of its argument and no error. -/
theorem write_spec (buf p : GoString) (hb : newline ∉ buf) :
    Write buf p = some
      { buf := (newlineLines (buf ++ p)).2
        lines := (newlineLines (buf ++ p)).1
        n := p.length
        err := none } := by
  unfold Write
  by_cases hp : p.contains newline = true
  · rw [if_pos hp, writeLoop_spec _ _ (Nat.lt_succ_self _)]
  · rw [if_neg hp]
    have hn : newline ∉ buf ++ p := by
      intro hm
      rcases List.mem_append.mp hm with e | e
      · exact hb e
      · exact hp (by simp [e])
    rw [newlineLines_no_newline _ hn]

/-- Successive `Write` calls on a buffer without newline: all return, and together
they hand over the newline-terminated lines of the buffer plus all arguments. -/
theorem writeAll_spec : ∀ (chunks : List GoString) (buf : GoString), newline ∉ buf →
    writeAll buf chunks = some
      ((newlineLines (buf ++ chunks.flatten)).2, (newlineLines (buf ++ chunks.flatten)).1,
        chunks.map (fun p => (p.length, none)))
  | [], buf, hb => by
    unfold writeAll
    rw [List.flatten_nil, List.append_nil, newlineLines_no_newline buf hb]
    rfl
  | p :: rest, buf, hb => by
    unfold writeAll
    rw [write_spec buf p hb]
    simp only []
    rw [writeAll_spec rest _ (newlineLines_rest _), List.flatten_cons, ← List.append_assoc,
      newlineLines_append (buf ++ p) rest.flatten]
    rfl

/-- C13: successive `Write` calls on a new writer all return, each with the length of
its argument and no error; the lines handed to `onLine` are the newline-terminated
lines of the concatenated arguments, in order, and the buffer is left with the bytes
after the last newline.  These lines and this rest depend on the concatenation only,
not on where it is cut into arguments: they are the one way to write it as lines
ending in their only newline followed by a rest without newline. -/
theorem write_lines_of_concatenation (chunks : List GoString) :
    writeAll [] chunks = some
      ((newlineLines chunks.flatten).2, (newlineLines chunks.flatten).1,
        chunks.map (fun p => (p.length, none))) ∧
    (newlineLines chunks.flatten).1.flatten ++ (newlineLines chunks.flatten).2
      = chunks.flatten ∧
    (∀ l ∈ (newlineLines chunks.flatten).1, ∃ body, l = body ++ [newline] ∧ newline ∉ body) ∧
    newline ∉ (newlineLines chunks.flatten).2 ∧
    (∀ (lines : List GoString) (rest : GoString),
      lines.flatten ++ rest = chunks.flatten →
      (∀ l ∈ lines, ∃ body, l = body ++ [newline] ∧ newline ∉ body) →
      newline ∉ rest →
      (lines, rest) = newlineLines chunks.flatten) :=
  ⟨writeAll_spec chunks [] (by simp), newlineLines_flatten _, newlineLines_lines _,
    newlineLines_rest _,
    fun lines rest h1 h2 h3 => by rw [← h1, newlineLines_unique lines rest h2 h3]⟩

/-! ## Removing from the catalog (C14) -/

/-- C14: `removeRecordingFromMem` leaves the catalog as it is when no entry has the
path, and otherwise removes the first entry with the path and nothing else, the other
entries keeping their order. -/
theorem removeRecordingFromMem_removes_first (recordings : List Recording) (path : GoString) :
    ((∀ r ∈ recordings, r.Path ≠ path) →
      removeRecordingFromMem recordings path = recordings) ∧
    (∀ (before after : List Recording) (r : Recording),
      recordings = before ++ r :: after → (∀ x ∈ before, x.Path ≠ path) → r.Path = path →
      removeRecordingFromMem recordings path = before ++ after) := by
  constructor
  · induction recordings with
    | nil =>
      intro _
      rfl
    | cons r rest ih =>
      intro h
      unfold removeRecordingFromMem
      rw [if_neg (h r (List.mem_cons_self _ _)), ih (fun x hx => h x (List.mem_cons_of_mem _ hx))]
  · intro before
    induction before generalizing recordings with
    | nil =>
      intro after r he _ hp
      rw [he]
      show removeRecordingFromMem (r :: after) path = after
      unfold removeRecordingFromMem
      rw [if_pos hp]
    | cons b bs ih =>
      intro after r he hb hp
      rw [he]
      show removeRecordingFromMem (b :: (bs ++ r :: after)) path = b :: (bs ++ after)
      unfold removeRecordingFromMem
      rw [if_neg (hb b (List.mem_cons_self _ _)),
        ih (bs ++ r :: after) after r rfl (fun x hx => hb x (List.mem_cons_of_mem _ hx)) hp]

/-! ## The claims at concrete inputs -/

/-- Witness for C1: the two-line log of `demoLog` fed to a freshly initialised stream;
the only invocation is made by the second line and carries the pair of the first. -/
theorem onLine_closes_previous_segment_witness :
    (initStream demoSentinel).LastSegmentOpenedName = [] ∧
    closedCalls (initStream demoSentinel) demoLog
      = [({ sec := 1745442545, nsec := 250000000 },
          "media/cam/archive/cam-2025-04-23-21-09-05.mp4".toList)] ∧
    closedCalls (initStream demoSentinel)
        ([(nowsAt { sec := 1745442545, nsec := 250000000 },
            segmentLine "media/cam/archive/cam-2025-04-23-21-09-05.mp4")]
          ++ [(nowsAt { sec := 1745442845, nsec := 250000000 },
            segmentLine "media/cam/archive/cam-2025-04-23-21-14-05.mp4")])
      = (if (initStream demoSentinel).OnSegmentClosedSet = true
          then (segmentOpens
            ([(nowsAt { sec := 1745442545, nsec := 250000000 },
                segmentLine "media/cam/archive/cam-2025-04-23-21-09-05.mp4")]
              ++ [(nowsAt { sec := 1745442845, nsec := 250000000 },
                segmentLine "media/cam/archive/cam-2025-04-23-21-14-05.mp4")])).dropLast
          else []) :=
  ⟨rfl, by decide,
    (onLine_closes_previous_segment (initStream demoSentinel) rfl
      [(nowsAt { sec := 1745442545, nsec := 250000000 },
        segmentLine "media/cam/archive/cam-2025-04-23-21-09-05.mp4")]
      (nowsAt { sec := 1745442845, nsec := 250000000 })
      (segmentLine "media/cam/archive/cam-2025-04-23-21-14-05.mp4")).2.2⟩

/-- Counterexample to C2 as stated: the recording that the segment-closed callback
sends for `demoLog` starts at the instant the line was processed (21:09:05.25), which
is not the instant parsed from its base name (21:09:05). -/
theorem callback_start_is_not_parsed_stamp :
    (callbackSaves (camInput 1 10) demoLog demoMidnight).map
        (fun op => match op with
          | CatalogOp.save r => decide (parseRecordingTime (pathBase r.Path) = some r.Start)
          | _ => true) = [false] := by
  decide

/-- Counterexample to C3 as stated: with a limit of one hour and `now` exactly one hour
after the stamp of the file, the file's timestamp equals `now` minus one hour and the
age pass removes it. -/
theorem recordingsByDate_removes_at_boundary :
    parseRecordingTime "media/cam/archive/cam-2025-04-23-21-09-05.mp4".toList
      = some { sec := 1745446145 - 3600 * 1, nsec := 0 } ∧
    recordingsByDate (camInput 1 0) { sec := 1745446145, nsec := 0 }
        [dirEntry "media/cam/archive",
          fileEntry "media/cam/archive/cam-2025-04-23-21-09-05.mp4" 3000000]
      = { kept := [dirEntry "media/cam/archive"]
          removed := [fileEntry "media/cam/archive/cam-2025-04-23-21-09-05.mp4" 3000000]
          err := none } := by
  decide

/-- C4 at its failing input: in `thumbnailWalk` every file is older than the one-hour
limit at midnight, yet the age pass removes only the first recording and ends with a
parse error at its thumbnail, leaving the thumbnail and the later recording. -/
theorem recordingsByDate_stops_at_thumbnail :
    recordingsByDate (camInput 1 0) demoMidnight thumbnailWalk =
      { kept := [dirEntry "media/cam/archive",
          fileEntry "media/cam/archive/cam-2025-04-23-21-09-05.mp4.jpg" 20000,
          fileEntry "media/cam/archive/cam-2025-04-23-21-14-05.mp4" 3000000]
        removed := [fileEntry "media/cam/archive/cam-2025-04-23-21-09-05.mp4" 3000000]
        err := some PruneError.parseTime } := by
  decide

/-- Counterexample to C7 as stated: the base name `cam.mp4` has 7 bytes, and the size
pass removes the file without any error. -/
theorem recordingsBySize_removes_short_name :
    (pathBase "media/cam/archive/cam.mp4".toList).length = 7 ∧
    recordingsBySize (camInput 0 1)
        [dirEntry "media/cam/archive", fileEntry "media/cam/archive/cam.mp4" 2000000]
      = { kept := [dirEntry "media/cam/archive"]
          removed := [fileEntry "media/cam/archive/cam.mp4" 2000000]
          err := none } := by
  decide

/-- Witness for C7: the file `media/cam/archive/cam.mp4`. -/
theorem short_names_in_archive_passes_witness :
    (fileEntry "media/cam/archive/cam.mp4" 2000000).isDir = false ∧
    (fileEntry "media/cam/archive/cam.mp4" 2000000).walkErr = false ∧
    (recordingDateStep (camInput 1 1) demoMidnight (fileEntry "media/cam/archive/cam.mp4" 2000000)
        = WalkStep.fail PruneError.unexpectedFile ∨
      recordingDateStep (camInput 1 1) demoMidnight (fileEntry "media/cam/archive/cam.mp4" 2000000)
        = WalkStep.fail PruneError.parseTime) ∧
    recordingSizeStep (camInput 1 1) 1000000 2000000
        (fileEntry "media/cam/archive/cam.mp4" 2000000) = WalkStep.removed :=
  ⟨rfl, rfl,
    (short_names_in_archive_passes (camInput 1 1) (fileEntry "media/cam/archive/cam.mp4" 2000000)
      rfl rfl).2.1 demoMidnight "media/cam/archive".toList "cam.mp4".toList (by decide)
        (by decide),
    (short_names_in_archive_passes (camInput 1 1) (fileEntry "media/cam/archive/cam.mp4" 2000000)
      rfl rfl).2.2 1000000 2000000 (by decide) rfl (Or.inl (by decide)) (by decide)⟩

/-- Counterexample to C8 as stated: the catalog that the two sort signals of
`steppedOps` leave is in the order of the appends.  The recording opened after the wall
clock was set back has the smallest key, with its start at 20:49:05.25, and stands
last, for Go orders it after the two recordings before it by the monotonic readings; it
is less, for the `less` of the catalog writer, than the recording of 20:55:00 that
stands first; and the newest-first listing begins with it. -/
theorem sort_signal_leaves_clock_step :
    runCatalog xorshiftNext [] steppedOps
      = sortRecordings xorshiftNext (runCatalog xorshiftNext [] steppedOps.dropLast) ∧
    (runCatalog xorshiftNext [] steppedOps).map Recording.Path
      = ["media/cam/archive/cam-2025-04-23-20-55-00.mp4".toList,
          "media/cam/archive/cam-2025-04-23-21-09-05.mp4".toList,
          "media/cam/archive/cam-2025-04-23-21-14-05.mp4".toList,
          "media/cam/archive/cam-2025-04-23-20-49-05.mp4".toList] ∧
    ¬ (runCatalog xorshiftNext [] steppedOps).Pairwise (fun a b => ¬ keyLt b a) ∧
    ¬ (runCatalog xorshiftNext [] steppedOps).Pairwise (fun a b => recordingLess b a = false) ∧
    ¬ (∀ a ∈ runCatalog xorshiftNext [] steppedOps,
        ∀ b ∈ runCatalog xorshiftNext [] steppedOps, StartsAgree a b) ∧
    ((newestFirst (runCatalog xorshiftNext [] steppedOps)).map Recording.Start).head?
      = some { sec := 1745441345, nsec := 250000000 } := by
  decide

/-- Witness for C8: `nightCatalog` with `lateRecording` appended has fifteen entries,
more than `sort.Slice` sorts by insertion alone; Go orders their starts as the wall
clock does; and the newest-first listing after the sort signal has `lateRecording`
second, after the recording of `door` that was opened later and appended before it. -/
theorem sort_signal_orders_catalog_witness :
    (∀ a ∈ saveRecording nightCatalog lateRecording,
      ∀ b ∈ saveRecording nightCatalog lateRecording, StartsAgree a b) ∧
    (saveRecording nightCatalog lateRecording).length = 15 ∧
    ((newestFirst (sortRecordings xorshiftNext (saveRecording nightCatalog lateRecording))).take 4).map
        Recording.ID =
      ["door-2025-04-23-21-01-00.mp4".toList, "cam-2025-04-23-21-00-05.mp4".toList,
       "cam-2025-04-23-20-55-05.mp4".toList, "door-2025-04-23-20-52-30.mp4".toList] ∧
    (sortRecordings xorshiftNext nightCatalog).Perm nightCatalog ∧
    (sortRecordings xorshiftNext nightCatalog).Pairwise (fun a b => ¬ keyLt b a) ∧
    (∃ before after,
      newestFirst (sortRecordings xorshiftNext (saveRecording nightCatalog lateRecording)) =
        before ++ lateRecording :: after ∧
      (∀ x ∈ before, ¬ keyLt x lateRecording) ∧ (∀ x ∈ after, ¬ keyLt lateRecording x)) :=
  ⟨by decide, by decide, by decide,
    (sort_signal_orders_catalog xorshiftNext nightCatalog lateRecording).2.1,
    (sort_signal_orders_catalog xorshiftNext nightCatalog lateRecording).2.2.1 (by decide),
    (sort_signal_orders_catalog xorshiftNext nightCatalog lateRecording).2.2.2 (by decide)⟩

/-- Counterexample to C9 as stated: when the log opens the same archive file twice
(`repeatLog`), the segment-closed callback appends two recordings with that path. -/
theorem catalog_gets_duplicate_path :
    ¬ ((runCatalog xorshiftNext [] (callbackSaves (camInput 1 10) repeatLog demoMidnight)).map
        Recording.Path).Nodup := by
  decide

/-- Witness for C9: in `busyOps` the loader appends five recordings, the callbacks two
more, one is removed and the catalog is sorted twice; every append is of a new path,
and the six entries left have distinct paths, as the catalog had after every step. -/
theorem catalog_paths_distinct_witness :
    freshSaves xorshiftNext [] busyOps = true ∧
    (runCatalog xorshiftNext [] busyOps).length = 6 ∧
    (∀ k, k ≤ busyOps.length →
      ((runCatalog xorshiftNext [] (busyOps.take k)).map Recording.Path).Nodup) :=
  ⟨by decide, by decide, (catalog_paths_distinct xorshiftNext busyOps).1.mpr (by decide)⟩

/-- Witness for C10: the path of the first recording of `demoLog`. -/
theorem parseRecordingTime_format_roundtrip_witness :
    parseRecordingTime "media/cam/archive/cam-2025-04-23-21-09-05.mp4".toList
      = some { sec := 1745442545, nsec := 0 } ∧
    formatStamp { sec := 1745442545, nsec := 0 } = "2025-04-23-21-09-05".toList ∧
    (formatStamp { sec := 1745442545, nsec := 0 }).length = 19 :=
  ⟨by decide, by decide,
    ((parseRecordingTime_format_roundtrip
      "media/cam/archive/cam-2025-04-23-21-09-05.mp4".toList).1
        { sec := 1745442545, nsec := 0 } (by decide)).1⟩

/-- Counterexample to C11 as stated: in the stalled recording the last file was opened
3 min 24 s before the tick, the file-opened flag is stored false and the restart
function is set, yet the tick invokes the restart function twice, the second time
for the archive segment opened 15 min 54 s before. -/
theorem monitorTick_restarts_twice :
    180000000000 < nanosBetween stallTick.fileOpened stalledStream.LastFileOpened ∧
    stalledStream.LastFileOpenedInErr = false ∧
    stalledStream.RestartRecordingSet = true ∧
    (monitorTick stalledStream stallTick).1.LastFileOpenedInErr = true ∧
    (monitorTick stalledStream stallTick).2 =
      [RestartCause.fileOpened, RestartCause.segmentOpened] := by
  decide

/-- Witness for C11: with the archive segment opened 5 min 54 s before the tick, the
restart function is invoked once. -/
theorem monitorTick_file_edge_restarts_witness :
    180000000000 < nanosBetween stallTick.fileOpened playlistStalled.LastFileOpened ∧
    playlistStalled.LastFileOpenedInErr = false ∧
    playlistStalled.RestartRecordingSet = true ∧
    (monitorTick playlistStalled stallTick).1.LastFileOpenedInErr = true ∧
    (monitorTick playlistStalled stallTick).2 = [RestartCause.fileOpened] :=
  ⟨by decide, by decide, by decide,
    (monitorTick_file_edge_restarts playlistStalled stallTick (by decide) (by decide)
      (by decide) (by decide) (by decide)).1,
    (monitorTick_file_edge_restarts playlistStalled stallTick (by decide) (by decide)
      (by decide) (by decide) (by decide)).2.trans (by decide)⟩

/-- Witness for C12: the tick of the stalled recording, 15 min 55 s after the last
restart, clears the restart flag and sets the two others. -/
theorem monitorTick_stores_flags_witness :
    ¬ nanosBetween stallTick.restart stalledStream.LastRestart < 300000000000 ∧
    ¬ (monitorTick stalledStream stallTick).1.LastRestartInErr = true ∧
    (monitorTick stalledStream stallTick).1.LastFileOpenedInErr = true ∧
    (monitorTick stalledStream stallTick).1.LastSegmentOpenedInErr = true :=
  ⟨by decide,
    fun h => absurd ((monitorTick_stores_flags stalledStream stallTick
      ⟨by decide, by decide⟩ ⟨by decide, by decide⟩ ⟨by decide, by decide⟩).1.mp h) (by decide),
    (monitorTick_stores_flags stalledStream stallTick
      ⟨by decide, by decide⟩ ⟨by decide, by decide⟩ ⟨by decide, by decide⟩).2.1.mpr (by decide),
    (monitorTick_stores_flags stalledStream stallTick
      ⟨by decide, by decide⟩ ⟨by decide, by decide⟩ ⟨by decide, by decide⟩).2.2.1.mpr
        (by decide)⟩

/-- The writer at concrete chunks: cut in the middle of lines or not cut at all, the
same three lines reach `onLine` and the same bytes stay in the buffer. -/
theorem writeAll_chunks_example :
    stderrChunks.flatten = stderrBytes ∧
    writeAll [] stderrChunks = some
      ("frame=".toList,
        ["frame=1".toList ++ [newline],
          segmentLine "media/cam/archive/cam-2025-04-23-21-09-05.mp4", [newline]],
        ([(3, none), (30, none), (0, none), (1, none), (72, none)] :
          List (Nat × Option GoString))) ∧
    writeAll [] [stderrBytes] = some
      ("frame=".toList,
        ["frame=1".toList ++ [newline],
          segmentLine "media/cam/archive/cam-2025-04-23-21-09-05.mp4", [newline]],
        ([(106, none)] : List (Nat × Option GoString))) :=
  ⟨by decide, by decide, by decide⟩

/-- Witness for C15: the camera that never comes up; its three ticks invoke nothing. -/
theorem quiet_stream_never_restarts_witness :
    (∀ e ∈ deadCameraLog, quietEvent demoSentinel e = true) ∧
    (runEvents (initStream demoSentinel) deadCameraLog).1.RestartRecordingSet = true ∧
    (runEvents (initStream demoSentinel) deadCameraLog).2.length = 12 ∧
    (∀ calls ∈ (runEvents (initStream demoSentinel) deadCameraLog).2, calls = []) :=
  ⟨by decide, by decide, by decide,
    (quiet_stream_never_restarts demoSentinel deadCameraLog (by decide) (by decide)).1⟩

end CreamyNvr
